import Mathlib

/-!
# Verification of the maze path-search module (`src/pathfinder.ts`)

This file gives a shallow embedding of the TypeScript module `pathfinder.ts`
of the Dual-Maze-Escape repository and proves the specification claims about
it.

Modelling conventions:

* JavaScript integer coordinates are modelled as `Int` (the call sites only use
  integers, and every arithmetic operation in the module is `+ 1` / `- 1`).
* `maze[y][x]` is modelled by `cellAt`: accessing a row or a cell outside the
  array yields JavaScript `undefined`, and the module only ever dereferences
  such a value through a wall accessor (`cell => cell.north` …), which throws
  a `TypeError`.  The embedding therefore returns `JsResult.typeError`
  exactly where the program would throw.
* `Set<string>` keyed by `` `${x},${y}` `` is modelled as a `List Coord`:
  the key function is injective on integer pairs, so the string set is
  observationally a set of coordinate pairs.
* `Map` is modelled as an association list where `set` conses a binding
  (lookup finds the most recent one, as `Map.get` does).
* `Array.prototype.sort(cmp)` with a consistent comparator is required by the
  ECMAScript specification (ES2019 and later) to be a stable sort, which
  determines the result uniquely; it is modelled by the stable insertion sort
  `sortBy`.
* Each `while` loop is modelled by a fuelled recursion; fuel exhaustion is the
  distinguished result `JsResult.outOfFuel`, and totality lemmas below prove
  that with the fuel supplied by the top-level wrappers it never occurs, so
  the wrappers compute exactly what the (always-terminating) JS loops compute.
-/

namespace Pathfinder

/-- `interface MazeCell { north, east, south, west : boolean }`. -/
structure MazeCell where
  north : Bool
  east : Bool
  south : Bool
  west : Bool
deriving DecidableEq, Repr

/-- A coordinate pair `[x, y]`. -/
abbrev Coord := Int × Int

/-- `MazeCell[][]`, indexed `maze[y][x]`. -/
abbrev Maze := List (List MazeCell)

/-- The four movement directions, in the source order Up, Right, Down, Left. -/
inductive Dir where
  | up
  | right
  | down
  | left
deriving DecidableEq, Repr

/-- The `directions` array order used by every algorithm in the module. -/
def dirList : List Dir := [Dir.up, Dir.right, Dir.down, Dir.left]

/-- `{dx, dy}` of a direction. -/
def dirDelta : Dir → Int × Int
  | Dir.up => (0, -1)
  | Dir.right => (1, 0)
  | Dir.down => (0, 1)
  | Dir.left => (-1, 0)

/-- The wall accessor of a direction (`cell => cell.north`, …). -/
def dirWall : Dir → MazeCell → Bool
  | Dir.up => MazeCell.north
  | Dir.right => MazeCell.east
  | Dir.down => MazeCell.south
  | Dir.left => MazeCell.west

/-- `maze[y][x]` as a JavaScript member access: `none` models `undefined`
(row missing, or cell missing in the row). -/
def cellAt (maze : Maze) (x y : Int) : Option MazeCell :=
  if 0 ≤ x ∧ 0 ≤ y then (maze[y.toNat]?).bind (fun row => row[x.toNat]?) else none

/-- `MAZE_WIDTH = maze[0].length` (the module reads the first row's length). -/
def mazeWidth (maze : Maze) : Nat := (maze.headD []).length

/-- `MAZE_HEIGHT = maze.length`. -/
def mazeHeight (maze : Maze) : Nat := maze.length

/-- The bounds test `nx >= 0 && nx < W && ny >= 0 && ny < H` applied to
neighbour coordinates. -/
def inBounds (W H : Nat) (x y : Int) : Bool :=
  decide (0 ≤ x) && decide (x < (W : Int)) && decide (0 ≤ y) && decide (y < (H : Int))

/-- Result of running a piece of JavaScript: a value, a thrown `TypeError`,
or exhaustion of the fuel of the modelled loop (never happens; see the
totality lemmas). -/
inductive JsResult (α : Type) where
  | ok : α → JsResult α
  | typeError : JsResult α
  | outOfFuel : JsResult α
deriving DecidableEq, Repr

/-- `interface SearchNode { x, y : number; path : [number, number][] }`. -/
structure SearchNode where
  x : Int
  y : Int
  path : List Coord
deriving DecidableEq, Repr

/-- Node coordinate as a pair. -/
def SearchNode.coord (n : SearchNode) : Coord := (n.x, n.y)

/-- `heuristic`: Manhattan distance to the exit. -/
def heuristic (x y endX endY : Int) : Nat :=
  (x - endX).natAbs + (y - endY).natAbs

/-- Neighbour coordinate in direction `d`. -/
def moveTo (c : Coord) (d : Dir) : Coord :=
  (c.1 + (dirDelta d).1, c.2 + (dirDelta d).2)

/-- Stable insertion sort by a boolean "less or equal" test; models
`Array.prototype.sort` with a consistent comparator (stable per ES2019,
hence uniquely determined). -/
def insertBy {α : Type} (le : α → α → Bool) (x : α) : List α → List α
  | [] => [x]
  | y :: ys => if le x y then x :: y :: ys else y :: insertBy le x ys

/-- See `insertBy`. -/
def sortBy {α : Type} (le : α → α → Bool) : List α → List α
  | [] => []
  | x :: xs => insertBy le x (sortBy le xs)

/-! ## DFS (path mode)

```text
while (stack.length > 0) {
  const node = stack.pop()!;
  if (visited.has(key)) continue;
  visited.add(key);
  if (x === endX && y === endY) return path.slice(1);
  for (let i = directions.length - 1; i >= 0; i--) { … stack.push(…) }
}
return [];
```
-/

/-- The reversed-order neighbour pushes of one DFS expansion
(`for (let i = 3; i >= 0; i--)`, so the list below is Left, Down, Right, Up;
each accepted neighbour is pushed, i.e. consed, so Up ends on top). -/
def dfsPush (maze : Maze) (W H : Nat) (x y : Int) (visited : List Coord)
    (path : List Coord) : List Dir → List SearchNode → JsResult (List SearchNode)
  | [], stack => .ok stack
  | d :: rest, stack =>
    let nx := x + (dirDelta d).1
    let ny := y + (dirDelta d).2
    if inBounds W H nx ny then
      match cellAt maze x y with
      | none => .typeError
      | some cell =>
        if dirWall d cell then
          dfsPush maze W H x y visited path rest stack
        else if visited.contains (nx, ny) then
          dfsPush maze W H x y visited path rest stack
        else
          dfsPush maze W H x y visited path rest (⟨nx, ny, path ++ [(nx, ny)]⟩ :: stack)
    else
      dfsPush maze W H x y visited path rest stack

/-- The DFS `while` loop (stack head = top of stack). -/
def dfsLoop (maze : Maze) (endX endY : Int) :
    Nat → List SearchNode → List Coord → JsResult (List Coord)
  | 0, _, _ => .outOfFuel
  | _ + 1, [], _ => .ok []
  | fuel + 1, node :: stack, visited =>
    if visited.contains (node.x, node.y) then
      dfsLoop maze endX endY fuel stack visited
    else
      let visited' := (node.x, node.y) :: visited
      if node.x = endX ∧ node.y = endY then
        .ok node.path.tail
      else
        match dfsPush maze (mazeWidth maze) (mazeHeight maze) node.x node.y visited'
            node.path [Dir.left, Dir.down, Dir.right, Dir.up] stack with
        | .ok stack' => dfsLoop maze endX endY fuel stack' visited'
        | .typeError => .typeError
        | .outOfFuel => .outOfFuel

/-- Fuel for `dfsLoop`; ample for the measure
`stack.length + 4 * (W*H + 1 - visited.length)` (see `dfsLoop_total`). -/
def dfsFuel (maze : Maze) : Nat := 4 * (mazeWidth maze * mazeHeight maze + 1) + 8

/-- `function dfs(startX, startY, endX, endY, maze)`. -/
def dfs (startX startY endX endY : Int) (maze : Maze) : JsResult (List Coord) :=
  dfsLoop maze endX endY (dfsFuel maze) [⟨startX, startY, [(startX, startY)]⟩] []

/-! ## BFS (path mode)

```text
visited.add(start);
while (queue.length > 0) {
  const node = queue.shift()!;
  if (x === endX && y === endY) return path.slice(1);
  for (const {dx, dy, wall} of directions) { … visited.add; queue.push … }
}
return [];
```
-/

/-- One BFS expansion: the four directions in order Up, Right, Down, Left,
appending accepted neighbours to the queue and marking them visited at
enqueue time. -/
def bfsPush (maze : Maze) (W H : Nat) (x y : Int) (path : List Coord) :
    List Dir → List SearchNode → List Coord → JsResult (List SearchNode × List Coord)
  | [], queue, visited => .ok (queue, visited)
  | d :: rest, queue, visited =>
    let nx := x + (dirDelta d).1
    let ny := y + (dirDelta d).2
    if inBounds W H nx ny then
      match cellAt maze x y with
      | none => .typeError
      | some cell =>
        if dirWall d cell then
          bfsPush maze W H x y path rest queue visited
        else if visited.contains (nx, ny) then
          bfsPush maze W H x y path rest queue visited
        else
          bfsPush maze W H x y path rest (queue ++ [⟨nx, ny, path ++ [(nx, ny)]⟩])
            ((nx, ny) :: visited)
    else
      bfsPush maze W H x y path rest queue visited

/-- The BFS `while` loop (queue head = front of queue). -/
def bfsLoop (maze : Maze) (endX endY : Int) :
    Nat → List SearchNode → List Coord → JsResult (List Coord)
  | 0, _, _ => .outOfFuel
  | _ + 1, [], _ => .ok []
  | fuel + 1, node :: queue, visited =>
    if node.x = endX ∧ node.y = endY then
      .ok node.path.tail
    else
      match bfsPush maze (mazeWidth maze) (mazeHeight maze) node.x node.y node.path
          dirList queue visited with
      | .ok (queue', visited') => bfsLoop maze endX endY fuel queue' visited'
      | .typeError => .typeError
      | .outOfFuel => .outOfFuel

/-- Fuel for `bfsLoop` (see `bfsLoop_total`). -/
def bfsFuel (maze : Maze) : Nat := mazeWidth maze * mazeHeight maze + 8

/-- `function bfs(startX, startY, endX, endY, maze)`. -/
def bfs (startX startY endX endY : Int) (maze : Maze) : JsResult (List Coord) :=
  bfsLoop maze endX endY (bfsFuel maze) [⟨startX, startY, [(startX, startY)]⟩]
    [(startX, startY)]

/-! ## DFS (exploration mode) -/

/-- Neighbour pushes of one `dfsExplore` expansion (reverse direction order,
as in `dfs`, but nodes carry no path). -/
def dfsExpPush (maze : Maze) (W H : Nat) (x y : Int) (visited : List Coord) :
    List Dir → List Coord → JsResult (List Coord)
  | [], stack => .ok stack
  | d :: rest, stack =>
    let nx := x + (dirDelta d).1
    let ny := y + (dirDelta d).2
    if inBounds W H nx ny then
      match cellAt maze x y with
      | none => .typeError
      | some cell =>
        if dirWall d cell then
          dfsExpPush maze W H x y visited rest stack
        else if visited.contains (nx, ny) then
          dfsExpPush maze W H x y visited rest stack
        else
          dfsExpPush maze W H x y visited rest ((nx, ny) :: stack)
    else
      dfsExpPush maze W H x y visited rest stack

/-- The `dfsExplore` loop: records every freshly popped coordinate in
`explored`; returns `explored.slice(1)` when the exit is popped or when the
stack empties. -/
def dfsExploreLoop (maze : Maze) (endX endY : Int) :
    Nat → List Coord → List Coord → List Coord → JsResult (List Coord)
  | 0, _, _, _ => .outOfFuel
  | _ + 1, [], _, explored => .ok explored.tail
  | fuel + 1, c :: stack, visited, explored =>
    if visited.contains c then
      dfsExploreLoop maze endX endY fuel stack visited explored
    else
      let visited' := c :: visited
      let explored' := explored ++ [c]
      if c.1 = endX ∧ c.2 = endY then
        .ok explored'.tail
      else
        match dfsExpPush maze (mazeWidth maze) (mazeHeight maze) c.1 c.2 visited'
            [Dir.left, Dir.down, Dir.right, Dir.up] stack with
        | .ok stack' => dfsExploreLoop maze endX endY fuel stack' visited' explored'
        | .typeError => .typeError
        | .outOfFuel => .outOfFuel

/-- `function dfsExplore(startX, startY, endX, endY, maze)`. -/
def dfsExplore (startX startY endX endY : Int) (maze : Maze) : JsResult (List Coord) :=
  dfsExploreLoop maze endX endY (dfsFuel maze) [(startX, startY)] [] []

/-! ## BFS (exploration mode) -/

/-- Neighbour pushes of one `bfsExplore` expansion. -/
def bfsExpPush (maze : Maze) (W H : Nat) (x y : Int) :
    List Dir → List Coord → List Coord → JsResult (List Coord × List Coord)
  | [], queue, visited => .ok (queue, visited)
  | d :: rest, queue, visited =>
    let nx := x + (dirDelta d).1
    let ny := y + (dirDelta d).2
    if inBounds W H nx ny then
      match cellAt maze x y with
      | none => .typeError
      | some cell =>
        if dirWall d cell then
          bfsExpPush maze W H x y rest queue visited
        else if visited.contains (nx, ny) then
          bfsExpPush maze W H x y rest queue visited
        else
          bfsExpPush maze W H x y rest (queue ++ [(nx, ny)]) ((nx, ny) :: visited)
    else
      bfsExpPush maze W H x y rest queue visited

/-- The `bfsExplore` loop. -/
def bfsExploreLoop (maze : Maze) (endX endY : Int) :
    Nat → List Coord → List Coord → List Coord → JsResult (List Coord)
  | 0, _, _, _ => .outOfFuel
  | _ + 1, [], _, explored => .ok explored.tail
  | fuel + 1, c :: queue, visited, explored =>
    let explored' := explored ++ [c]
    if c.1 = endX ∧ c.2 = endY then
      .ok explored'.tail
    else
      match bfsExpPush maze (mazeWidth maze) (mazeHeight maze) c.1 c.2 dirList
          queue visited with
      | .ok (queue', visited') => bfsExploreLoop maze endX endY fuel queue' visited' explored'
      | .typeError => .typeError
      | .outOfFuel => .outOfFuel

/-- `function bfsExplore(startX, startY, endX, endY, maze)`. -/
def bfsExplore (startX startY endX endY : Int) (maze : Maze) : JsResult (List Coord) :=
  bfsExploreLoop maze endX endY (bfsFuel maze) [(startX, startY)] [(startX, startY)] []

/-! ## A* (path mode)

`gScore` is a `Map` from coordinates to numbers; the number stored can be
`Infinity` (if a lookup defaulted to `Infinity` and `+ 1` produced
`Infinity`), so the stored values are modelled as `WithTop Nat`.
-/

/-- `gScore.get(key) ?? Infinity`. -/
def gLookup (g : List (Coord × WithTop Nat)) (c : Coord) : WithTop Nat :=
  (g.lookup c).getD ⊤

/-- `fScore(node) = (gScore.get(key) ?? Infinity) + heuristic(x, y, endX, endY)`. -/
def fScore (g : List (Coord × WithTop Nat)) (endX endY : Int) (n : SearchNode) :
    WithTop Nat :=
  gLookup g (n.x, n.y) + (heuristic n.x n.y endX endY : Nat)

/-- Comparator used by `openSet.sort((a, b) => fScore(a) - fScore(b))`. -/
def fLe (g : List (Coord × WithTop Nat)) (endX endY : Int) (a b : SearchNode) : Bool :=
  decide (fScore g endX endY a ≤ fScore g endX endY b)

/-- Replace the path of the first node with the given coordinate
(`openSet[existingNodeIndex].path = …`). -/
def setPathAt : List SearchNode → Coord → List Coord → List SearchNode
  | [], _, _ => []
  | n :: ns, c, p =>
    if n.x = c.1 ∧ n.y = c.2 then { n with path := p } :: ns
    else n :: setPathAt ns c p

/-- One A* expansion: the four directions in order, threading
`(openSet, gScore)`. -/
def astarPush (maze : Maze) (W H : Nat) (x y : Int) (closed : List Coord)
    (path : List Coord) :
    List Dir → List SearchNode → List (Coord × WithTop Nat) →
    JsResult (List SearchNode × List (Coord × WithTop Nat))
  | [], open_, g => .ok (open_, g)
  | d :: rest, open_, g =>
    let nx := x + (dirDelta d).1
    let ny := y + (dirDelta d).2
    if inBounds W H nx ny then
      match cellAt maze x y with
      | none => .typeError
      | some cell =>
        if dirWall d cell then
          astarPush maze W H x y closed path rest open_ g
        else if closed.contains (nx, ny) then
          astarPush maze W H x y closed path rest open_ g
        else
          let tentative : WithTop Nat := gLookup g (x, y) + 1
          match open_.find? (fun n => n.x = nx ∧ n.y = ny) with
          | none =>
            astarPush maze W H x y closed path rest
              (open_ ++ [⟨nx, ny, path ++ [(nx, ny)]⟩]) (((nx, ny), tentative) :: g)
          | some _ =>
            if tentative < gLookup g (nx, ny) then
              astarPush maze W H x y closed path rest
                (setPathAt open_ (nx, ny) (path ++ [(nx, ny)])) (((nx, ny), tentative) :: g)
            else
              astarPush maze W H x y closed path rest open_ g
    else
      astarPush maze W H x y closed path rest open_ g

/-- The A* `while` loop: sort the open set by `fScore`, shift the head,
return its path when it is the goal, otherwise close it and expand. -/
def astarLoop (maze : Maze) (endX endY : Int) :
    Nat → List SearchNode → List Coord → List (Coord × WithTop Nat) →
    JsResult (List Coord)
  | 0, _, _, _ => .outOfFuel
  | fuel + 1, open_, closed, g =>
    match sortBy (fLe g endX endY) open_ with
    | [] => .ok []
    | current :: rest =>
      if current.x = endX ∧ current.y = endY then
        .ok current.path.tail
      else
        let closed' := (current.x, current.y) :: closed
        match astarPush maze (mazeWidth maze) (mazeHeight maze) current.x current.y
            closed' current.path dirList rest g with
        | .ok (open', g') => astarLoop maze endX endY fuel open' closed' g'
        | .typeError => .typeError
        | .outOfFuel => .outOfFuel

/-- Fuel for `astarLoop` (see `astarLoop_total`). -/
def astarFuel (maze : Maze) : Nat := 5 * (mazeWidth maze * mazeHeight maze + 1) + 8

/-- `function astar(startX, startY, endX, endY, maze)`. -/
def astar (startX startY endX endY : Int) (maze : Maze) : JsResult (List Coord) :=
  astarLoop maze endX endY (astarFuel maze) [⟨startX, startY, [(startX, startY)]⟩] []
    [((startX, startY), (0 : Nat))]

/-! ## A* (exploration mode, `astarExplore`) -/

/-- `interface AStarExploreSearchNode { x, y, g : number }`; `g` is always a
finite natural number (it starts at `0` and grows by `current.g + 1`). -/
structure ExpNode where
  x : Int
  y : Int
  g : Nat
deriving DecidableEq, Repr

/-- `f(n) = n.g + heuristic(n.x, n.y, endX, endY)` — note it uses the node's
own `g` field, unlike `astar`. -/
def expF (endX endY : Int) (n : ExpNode) : Nat :=
  n.g + heuristic n.x n.y endX endY

/-- Comparator of the `astarExplore` sort. -/
def expLe (endX endY : Int) (a b : ExpNode) : Bool :=
  decide (expF endX endY a ≤ expF endX endY b)

/-- Replace the `g` field of the first node with the given coordinate
(`existingNodeInOpenSet.g = tentativeG`). -/
def setGAt : List ExpNode → Coord → Nat → List ExpNode
  | [], _, _ => []
  | n :: ns, c, gv =>
    if n.x = c.1 ∧ n.y = c.2 then { n with g := gv } :: ns
    else n :: setGAt ns c gv

/-- One `astarExplore` expansion, threading `(openSet, gScore, cameFrom)`.
The guard order matches the source: bounds, wall (read of the current cell,
which throws on an out-of-grid current cell), closed set, then the
`tentativeG < (gScore.get(nkey) ?? Infinity)` improvement test. -/
def expPush (maze : Maze) (W H : Nat) (x y : Int) (gCur : Nat) (closed : List Coord) :
    List Dir → List ExpNode → List (Coord × Nat) → List (Coord × Coord) →
    JsResult (List ExpNode × List (Coord × Nat) × List (Coord × Coord))
  | [], open_, g, cf => .ok (open_, g, cf)
  | d :: rest, open_, g, cf =>
    let nx := x + (dirDelta d).1
    let ny := y + (dirDelta d).2
    if inBounds W H nx ny then
      match cellAt maze x y with
      | none => .typeError
      | some cell =>
        if dirWall d cell then
          expPush maze W H x y gCur closed rest open_ g cf
        else if closed.contains (nx, ny) then
          expPush maze W H x y gCur closed rest open_ g cf
        else
          let tentative := gCur + 1
          if (match g.lookup (nx, ny) with
              | none => true
              | some m => decide (tentative < m)) then
            let g' := ((nx, ny), tentative) :: g
            let cf' := ((nx, ny), (x, y)) :: cf
            match open_.find? (fun n => n.x = nx ∧ n.y = ny) with
            | none => expPush maze W H x y gCur closed rest
                (open_ ++ [⟨nx, ny, tentative⟩]) g' cf'
            | some _ => expPush maze W H x y gCur closed rest
                (setGAt open_ (nx, ny) tentative) g' cf'
          else
            expPush maze W H x y gCur closed rest open_ g cf
    else
      expPush maze W H x y gCur closed rest open_ g cf

/-- The `astarExplore` main loop.  It ends (goal popped, or open set empty)
with the final `(explored, gScore, cameFrom)` for path reconstruction. -/
def expLoop (maze : Maze) (startX startY endX endY : Int) :
    Nat → List ExpNode → List Coord → List Coord → List (Coord × Nat) →
    List (Coord × Coord) →
    JsResult (List Coord × List (Coord × Nat) × List (Coord × Coord))
  | 0, _, _, _, _, _ => .outOfFuel
  | fuel + 1, open_, closed, explored, g, cf =>
    match sortBy (expLe endX endY) open_ with
    | [] => .ok (explored, g, cf)
    | current :: rest =>
      if closed.contains (current.x, current.y) then
        expLoop maze startX startY endX endY fuel rest closed explored g cf
      else
        let closed' := (current.x, current.y) :: closed
        let explored' :=
          if current.x = startX ∧ current.y = startY then explored
          else explored ++ [(current.x, current.y)]
        if current.x = endX ∧ current.y = endY then
          .ok (explored', g, cf)
        else
          match expPush maze (mazeWidth maze) (mazeHeight maze) current.x current.y
              current.g closed' dirList rest g cf with
          | .ok (open', g', cf') =>
            expLoop maze startX startY endX endY fuel open' closed' explored' g' cf'
          | .typeError => .typeError
          | .outOfFuel => .outOfFuel

/-- The backward walk of the predecessor map:
`while (curKey && curKey !== startKey) { push; curKey = cameFrom.get(curKey) }`.
A missing predecessor makes `curKey` undefined, which ends the loop. -/
def walkBack (cf : List (Coord × Coord)) (startC : Coord) :
    Nat → Coord → List Coord → Option (List Coord)
  | 0, _, _ => none
  | fuel + 1, cur, acc =>
    if cur = startC then some acc
    else
      match cf.lookup cur with
      | none => some (acc ++ [cur])
      | some p => walkBack cf startC fuel p (acc ++ [cur])

/-- The structured result of `astarExplore`. -/
structure ExpResult where
  explored : List Coord
  path : List Coord
deriving DecidableEq, Repr

/-- `function astarExplore(startX, startY, endX, endY, maze)`: run the loop,
then reconstruct the optimal path backward from the goal when the goal has a
`gScore`, and reverse it. -/
def astarExplore (startX startY endX endY : Int) (maze : Maze) : JsResult ExpResult :=
  match expLoop maze startX startY endX endY (astarFuel maze)
      [⟨startX, startY, 0⟩] [] [] [((startX, startY), 0)] [] with
  | .ok (explored, g, cf) =>
    if (g.lookup (endX, endY)).isSome then
      match walkBack cf (startX, startY) (cf.length + 1) (endX, endY) [] with
      | some acc => .ok ⟨explored, acc.reverse⟩
      | none => .outOfFuel
    else
      .ok ⟨explored, []⟩
  | .typeError => .typeError
  | .outOfFuel => .outOfFuel

/-! ## Dispatcher -/

/-- The `SEARCH_METHODS` enumeration. -/
inductive SearchMethod where
  | DFS
  | DFS_EXPLORE
  | BFS
  | BFS_EXPLORE
  | ASTAR
  | ASTAR_EXPLORE
deriving DecidableEq, Repr

/-- `function findPath(startX, startY, endX, endY, method, maze)`.
The guard `!maze || maze.length === 0 || !maze[0]` is equivalent to
`maze.length = 0`: an existing first row is an array, and every array
(including an empty one) is truthy in JavaScript. -/
def findPath (startX startY endX endY : Int) (method : SearchMethod) (maze : Maze) :
    JsResult (List Coord) :=
  if maze.length = 0 then .ok []
  else
    match method with
    | .DFS => dfs startX startY endX endY maze
    | .BFS => bfs startX startY endX endY maze
    | .ASTAR => astar startX startY endX endY maze
    | .DFS_EXPLORE => dfsExplore startX startY endX endY maze
    | .BFS_EXPLORE => bfsExplore startX startY endX endY maze
    | .ASTAR_EXPLORE =>
      match astarExplore startX startY endX endY maze with
      | .ok r => .ok r.explored
      | .typeError => .typeError
      | .outOfFuel => .outOfFuel

/-! ## Specification-side notions: legal moves, wall-respecting paths -/

/-- A single legal move from `c` to `c2`: one axis-unit step whose target is
inside the `width × height` box and whose source-cell wall flag for that
direction is `false` (the implementation queries the cell being left). -/
def stepOk (maze : Maze) (c c2 : Coord) : Bool :=
  dirList.any fun d =>
    c2 = moveTo c d && inBounds (mazeWidth maze) (mazeHeight maze) c2.1 c2.2 &&
      (match cellAt maze c.1 c.2 with
       | some cell => !dirWall d cell
       | none => false)

/-- `chainOk maze c p`: the coordinates of `p`, taken after `c`, form a chain
of legal moves. -/
def chainOk (maze : Maze) : Coord → List Coord → Bool
  | _, [] => true
  | c, c2 :: rest => stepOk maze c c2 && chainOk maze c2 rest

/-- Last coordinate of the path `c :: p`. -/
def lastC (c : Coord) (p : List Coord) : Coord := p.getLastD c

/-- `p` is a wall-respecting path from `s` to `t`, written as the sequence of
coordinates strictly after `s`; its number of moves is `p.length`. -/
def ValidPath (maze : Maze) (s t : Coord) (p : List Coord) : Prop :=
  chainOk maze s p = true ∧ lastC s p = t

/-- `t` is reachable from `s` by wall-respecting moves. -/
def Reachable (maze : Maze) (s t : Coord) : Prop :=
  ∃ p, ValidPath maze s t p

/-- The grid is rectangular: every row has the width of the first row. -/
def Rect (maze : Maze) : Prop :=
  ∀ row ∈ maze, row.length = mazeWidth maze

/-! ## Helper lemmas: the stable sort -/

theorem insertBy_perm {α : Type} (le : α → α → Bool) (x : α) (l : List α) :
    (insertBy le x l).Perm (x :: l) := by
  induction l with
  | nil => simp [insertBy]
  | cons y ys ih =>
    by_cases h : le x y
    · simp [insertBy, h]
    · simp only [insertBy, h, Bool.false_eq_true, if_false]
      exact ((ih.cons y).trans (List.Perm.swap x y ys))

theorem sortBy_perm {α : Type} (le : α → α → Bool) (l : List α) :
    (sortBy le l).Perm l := by
  induction l with
  | nil => simp [sortBy]
  | cons x xs ih => exact (insertBy_perm le x (sortBy le xs)).trans (ih.cons x)

theorem mem_sortBy {α : Type} {le : α → α → Bool} {l : List α} {a : α} :
    a ∈ sortBy le l ↔ a ∈ l :=
  (sortBy_perm le l).mem_iff

theorem sortBy_eq_nil_iff {α : Type} {le : α → α → Bool} {l : List α} :
    sortBy le l = [] ↔ l = [] := by
  constructor
  · intro h
    have := (sortBy_perm le l).length_eq
    rw [h] at this
    exact List.length_eq_zero.mp this.symm
  · intro h; subst h; rfl

/-- Sortedness of `insertBy` for comparators of the form
`fun a b => decide (key a ≤ key b)`. -/
theorem insertBy_pairwise {α β : Type} [LinearOrder β] (key : α → β) (x : α)
    {l : List α} (h : l.Pairwise (fun a b => key a ≤ key b)) :
    (insertBy (fun a b => decide (key a ≤ key b)) x l).Pairwise
      (fun a b => key a ≤ key b) := by
  induction l with
  | nil => simp [insertBy]
  | cons y ys ih =>
    rcases List.pairwise_cons.mp h with ⟨hy, hys⟩
    by_cases hxy : key x ≤ key y
    · simp only [insertBy, decide_eq_true_eq, hxy, if_true]
      refine List.pairwise_cons.mpr ⟨?_, h⟩
      intro b hb
      rcases List.mem_cons.mp hb with rfl | hb
      · exact hxy
      · exact le_trans hxy (hy b hb)
    · simp only [insertBy, decide_eq_true_eq, hxy, if_false]
      refine List.pairwise_cons.mpr ⟨?_, ih hys⟩
      intro b hb
      rcases List.mem_cons.mp ((insertBy_perm _ x ys).mem_iff.mp hb) with rfl | hb
      · exact le_of_not_le hxy
      · exact hy b hb

theorem sortBy_pairwise {α β : Type} [LinearOrder β] (key : α → β) (l : List α) :
    (sortBy (fun a b => decide (key a ≤ key b)) l).Pairwise
      (fun a b => key a ≤ key b) := by
  induction l with
  | nil => simp [sortBy]
  | cons x xs ih => exact insertBy_pairwise key x ih

/-- The head of the sorted open set has a minimal key among all its members. -/
theorem sortBy_head_min {α β : Type} [LinearOrder β] (key : α → β) {l : List α}
    {x : α} {xs : List α}
    (h : sortBy (fun a b => decide (key a ≤ key b)) l = x :: xs) :
    ∀ a ∈ l, key x ≤ key a := by
  intro a ha
  have hmem : a ∈ x :: xs := h ▸ mem_sortBy.mpr ha
  have hp := sortBy_pairwise key l
  rw [h, List.pairwise_cons] at hp
  rcases List.mem_cons.mp hmem with rfl | hmem
  · exact le_refl _
  · exact hp.1 a hmem

/-- The tail of the sorted list is a permutation of the list with the head
removed once. -/
theorem sortBy_cons_perm {α : Type} [DecidableEq α] (le : α → α → Bool)
    {l : List α} {x : α} {xs : List α} (h : sortBy le l = x :: xs) :
    xs.Perm (l.erase x) := by
  have hp : (x :: xs).Perm l := h ▸ sortBy_perm le l
  have hx : x ∈ l := hp.mem_iff.mp (List.mem_cons_self x xs)
  have := hp.erase x
  simpa [List.erase_cons_head] using this

/-! ## Helper lemmas: moves, chains, reachability -/

theorem stepOk_iff {maze : Maze} {c c2 : Coord} :
    stepOk maze c c2 = true ↔
      ∃ d : Dir, c2 = moveTo c d ∧
        inBounds (mazeWidth maze) (mazeHeight maze) c2.1 c2.2 = true ∧
        ∃ cell, cellAt maze c.1 c.2 = some cell ∧ dirWall d cell = false := by
  simp only [stepOk, List.any_eq_true, Bool.and_eq_true, decide_eq_true_eq]
  constructor
  · rintro ⟨d, _, ⟨h1, h2⟩, h3⟩
    refine ⟨d, h1, h2, ?_⟩
    cases hc : cellAt maze c.1 c.2 with
    | none => rw [hc] at h3; exact absurd h3 (by simp)
    | some cell => rw [hc] at h3; exact ⟨cell, rfl, by simpa using h3⟩
  · rintro ⟨d, h1, h2, cell, hc, hw⟩
    refine ⟨d, ?_, ⟨h1, h2⟩, ?_⟩
    · simp [dirList]; cases d <;> simp
    · rw [hc]; simpa using hw

theorem stepOk_inBounds {maze : Maze} {c c2 : Coord} (h : stepOk maze c c2 = true) :
    inBounds (mazeWidth maze) (mazeHeight maze) c2.1 c2.2 = true := by
  rcases stepOk_iff.mp h with ⟨d, _, hb, _⟩
  exact hb

theorem stepOk_cell {maze : Maze} {c c2 : Coord} (h : stepOk maze c c2 = true) :
    ∃ cell, cellAt maze c.1 c.2 = some cell := by
  rcases stepOk_iff.mp h with ⟨d, _, _, cell, hc, _⟩
  exact ⟨cell, hc⟩

theorem lastC_append_single (c : Coord) (p : List Coord) (c2 : Coord) :
    lastC c (p ++ [c2]) = c2 :=
  List.getLastD_concat c c2 p

theorem lastC_cons (c a : Coord) (p : List Coord) :
    lastC c (a :: p) = lastC a p :=
  List.getLastD_cons c a p

theorem chainOk_append_single {maze : Maze} {c : Coord} {p : List Coord} {c2 : Coord} :
    chainOk maze c (p ++ [c2]) = (chainOk maze c p && stepOk maze (lastC c p) c2) := by
  induction p generalizing c with
  | nil => simp [chainOk, lastC]
  | cons a as ih =>
    simp only [List.cons_append, chainOk, List.append_eq, ih, lastC_cons, Bool.and_assoc]

theorem Reachable.refl (maze : Maze) (s : Coord) : Reachable maze s s :=
  ⟨[], by simp [ValidPath, chainOk, lastC]⟩

theorem Reachable.step_one {maze : Maze} {s c c2 : Coord} (h : Reachable maze s c)
    (hs : stepOk maze c c2 = true) : Reachable maze s c2 := by
  rcases h with ⟨p, hp, hl⟩
  refine ⟨p ++ [c2], ?_, lastC_append_single s p c2⟩
  rw [chainOk_append_single, hp, hl]
  simpa using hs

/-- Closed-set induction: a set of coordinates that contains `s` and is closed
under legal moves contains every coordinate reachable from `s`. -/
theorem Reachable.mem_closed {maze : Maze} {s t : Coord} (V : Coord → Prop)
    (hs : V s) (hcl : ∀ c, V c → ∀ c2, stepOk maze c c2 = true → V c2)
    (h : Reachable maze s t) : V t := by
  rcases h with ⟨p, hp, hl⟩
  induction p generalizing s with
  | nil => simpa [lastC] using hl ▸ hs
  | cons a as ih =>
    simp only [chainOk, Bool.and_eq_true] at hp
    rw [lastC_cons] at hl
    exact ih (hcl s hs a hp.1) hp.2 hl

/-- Each legal move changes the Manhattan distance to a fixed target by at
most one; along a chain the heuristic can decrease by at most the number of
moves. -/
theorem heuristic_step {maze : Maze} {c c2 : Coord} (h : stepOk maze c c2 = true)
    (gx gy : Int) :
    heuristic c.1 c.2 gx gy ≤ heuristic c2.1 c2.2 gx gy + 1 := by
  rcases stepOk_iff.mp h with ⟨d, rfl, _, _⟩
  cases d <;> simp [moveTo, dirDelta, heuristic] <;> omega

theorem heuristic_chain {maze : Maze} {c : Coord} {p : List Coord}
    (h : chainOk maze c p = true) (gx gy : Int) :
    heuristic c.1 c.2 gx gy ≤ p.length + heuristic (lastC c p).1 (lastC c p).2 gx gy := by
  induction p generalizing c with
  | nil => simp [lastC]
  | cons a as ih =>
    simp only [chainOk, Bool.and_eq_true] at h
    have h1 := heuristic_step h.1 gx gy
    have h2 := ih h.2
    rw [lastC_cons]
    simp only [List.length_cons]
    omega

/-- Admissibility of the Manhattan heuristic: it never overestimates the
number of moves of any wall-respecting path to the goal. -/
theorem heuristic_le_path {maze : Maze} {c g : Coord} {p : List Coord}
    (h : ValidPath maze c g p) : heuristic c.1 c.2 g.1 g.2 ≤ p.length := by
  have := heuristic_chain h.1 g.1 g.2
  rw [h.2] at this
  simpa [heuristic] using this

/-! ## Helper lemmas: counting in-bounds coordinates -/

/-- The finite set of coordinates of a `W × H` grid. -/
def boundsFin (W H : Nat) : Finset Coord :=
  Finset.Ico (0 : Int) (W : Int) ×ˢ Finset.Ico (0 : Int) (H : Int)

theorem mem_boundsFin {W H : Nat} {c : Coord} :
    c ∈ boundsFin W H ↔ inBounds W H c.1 c.2 = true := by
  simp [boundsFin, Finset.mem_product, Finset.mem_Ico, inBounds, and_assoc]

theorem card_boundsFin (W H : Nat) : (boundsFin W H).card = W * H := by
  simp [boundsFin, Finset.card_product, Int.card_Ico]

/-- A duplicate-free list of in-bounds coordinates (plus possibly the start)
has at most `W * H + 1` elements. -/
theorem length_le_of_nodup_bounds {W H : Nat} {s : Coord} {l : List Coord}
    (hn : l.Nodup) (hb : ∀ c ∈ l, c = s ∨ inBounds W H c.1 c.2 = true) :
    l.length ≤ W * H + 1 := by
  classical
  have hsub : ∀ c ∈ l.toFinset, c ∈ insert s (boundsFin W H) := by
    intro c hc
    rcases hb c (List.mem_toFinset.mp hc) with rfl | h
    · exact Finset.mem_insert_self _ _
    · exact Finset.mem_insert_of_mem (mem_boundsFin.mpr h)
  calc l.length = l.toFinset.card := (List.toFinset_card_of_nodup hn).symm
    _ ≤ (insert s (boundsFin W H)).card := Finset.card_le_card hsub
    _ ≤ (boundsFin W H).card + 1 := Finset.card_insert_le _ _
    _ = W * H + 1 := by rw [card_boundsFin]

/-- In a rectangular grid every in-bounds coordinate has a cell. -/
theorem cellAt_isSome_of_inBounds {maze : Maze} (hr : Rect maze) {x y : Int}
    (h : inBounds (mazeWidth maze) (mazeHeight maze) x y = true) :
    ∃ cell, cellAt maze x y = some cell := by
  simp only [inBounds, Bool.and_eq_true, decide_eq_true_eq] at h
  obtain ⟨⟨⟨hx0, hxW⟩, hy0⟩, hyH⟩ := h
  have hyN : y.toNat < maze.length := by
    simp only [mazeHeight] at hyH; omega
  have hrow : maze[y.toNat]? = some maze[y.toNat] := List.getElem?_eq_getElem hyN
  have hrmem : maze[y.toNat] ∈ maze := List.getElem_mem hyN
  have hxN : x.toNat < maze[y.toNat].length := by
    rw [hr _ hrmem]
    simp only [mazeWidth] at hxW ⊢
    omega
  have hcell : maze[y.toNat][x.toNat]? = some maze[y.toNat][x.toNat] :=
    List.getElem?_eq_getElem hxN
  refine ⟨maze[y.toNat][x.toNat], ?_⟩
  simp [cellAt, hx0, hy0, hrow, hcell]

theorem contains_iff_mem {l : List Coord} {a : Coord} : l.contains a = true ↔ a ∈ l := by
  simp

/-- Every coordinate of a legal chain is inside the grid. -/
theorem chainOk_targets {maze : Maze} {c : Coord} {p : List Coord}
    (h : chainOk maze c p = true) :
    ∀ a ∈ p, inBounds (mazeWidth maze) (mazeHeight maze) a.1 a.2 = true := by
  induction p generalizing c with
  | nil => intro a ha; cases ha
  | cons b bs ih =>
    simp only [chainOk, Bool.and_eq_true] at h
    intro a ha
    rcases List.mem_cons.mp ha with rfl | ha
    · exact stepOk_inBounds h.1
    · exact ih h.2 a ha

/-! ## DFS and BFS: node well-formedness -/

/-- Well-formedness of a path-carrying search node relative to the start `s`
and the current visited set: its `path` is `s` followed by a duplicate-free
legal chain ending at the node's coordinate, and every entry of the path is
the node's own coordinate or an already-visited coordinate. -/
def NodeOk (maze : Maze) (s : Coord) (visited : List Coord) (n : SearchNode) : Prop :=
  ∃ q, n.path = s :: q ∧ chainOk maze s q = true ∧ lastC s q = (n.x, n.y) ∧
    (s :: q).Nodup ∧ ∀ c ∈ s :: q, c = (n.x, n.y) ∨ c ∈ visited

theorem NodeOk.mono {maze : Maze} {s : Coord} {visited visited' : List Coord}
    {n : SearchNode} (h : NodeOk maze s visited n)
    (hsub : ∀ c ∈ visited, c ∈ visited') : NodeOk maze s visited' n := by
  rcases h with ⟨q, h1, h2, h3, h4, h5⟩
  exact ⟨q, h1, h2, h3, h4, fun c hc => (h5 c hc).imp id (hsub c)⟩

/-- The coordinate of a well-formed node is the start or an in-bounds cell. -/
theorem NodeOk.coord_cases {maze : Maze} {s : Coord} {visited : List Coord}
    {n : SearchNode} (h : NodeOk maze s visited n) :
    (n.x, n.y) = s ∨ inBounds (mazeWidth maze) (mazeHeight maze) n.x n.y = true := by
  rcases h with ⟨q, _, h2, h3, _, _⟩
  cases q with
  | nil => left; exact h3.symm
  | cons a as =>
    right
    have hmem : lastC s (a :: as) ∈ a :: as := by
      rw [lastC, List.getLastD_cons]
      exact List.getLastD_mem_cons _ _
    have := chainOk_targets h2 _ hmem
    rwa [h3] at this

/-- Extending the path of a just-expanded node with a fresh neighbour `nb`
preserves node well-formedness, relative to any visited set that contains the
old one along with the expanded node's coordinate. -/
theorem NodeOk.extend {maze : Maze} {s : Coord} {visited visited' : List Coord}
    {n : SearchNode} (h : NodeOk maze s visited n) {nb : Coord}
    (hstep : stepOk maze (n.x, n.y) nb = true)
    (hnb : nb ∉ (n.x, n.y) :: visited)
    (hv1 : (n.x, n.y) ∈ visited') (hv2 : ∀ c ∈ visited, c ∈ visited') :
    NodeOk maze s visited' ⟨nb.1, nb.2, n.path ++ [nb]⟩ := by
  rcases h with ⟨q, h1, h2, h3, h4, h5⟩
  have hnbq : nb ∉ s :: q := by
    intro hmem
    rcases h5 nb hmem with h | h
    · exact hnb (h ▸ List.mem_cons_self _ _)
    · exact hnb (List.mem_cons_of_mem _ h)
  refine ⟨q ++ [nb], ?_, ?_, ?_, ?_, ?_⟩
  · simp [h1]
  · rw [chainOk_append_single, h2, h3]
    simpa using hstep
  · exact lastC_append_single s q nb
  · rw [show s :: (q ++ [nb]) = (s :: q) ++ [nb] by simp]
    refine List.Nodup.append h4 (List.nodup_singleton nb) ?_
    intro a ha hb
    rcases List.mem_singleton.mp hb with rfl
    exact hnbq ha
  · intro c hc
    rw [show s :: (q ++ [nb]) = (s :: q) ++ [nb] by simp] at hc
    rcases List.mem_append.mp hc with hc | hc
    · right
      rcases h5 c hc with h | h
      · exact h ▸ hv1
      · exact hv2 c h
    · left; simpa using (List.mem_singleton.mp hc)

/-! ## DFS: expansion step and loop invariant -/

/-- Everything `dfsPush` can do: either it pushes some well-formed fresh
neighbours of `(x, y)` on top of the stack, or the wall accessor dereferenced
an out-of-grid cell and threw. -/
theorem dfsPush_spec (maze : Maze) (x y : Int) (visited path : List Coord) :
    ∀ (dirs : List Dir) (stack : List SearchNode),
      (∃ news stack', dfsPush maze (mazeWidth maze) (mazeHeight maze) x y visited path
          dirs stack = .ok stack' ∧ stack' = news ++ stack ∧
          news.length ≤ dirs.length ∧
          ∀ n ∈ news, n.path = path ++ [(n.x, n.y)] ∧
            stepOk maze (x, y) (n.x, n.y) = true ∧ (n.x, n.y) ∉ visited)
      ∨ (dfsPush maze (mazeWidth maze) (mazeHeight maze) x y visited path dirs stack
          = .typeError ∧ cellAt maze x y = none) := by
  intro dirs
  induction dirs with
  | nil =>
    intro stack
    left
    exact ⟨[], stack, rfl, rfl, by simp, by simp⟩
  | cons d rest ih =>
    intro stack
    by_cases hb : inBounds (mazeWidth maze) (mazeHeight maze)
        (x + (dirDelta d).1) (y + (dirDelta d).2)
    · cases hc : cellAt maze x y with
      | none =>
        right
        constructor
        · simp only [dfsPush, hb, if_true, hc]
        · rfl
      | some cell =>
        by_cases hw : dirWall d cell
        · have heq : dfsPush maze (mazeWidth maze) (mazeHeight maze) x y visited path
              (d :: rest) stack =
              dfsPush maze (mazeWidth maze) (mazeHeight maze) x y visited path rest stack := by
            simp only [dfsPush, hb, if_true, hc, hw]
          rw [heq]
          rcases ih stack with ⟨news, stack', h1, h2, h3, h4⟩ | h
          · exact Or.inl ⟨news, stack', h1, h2, le_trans h3 (by simp), h4⟩
          · exact absurd h.2 (by simp [hc])
        · by_cases hv : visited.contains (x + (dirDelta d).1, y + (dirDelta d).2)
          · have heq : dfsPush maze (mazeWidth maze) (mazeHeight maze) x y visited path
                (d :: rest) stack =
                dfsPush maze (mazeWidth maze) (mazeHeight maze) x y visited path rest stack := by
              simp only [dfsPush, hb, if_true, hc, hw, Bool.false_eq_true, if_false, hv]
            rw [heq]
            rcases ih stack with ⟨news, stack', h1, h2, h3, h4⟩ | h
            · exact Or.inl ⟨news, stack', h1, h2, le_trans h3 (by simp), h4⟩
            · exact absurd h.2 (by simp [hc])
          · have heq : dfsPush maze (mazeWidth maze) (mazeHeight maze) x y visited path
                (d :: rest) stack =
                dfsPush maze (mazeWidth maze) (mazeHeight maze) x y visited path rest
                  (⟨x + (dirDelta d).1, y + (dirDelta d).2,
                    path ++ [(x + (dirDelta d).1, y + (dirDelta d).2)]⟩ :: stack) := by
              simp only [dfsPush, hb, if_true, hc, hw, Bool.false_eq_true, if_false, hv]
            rw [heq]
            rcases ih (⟨x + (dirDelta d).1, y + (dirDelta d).2,
                path ++ [(x + (dirDelta d).1, y + (dirDelta d).2)]⟩ :: stack) with
              ⟨news, stack', h1, h2, h3, h4⟩ | h
            · left
              refine ⟨news ++ [⟨x + (dirDelta d).1, y + (dirDelta d).2,
                  path ++ [(x + (dirDelta d).1, y + (dirDelta d).2)]⟩], stack', h1, ?_, ?_, ?_⟩
              · rw [h2]; simp
              · simp only [List.length_append, List.length_cons, List.length_nil]
                omega
              · intro n hn
                rcases List.mem_append.mp hn with hn | hn
                · exact h4 n hn
                · rcases List.mem_singleton.mp hn with rfl
                  refine ⟨rfl, ?_, ?_⟩
                  · refine stepOk_iff.mpr ⟨d, rfl, ?_, cell, hc, ?_⟩
                    · exact hb
                    · simpa using hw
                  · intro hmem
                    exact hv (contains_iff_mem.mpr hmem)
            · exact absurd h.2 (by simp [hc])
    · have heq : dfsPush maze (mazeWidth maze) (mazeHeight maze) x y visited path
          (d :: rest) stack =
          dfsPush maze (mazeWidth maze) (mazeHeight maze) x y visited path rest stack := by
        simp only [dfsPush, hb, Bool.false_eq_true, if_false]
      rw [heq]
      rcases ih stack with ⟨news, stack', h1, h2, h3, h4⟩ | h
      · exact Or.inl ⟨news, stack', h1, h2, le_trans h3 (by simp), h4⟩
      · exact Or.inr h

/-- The DFS loop invariant. -/
def DfsInv (maze : Maze) (s : Coord) (stack : List SearchNode)
    (visited : List Coord) : Prop :=
  (∀ n ∈ stack, NodeOk maze s visited n) ∧ visited.Nodup ∧
  (∀ c ∈ visited, c = s ∨ inBounds (mazeWidth maze) (mazeHeight maze) c.1 c.2 = true)

/-- Preservation of `DfsInv` across one fresh expansion. -/
theorem DfsInv.step_dfs {maze : Maze} {s : Coord} {node : SearchNode}
    {stack : List SearchNode} {visited : List Coord} {news stack' : List SearchNode}
    (hinv : DfsInv maze s (node :: stack) visited)
    (hfresh : (node.x, node.y) ∉ visited)
    (heq : stack' = news ++ stack)
    (hnews : ∀ n ∈ news, n.path = node.path ++ [(n.x, n.y)] ∧
      stepOk maze (node.x, node.y) (n.x, n.y) = true ∧
      (n.x, n.y) ∉ (node.x, node.y) :: visited) :
    DfsInv maze s stack' ((node.x, node.y) :: visited) := by
  obtain ⟨hstack, hnd, hbv⟩ := hinv
  have hnodeok := hstack node (List.mem_cons_self _ _)
  refine ⟨?_, ?_, ?_⟩
  · intro n hn
    rw [heq] at hn
    rcases List.mem_append.mp hn with hn | hn
    · obtain ⟨hpath, hstep, hnot⟩ := hnews n hn
      have := hnodeok.extend hstep hnot (List.mem_cons_self _ _)
        (fun c hc => List.mem_cons_of_mem _ hc)
      rcases n with ⟨nx, ny, npath⟩
      simp only at hpath
      rw [hpath]
      exact this
    · exact (hstack n (List.mem_cons_of_mem _ hn)).mono
        (fun c hc => List.mem_cons_of_mem _ hc)
  · exact List.nodup_cons.mpr ⟨hfresh, hnd⟩
  · intro c hc
    rcases List.mem_cons.mp hc with rfl | hc
    · exact hnodeok.coord_cases
    · exact hbv c hc

/-- Facts about every `ok` result of the DFS loop: the returned list is empty
or is a duplicate-free wall-respecting path from start to goal that avoids
the start. -/
theorem dfsLoop_ok_facts (maze : Maze) (s : Coord) (ex ey : Int) :
    ∀ (fuel : Nat) (stack : List SearchNode) (visited : List Coord),
      DfsInv maze s stack visited →
      ∀ l, dfsLoop maze ex ey fuel stack visited = .ok l →
        l = [] ∨ (ValidPath maze s (ex, ey) l ∧ (s :: l).Nodup) := by
  intro fuel
  induction fuel with
  | zero => intro stack visited _ l h; cases h
  | succ fuel ih =>
    intro stack visited hinv l h
    match stack with
    | [] =>
      simp only [dfsLoop] at h
      injection h with h
      exact Or.inl h.symm
    | node :: stack =>
      by_cases hv : visited.contains (node.x, node.y)
      · simp only [dfsLoop, hv, if_true] at h
        exact ih stack visited ⟨fun n hn => hinv.1 n (List.mem_cons_of_mem _ hn),
          hinv.2.1, hinv.2.2⟩ l h
      · have hfresh : (node.x, node.y) ∉ visited := fun hm => hv (contains_iff_mem.mpr hm)
        by_cases hg : node.x = ex ∧ node.y = ey
        · simp only [dfsLoop, hv, Bool.false_eq_true, if_false] at h
          rw [if_pos hg] at h
          right
          obtain ⟨q, h1, h2, h3, h4, _⟩ := hinv.1 node (List.mem_cons_self _ _)
          have hl : l = q := by
            injection h with h
            rw [← h, h1]
            rfl
          subst hl
          refine ⟨⟨h2, ?_⟩, h4⟩
          rw [h3]
          exact Prod.ext hg.1 hg.2
        · simp only [dfsLoop, hv, Bool.false_eq_true, if_false] at h
          rw [if_neg hg] at h
          rcases dfsPush_spec maze node.x node.y ((node.x, node.y) :: visited) node.path
              [Dir.left, Dir.down, Dir.right, Dir.up] stack with
            ⟨news, stack', hp, hpe, _, hnews⟩ | ⟨hp, _⟩
          · rw [hp] at h
            exact ih stack' ((node.x, node.y) :: visited)
              (hinv.step_dfs hfresh hpe hnews) l h
          · rw [hp] at h
            cases h

/-- With the supplied fuel the DFS loop never exhausts. -/
theorem dfsLoop_no_fuel (maze : Maze) (s : Coord) (ex ey : Int) :
    ∀ (fuel : Nat) (stack : List SearchNode) (visited : List Coord),
      DfsInv maze s stack visited →
      stack.length + 4 * (mazeWidth maze * mazeHeight maze + 2 - visited.length) < fuel →
      dfsLoop maze ex ey fuel stack visited ≠ .outOfFuel := by
  intro fuel
  induction fuel with
  | zero => intro stack visited _ hlt; exact absurd hlt (by omega)
  | succ fuel ih =>
    intro stack visited hinv hlt
    match stack with
    | [] => simp [dfsLoop]
    | node :: stack =>
      have hvlen : visited.length ≤ mazeWidth maze * mazeHeight maze + 1 :=
        length_le_of_nodup_bounds hinv.2.1 hinv.2.2
      by_cases hv : visited.contains (node.x, node.y)
      · simp only [dfsLoop, hv, if_true]
        refine ih stack visited
          ⟨fun n hn => hinv.1 n (List.mem_cons_of_mem _ hn), hinv.2.1, hinv.2.2⟩ ?_
        simp only [List.length_cons] at hlt
        omega
      · have hfresh : (node.x, node.y) ∉ visited := fun hm => hv (contains_iff_mem.mpr hm)
        simp only [dfsLoop, hv, Bool.false_eq_true, if_false]
        by_cases hg : node.x = ex ∧ node.y = ey
        · rw [if_pos hg]; simp
        · rw [if_neg hg]
          rcases dfsPush_spec maze node.x node.y ((node.x, node.y) :: visited) node.path
              [Dir.left, Dir.down, Dir.right, Dir.up] stack with
            ⟨news, stack', hp, hpe, hlen, hnews⟩ | ⟨hp, _⟩
          · rw [hp]
            have hsl : stack'.length = news.length + stack.length := by
              rw [hpe]; simp
            refine ih stack' ((node.x, node.y) :: visited)
              (hinv.step_dfs hfresh hpe hnews) ?_
            have hnl : news.length ≤ 4 := by simpa using hlen
            simp only [List.length_cons] at hlt ⊢
            generalize mazeWidth maze * mazeHeight maze = K at hlt hvlen ⊢
            omega
          · rw [hp]; simp

/-- On a rectangular grid with an in-bounds start, the DFS loop never throws:
every expanded cell is inside the grid. -/
theorem dfsLoop_no_typeError (maze : Maze) (s : Coord) (ex ey : Int) (hr : Rect maze)
    (hs : inBounds (mazeWidth maze) (mazeHeight maze) s.1 s.2 = true) :
    ∀ (fuel : Nat) (stack : List SearchNode) (visited : List Coord),
      DfsInv maze s stack visited →
      dfsLoop maze ex ey fuel stack visited ≠ .typeError := by
  intro fuel
  induction fuel with
  | zero => intro stack visited _; simp [dfsLoop]
  | succ fuel ih =>
    intro stack visited hinv
    match stack with
    | [] => simp [dfsLoop]
    | node :: stack =>
      by_cases hv : visited.contains (node.x, node.y)
      · simp only [dfsLoop, hv, if_true]
        exact ih stack visited
          ⟨fun n hn => hinv.1 n (List.mem_cons_of_mem _ hn), hinv.2.1, hinv.2.2⟩
      · have hfresh : (node.x, node.y) ∉ visited := fun hm => hv (contains_iff_mem.mpr hm)
        simp only [dfsLoop, hv, Bool.false_eq_true, if_false]
        by_cases hg : node.x = ex ∧ node.y = ey
        · rw [if_pos hg]; simp
        · rw [if_neg hg]
          have hcell : ∃ cell, cellAt maze node.x node.y = some cell := by
            rcases (hinv.1 node (List.mem_cons_self _ _)).coord_cases with hcs | hcb
            · have : inBounds (mazeWidth maze) (mazeHeight maze) node.x node.y = true := by
                have h1 : node.x = s.1 := by rw [← hcs]
                have h2 : node.y = s.2 := by rw [← hcs]
                rw [h1, h2]; exact hs
              exact cellAt_isSome_of_inBounds hr this
            · exact cellAt_isSome_of_inBounds hr hcb
          rcases dfsPush_spec maze node.x node.y ((node.x, node.y) :: visited) node.path
              [Dir.left, Dir.down, Dir.right, Dir.up] stack with
            ⟨news, stack', hp, hpe, hlen, hnews⟩ | ⟨hp, hnone⟩
          · rw [hp]
            exact ih stack' ((node.x, node.y) :: visited) (hinv.step_dfs hfresh hpe hnews)
          · rcases hcell with ⟨cell, hcell⟩
            rw [hcell] at hnone
            cases hnone

/-- The initial DFS state satisfies the invariant. -/
theorem dfsInv_init (maze : Maze) (s : Coord) :
    DfsInv maze s [⟨s.1, s.2, [s]⟩] [] := by
  refine ⟨?_, List.nodup_nil, by simp⟩
  intro n hn
  rcases List.mem_singleton.mp hn with rfl
  exact ⟨[], by simp, rfl, by simp [lastC], List.nodup_singleton s, by simp [lastC]⟩

/-- `dfs` on a rectangular grid with an in-bounds start returns a value: the
empty list, or a duplicate-free wall-respecting path from start to goal
avoiding the start. -/
theorem dfs_results (maze : Maze) (s : Coord) (ex ey : Int) (hr : Rect maze)
    (hs : inBounds (mazeWidth maze) (mazeHeight maze) s.1 s.2 = true) :
    ∃ l, dfs s.1 s.2 ex ey maze = .ok l ∧
      (l = [] ∨ (ValidPath maze s (ex, ey) l ∧ (s :: l).Nodup)) := by
  have hinit := dfsInv_init maze s
  have hfuel : ([⟨s.1, s.2, [s]⟩] : List SearchNode).length +
      4 * (mazeWidth maze * mazeHeight maze + 2 - ([] : List Coord).length)
      < dfsFuel maze := by
    simp [dfsFuel]; omega
  have h1 := dfsLoop_no_fuel maze s ex ey (dfsFuel maze) _ _ hinit hfuel
  have h2 := dfsLoop_no_typeError maze s ex ey hr hs (dfsFuel maze) _ _ hinit
  have h3 := dfsLoop_ok_facts maze s ex ey (dfsFuel maze) _ _ hinit
  cases hres : dfsLoop maze ex ey (dfsFuel maze) [⟨s.1, s.2, [s]⟩] [] with
  | ok l => exact ⟨l, hres, h3 l hres⟩
  | typeError => exact absurd hres h2
  | outOfFuel => exact absurd hres h1

/-- Conditional facts about any `ok` result of `dfs`, on any grid and any
start. -/
theorem dfs_ok_facts (maze : Maze) (sx sy ex ey : Int) (l : List Coord)
    (h : dfs sx sy ex ey maze = .ok l) :
    l = [] ∨ (ValidPath maze (sx, sy) (ex, ey) l ∧ ((sx, sy) :: l).Nodup) :=
  dfsLoop_ok_facts maze (sx, sy) ex ey (dfsFuel maze) _ _ (dfsInv_init maze (sx, sy)) l h

/-! ## BFS: expansion step and loop invariant -/

/-- Everything `bfsPush` can do: append well-formed fresh neighbours of
`(x, y)` to the queue, marking each visited at enqueue time, or throw on an
out-of-grid wall read. -/
theorem bfsPush_spec (maze : Maze) (x y : Int) (path : List Coord) :
    ∀ (dirs : List Dir) (queue : List SearchNode) (visited : List Coord),
      (∃ news queue' visited',
        bfsPush maze (mazeWidth maze) (mazeHeight maze) x y path dirs queue visited
          = .ok (queue', visited') ∧
        queue' = queue ++ news ∧
        visited' = (news.map SearchNode.coord).reverse ++ visited ∧
        news.length ≤ dirs.length ∧
        (news.map SearchNode.coord).Nodup ∧
        (∀ n ∈ news, n.path = path ++ [(n.x, n.y)] ∧
          stepOk maze (x, y) (n.x, n.y) = true ∧ (n.x, n.y) ∉ visited) ∧
        (∀ d ∈ dirs, inBounds (mazeWidth maze) (mazeHeight maze)
            (moveTo (x, y) d).1 (moveTo (x, y) d).2 = true →
          ∀ cell, cellAt maze x y = some cell → dirWall d cell = false →
            moveTo (x, y) d ∈ visited'))
      ∨ (bfsPush maze (mazeWidth maze) (mazeHeight maze) x y path dirs queue visited
          = .typeError ∧ cellAt maze x y = none) := by
  intro dirs
  induction dirs with
  | nil =>
    intro queue visited
    left
    exact ⟨[], queue, visited, rfl, by simp, by simp, by simp, by simp, by simp, by simp⟩
  | cons d rest ih =>
    intro queue visited
    by_cases hb : inBounds (mazeWidth maze) (mazeHeight maze)
        (x + (dirDelta d).1) (y + (dirDelta d).2)
    · cases hc : cellAt maze x y with
      | none =>
        right
        constructor
        · simp only [bfsPush, hb, if_true, hc]
        · rfl
      | some cell =>
        by_cases hw : dirWall d cell
        · have heq : bfsPush maze (mazeWidth maze) (mazeHeight maze) x y path
              (d :: rest) queue visited =
              bfsPush maze (mazeWidth maze) (mazeHeight maze) x y path rest queue visited := by
            simp only [bfsPush, hb, if_true, hc, hw]
          rw [heq]
          rcases ih queue visited with ⟨news, q', v', h1, h2, h3, h4, h5, h6, h7⟩ | h
          · left
            refine ⟨news, q', v', h1, h2, h3, le_trans h4 (by simp), h5, h6, ?_⟩
            intro d2 hd2 hb2 cell2 hc2 hw2
            rcases List.mem_cons.mp hd2 with rfl | hd2
            · injection hc2 with hc2
              subst hc2
              rw [hw] at hw2
              cases hw2
            · exact h7 d2 hd2 hb2 cell2 (hc.trans hc2) hw2
          · exact absurd h.2 (by simp [hc])
        · by_cases hv : visited.contains (x + (dirDelta d).1, y + (dirDelta d).2)
          · have heq : bfsPush maze (mazeWidth maze) (mazeHeight maze) x y path
                (d :: rest) queue visited =
                bfsPush maze (mazeWidth maze) (mazeHeight maze) x y path rest queue visited := by
              simp only [bfsPush, hb, if_true, hc, hw, Bool.false_eq_true, if_false, hv]
            rw [heq]
            rcases ih queue visited with ⟨news, q', v', h1, h2, h3, h4, h5, h6, h7⟩ | h
            · left
              refine ⟨news, q', v', h1, h2, h3, le_trans h4 (by simp), h5, h6, ?_⟩
              intro d2 hd2 hb2 cell2 hc2 hw2
              rcases List.mem_cons.mp hd2 with rfl | hd2
              · rw [h3]
                exact List.mem_append_right _ (contains_iff_mem.mp hv)
              · exact h7 d2 hd2 hb2 cell2 (hc.trans hc2) hw2
            · exact absurd h.2 (by simp [hc])
          · have heq : bfsPush maze (mazeWidth maze) (mazeHeight maze) x y path
                (d :: rest) queue visited =
                bfsPush maze (mazeWidth maze) (mazeHeight maze) x y path rest
                  (queue ++ [⟨x + (dirDelta d).1, y + (dirDelta d).2,
                    path ++ [(x + (dirDelta d).1, y + (dirDelta d).2)]⟩])
                  ((x + (dirDelta d).1, y + (dirDelta d).2) :: visited) := by
              simp only [bfsPush, hb, if_true, hc, hw, Bool.false_eq_true, if_false, hv]
            rw [heq]
            rcases ih (queue ++ [⟨x + (dirDelta d).1, y + (dirDelta d).2,
                  path ++ [(x + (dirDelta d).1, y + (dirDelta d).2)]⟩])
                ((x + (dirDelta d).1, y + (dirDelta d).2) :: visited) with
              ⟨news, q', v', h1, h2, h3, h4, h5, h6, h7⟩ | h
            · left
              refine ⟨⟨x + (dirDelta d).1, y + (dirDelta d).2,
                  path ++ [(x + (dirDelta d).1, y + (dirDelta d).2)]⟩ :: news, q', v',
                  h1, ?_, ?_, ?_, ?_, ?_, ?_⟩
              · rw [h2]; simp
              · rw [h3]; simp [SearchNode.coord]
              · simp only [List.length_cons]
                simpa using h4
              · simp only [List.map_cons, List.nodup_cons]
                refine ⟨?_, h5⟩
                intro hmem
                rcases List.mem_map.mp hmem with ⟨n, hn, hcoord⟩
                apply (h6 n hn).2.2
                have hc2 : (n.x, n.y) = ((x + (dirDelta d).1, y + (dirDelta d).2) : Coord) :=
                  hcoord
                rw [hc2]
                exact List.mem_cons_self _ _
              · intro n hn
                rcases List.mem_cons.mp hn with rfl | hn
                · refine ⟨rfl, ?_, fun hmem => hv (contains_iff_mem.mpr hmem)⟩
                  refine stepOk_iff.mpr ⟨d, rfl, hb, cell, hc, by simpa using hw⟩
                · obtain ⟨hp, hs, hnv⟩ := h6 n hn
                  exact ⟨hp, hs, fun hmem => hnv (List.mem_cons_of_mem _ hmem)⟩
              · intro d2 hd2 hb2 cell2 hc2 hw2
                rcases List.mem_cons.mp hd2 with rfl | hd2
                · rw [h3]
                  refine List.mem_append_right _ (List.mem_cons_self _ _)
                · exact h7 d2 hd2 hb2 cell2 (hc.trans hc2) hw2
            · exact absurd h.2 (by simp [hc])
    · have heq : bfsPush maze (mazeWidth maze) (mazeHeight maze) x y path
          (d :: rest) queue visited =
          bfsPush maze (mazeWidth maze) (mazeHeight maze) x y path rest queue visited := by
        simp only [bfsPush, hb, Bool.false_eq_true, if_false]
      rw [heq]
      rcases ih queue visited with ⟨news, q', v', h1, h2, h3, h4, h5, h6, h7⟩ | h
      · left
        refine ⟨news, q', v', h1, h2, h3, le_trans h4 (by simp), h5, h6, ?_⟩
        intro d2 hd2 hb2 cell2 hc2 hw2
        rcases List.mem_cons.mp hd2 with rfl | hd2
        · exact absurd hb2 (by simpa using hb)
        · exact h7 d2 hd2 hb2 cell2 hc2 hw2
      · exact Or.inr h

/-- The BFS loop invariant: every queued node is well formed and marked
visited (BFS marks at enqueue time). -/
def BfsInv (maze : Maze) (s : Coord) (queue : List SearchNode)
    (visited : List Coord) : Prop :=
  (∀ n ∈ queue, NodeOk maze s visited n ∧ (n.x, n.y) ∈ visited) ∧
  visited.Nodup ∧
  (∀ c ∈ visited, c = s ∨ inBounds (mazeWidth maze) (mazeHeight maze) c.1 c.2 = true)

/-- Preservation of `BfsInv` across one expansion. -/
theorem BfsInv.step_bfs {maze : Maze} {s : Coord} {node : SearchNode}
    {queue queue' news : List SearchNode} {visited visited' : List Coord}
    (hinv : BfsInv maze s (node :: queue) visited)
    (h2 : queue' = queue ++ news)
    (h3 : visited' = (news.map SearchNode.coord).reverse ++ visited)
    (h5 : (news.map SearchNode.coord).Nodup)
    (h6 : ∀ n ∈ news, n.path = node.path ++ [(n.x, n.y)] ∧
      stepOk maze (node.x, node.y) (n.x, n.y) = true ∧ (n.x, n.y) ∉ visited) :
    BfsInv maze s queue' visited' := by
  obtain ⟨hqueue, hnd, hbv⟩ := hinv
  obtain ⟨hnodeok, hnodevis⟩ := hqueue node (List.mem_cons_self _ _)
  have hvsub : ∀ c ∈ visited, c ∈ visited' := by
    intro c hc
    rw [h3]
    exact List.mem_append_right _ hc
  have hnewvis : ∀ n ∈ news, (n.x, n.y) ∈ visited' := by
    intro n hn
    rw [h3]
    refine List.mem_append_left _ ?_
    rw [List.mem_reverse]
    exact List.mem_map.mpr ⟨n, hn, rfl⟩
  refine ⟨?_, ?_, ?_⟩
  · intro n hn
    rw [h2] at hn
    rcases List.mem_append.mp hn with hn | hn
    · obtain ⟨h1, h2⟩ := hqueue n (List.mem_cons_of_mem _ hn)
      exact ⟨h1.mono hvsub, hvsub _ h2⟩
    · obtain ⟨hpath, hstep, hnv⟩ := h6 n hn
      have hnb : (n.x, n.y) ∉ (node.x, node.y) :: visited := by
        intro hmem
        rcases List.mem_cons.mp hmem with he | hmem
        · exact hnv (he ▸ hnodevis)
        · exact hnv hmem
      have := hnodeok.extend hstep hnb (hvsub _ hnodevis) hvsub
      refine ⟨?_, hnewvis n hn⟩
      rcases n with ⟨nx, ny, npath⟩
      simp only at hpath
      rw [hpath]
      exact this
  · rw [h3]
    refine List.Nodup.append (List.nodup_reverse.mpr h5) hnd ?_
    intro a ha hb
    rw [List.mem_reverse] at ha
    rcases List.mem_map.mp ha with ⟨n, hn, rfl⟩
    exact (h6 n hn).2.2 hb
  · intro c hc
    rw [h3] at hc
    rcases List.mem_append.mp hc with hc | hc
    · rw [List.mem_reverse] at hc
      rcases List.mem_map.mp hc with ⟨n, hn, rfl⟩
      exact Or.inr (stepOk_inBounds (h6 n hn).2.1)
    · exact hbv c hc

/-- Facts about every `ok` result of the BFS loop. -/
theorem bfsLoop_ok_facts (maze : Maze) (s : Coord) (ex ey : Int) :
    ∀ (fuel : Nat) (queue : List SearchNode) (visited : List Coord),
      BfsInv maze s queue visited →
      ∀ l, bfsLoop maze ex ey fuel queue visited = .ok l →
        l = [] ∨ (ValidPath maze s (ex, ey) l ∧ (s :: l).Nodup) := by
  intro fuel
  induction fuel with
  | zero => intro queue visited _ l h; cases h
  | succ fuel ih =>
    intro queue visited hinv l h
    match queue with
    | [] =>
      simp only [bfsLoop] at h
      injection h with h
      exact Or.inl h.symm
    | node :: queue =>
      by_cases hg : node.x = ex ∧ node.y = ey
      · simp only [bfsLoop] at h
        rw [if_pos hg] at h
        right
        obtain ⟨⟨q, h1, h2, h3, h4, _⟩, _⟩ := hinv.1 node (List.mem_cons_self _ _)
        have hl : l = q := by
          injection h with h
          rw [← h, h1]
          rfl
        subst hl
        refine ⟨⟨h2, ?_⟩, h4⟩
        rw [h3]
        exact Prod.ext hg.1 hg.2
      · simp only [bfsLoop] at h
        rw [if_neg hg] at h
        rcases bfsPush_spec maze node.x node.y node.path dirList queue visited with
          ⟨news, q', v', hp, hqe, hve, hlen, hnodup, hnews, _⟩ | ⟨hp, _⟩
        · rw [hp] at h
          exact ih q' v' (hinv.step_bfs hqe hve hnodup hnews) l h
        · rw [hp] at h
          cases h

/-- With the supplied fuel the BFS loop never exhausts. -/
theorem bfsLoop_no_fuel (maze : Maze) (s : Coord) (ex ey : Int) :
    ∀ (fuel : Nat) (queue : List SearchNode) (visited : List Coord),
      BfsInv maze s queue visited →
      queue.length + (mazeWidth maze * mazeHeight maze + 2 - visited.length) < fuel →
      bfsLoop maze ex ey fuel queue visited ≠ .outOfFuel := by
  intro fuel
  induction fuel with
  | zero => intro queue visited _ hlt; exact absurd hlt (by omega)
  | succ fuel ih =>
    intro queue visited hinv hlt
    match queue with
    | [] => simp [bfsLoop]
    | node :: queue =>
      have hvlen : visited.length ≤ mazeWidth maze * mazeHeight maze + 1 :=
        length_le_of_nodup_bounds hinv.2.1 hinv.2.2
      simp only [bfsLoop]
      by_cases hg : node.x = ex ∧ node.y = ey
      · rw [if_pos hg]; simp
      · rw [if_neg hg]
        rcases bfsPush_spec maze node.x node.y node.path dirList queue visited with
          ⟨news, q', v', hp, hqe, hve, hlen, hnodup, hnews, _⟩ | ⟨hp, _⟩
        · rw [hp]
          have hinv2 := hinv.step_bfs hqe hve hnodup hnews
          have hvlen2 : v'.length ≤ mazeWidth maze * mazeHeight maze + 1 :=
            length_le_of_nodup_bounds hinv2.2.1 hinv2.2.2
          refine ih q' v' hinv2 ?_
          have hq : q'.length = queue.length + news.length := by rw [hqe]; simp
          have hv : v'.length = news.length + visited.length := by rw [hve]; simp
          simp only [List.length_cons] at hlt
          rw [hq, hv]
          rw [hv] at hvlen2
          generalize mazeWidth maze * mazeHeight maze = K at hlt hvlen hvlen2 ⊢
          omega
        · rw [hp]; simp

/-- On a rectangular grid with an in-bounds start, the BFS loop never
throws. -/
theorem bfsLoop_no_typeError (maze : Maze) (s : Coord) (ex ey : Int) (hr : Rect maze)
    (hs : inBounds (mazeWidth maze) (mazeHeight maze) s.1 s.2 = true) :
    ∀ (fuel : Nat) (queue : List SearchNode) (visited : List Coord),
      BfsInv maze s queue visited →
      bfsLoop maze ex ey fuel queue visited ≠ .typeError := by
  intro fuel
  induction fuel with
  | zero => intro queue visited _; simp [bfsLoop]
  | succ fuel ih =>
    intro queue visited hinv
    match queue with
    | [] => simp [bfsLoop]
    | node :: queue =>
      simp only [bfsLoop]
      by_cases hg : node.x = ex ∧ node.y = ey
      · rw [if_pos hg]; simp
      · rw [if_neg hg]
        have hcell : ∃ cell, cellAt maze node.x node.y = some cell := by
          rcases hinv.2.2 _ (hinv.1 node (List.mem_cons_self _ _)).2 with hcs | hcb
          · have h1 : node.x = s.1 := by rw [← hcs]
            have h2 : node.y = s.2 := by rw [← hcs]
            rw [h1, h2]
            exact cellAt_isSome_of_inBounds hr hs
          · exact cellAt_isSome_of_inBounds hr hcb
        rcases bfsPush_spec maze node.x node.y node.path dirList queue visited with
          ⟨news, q', v', hp, hqe, hve, hlen, hnodup, hnews, _⟩ | ⟨hp, hnone⟩
        · rw [hp]
          exact ih q' v' (hinv.step_bfs hqe hve hnodup hnews)
        · rcases hcell with ⟨cell, hcell⟩
          rw [hcell] at hnone
          cases hnone

/-- The initial BFS state satisfies the invariant. -/
theorem bfsInv_init (maze : Maze) (s : Coord) :
    BfsInv maze s [⟨s.1, s.2, [s]⟩] [s] := by
  refine ⟨?_, List.nodup_singleton s, by simp⟩
  intro n hn
  rcases List.mem_singleton.mp hn with rfl
  exact ⟨⟨[], by simp, rfl, by simp [lastC], List.nodup_singleton s, by simp [lastC]⟩,
    by simp⟩

/-- `bfs` on a rectangular grid with an in-bounds start returns a value with
the path-mode facts. -/
theorem bfs_results (maze : Maze) (s : Coord) (ex ey : Int) (hr : Rect maze)
    (hs : inBounds (mazeWidth maze) (mazeHeight maze) s.1 s.2 = true) :
    ∃ l, bfs s.1 s.2 ex ey maze = .ok l ∧
      (l = [] ∨ (ValidPath maze s (ex, ey) l ∧ (s :: l).Nodup)) := by
  have hinit := bfsInv_init maze s
  have hfuel : ([⟨s.1, s.2, [s]⟩] : List SearchNode).length +
      (mazeWidth maze * mazeHeight maze + 2 - ([s] : List Coord).length)
      < bfsFuel maze := by
    simp [bfsFuel]; omega
  have h1 := bfsLoop_no_fuel maze s ex ey (bfsFuel maze) _ _ hinit hfuel
  have h2 := bfsLoop_no_typeError maze s ex ey hr hs (bfsFuel maze) _ _ hinit
  have h3 := bfsLoop_ok_facts maze s ex ey (bfsFuel maze) _ _ hinit
  cases hres : bfsLoop maze ex ey (bfsFuel maze) [⟨s.1, s.2, [s]⟩] [s] with
  | ok l => exact ⟨l, hres, h3 l hres⟩
  | typeError => exact absurd hres h2
  | outOfFuel => exact absurd hres h1

/-- Conditional facts about any `ok` result of `bfs`. -/
theorem bfs_ok_facts (maze : Maze) (sx sy ex ey : Int) (l : List Coord)
    (h : bfs sx sy ex ey maze = .ok l) :
    l = [] ∨ (ValidPath maze (sx, sy) (ex, ey) l ∧ ((sx, sy) :: l).Nodup) :=
  bfsLoop_ok_facts maze (sx, sy) ex ey (bfsFuel maze) _ _ (bfsInv_init maze (sx, sy)) l h

/-! ## A*: small lemmas about the open-set update -/

theorem setPathAt_map_coord (l : List SearchNode) (c : Coord) (p : List Coord) :
    (setPathAt l c p).map SearchNode.coord = l.map SearchNode.coord := by
  induction l with
  | nil => rfl
  | cons n ns ih =>
    by_cases h : n.x = c.1 ∧ n.y = c.2
    · simp [setPathAt, h, SearchNode.coord]
    · simp [setPathAt, h, SearchNode.coord, ih]

theorem setPathAt_length (l : List SearchNode) (c : Coord) (p : List Coord) :
    (setPathAt l c p).length = l.length := by
  induction l with
  | nil => rfl
  | cons n ns ih =>
    by_cases h : n.x = c.1 ∧ n.y = c.2
    · simp [setPathAt, h]
    · simp [setPathAt, h, ih]

theorem mem_setPathAt {l : List SearchNode} {c : Coord} {p : List Coord} {m : SearchNode}
    (h : m ∈ setPathAt l c p) : m ∈ l ∨ ((m.x, m.y) = c ∧ m.path = p) := by
  induction l with
  | nil => cases h
  | cons n ns ih =>
    by_cases hc : n.x = c.1 ∧ n.y = c.2
    · simp only [setPathAt, hc, and_self, if_true] at h
      rcases List.mem_cons.mp h with rfl | h
      · right
        refine ⟨?_, rfl⟩
        simp [Prod.ext_iff, hc.1, hc.2]
      · exact Or.inl (List.mem_cons_of_mem _ h)
    · simp only [setPathAt, hc, if_false] at h
      rcases List.mem_cons.mp h with rfl | h
      · exact Or.inl (List.mem_cons_self _ _)
      · rcases ih h with h | h
        · exact Or.inl (List.mem_cons_of_mem _ h)
        · exact Or.inr h

/-! ## A*: basic invariant (well-formed paths, duplicate-free open set) -/

/-- The basic A* invariant: open-set nodes carry well-formed paths whose
interiors lie in the closed set, open coordinates are duplicate-free and not
closed, and the closed set is a duplicate-free set of in-grid cells (or the
start). -/
def AstarInv (maze : Maze) (s : Coord) (open_ : List SearchNode)
    (closed : List Coord) : Prop :=
  (∀ n ∈ open_, NodeOk maze s closed n) ∧
  (∀ n ∈ open_, (n.x, n.y) ∉ closed) ∧
  (open_.map SearchNode.coord).Nodup ∧
  closed.Nodup ∧
  (∀ c ∈ closed, c = s ∨ inBounds (mazeWidth maze) (mazeHeight maze) c.1 c.2 = true)

/-- The invariant transfers along permutations of the open set. -/
theorem AstarInv.perm {maze : Maze} {s : Coord} {open1 open2 : List SearchNode}
    {closed : List Coord} (h : AstarInv maze s open1 closed)
    (hp : open1.Perm open2) : AstarInv maze s open2 closed := by
  obtain ⟨h1, h2, h3, h4, h5⟩ := h
  exact ⟨fun n hn => h1 n (hp.symm.subset hn), fun n hn => h2 n (hp.symm.subset hn),
    ((hp.map SearchNode.coord).nodup_iff).mp h3, h4, h5⟩

/-- Everything `astarPush` can do, at the level needed for path
well-formedness: each resulting open node is an old node or carries the
expanded node's path extended by a fresh legal neighbour, the open
coordinates stay duplicate-free, and the open set grows by at most one node
per direction; or an out-of-grid wall read throws. -/
theorem astarPush_spec (maze : Maze) (x y : Int) (closed : List Coord)
    (path : List Coord) :
    ∀ (dirs : List Dir) (open_ : List SearchNode) (g : List (Coord × WithTop Nat)),
      (open_.map SearchNode.coord).Nodup →
      (∃ open' g', astarPush maze (mazeWidth maze) (mazeHeight maze) x y closed path
          dirs open_ g = .ok (open', g') ∧
        open'.length ≤ open_.length + dirs.length ∧
        (open'.map SearchNode.coord).Nodup ∧
        (∀ c, c ∈ open'.map SearchNode.coord →
          c ∈ open_.map SearchNode.coord ∨ c ∉ closed) ∧
        (∀ n ∈ open', n ∈ open_ ∨
          (n.path = path ++ [(n.x, n.y)] ∧ stepOk maze (x, y) (n.x, n.y) = true ∧
            (n.x, n.y) ∉ closed)))
      ∨ (astarPush maze (mazeWidth maze) (mazeHeight maze) x y closed path dirs open_ g
          = .typeError ∧ cellAt maze x y = none) := by
  intro dirs
  induction dirs with
  | nil =>
    intro open_ g hnd
    left
    exact ⟨open_, g, rfl, by simp, hnd, fun c hc => Or.inl hc, fun n hn => Or.inl hn⟩
  | cons d rest ih =>
    intro open_ g hnd
    by_cases hb : inBounds (mazeWidth maze) (mazeHeight maze)
        (x + (dirDelta d).1) (y + (dirDelta d).2)
    · cases hc : cellAt maze x y with
      | none =>
        right
        constructor
        · simp only [astarPush, hb, if_true, hc]
        · rfl
      | some cell =>
        by_cases hw : dirWall d cell
        · have heq : astarPush maze (mazeWidth maze) (mazeHeight maze) x y closed path
              (d :: rest) open_ g =
              astarPush maze (mazeWidth maze) (mazeHeight maze) x y closed path rest open_ g := by
            simp only [astarPush, hb, if_true, hc, hw]
          rw [heq]
          rcases ih open_ g hnd with ⟨o', g', h1, h2, h3, h4, h5⟩ | h
          · exact Or.inl ⟨o', g', h1, le_trans h2 (by simp only [List.length_cons]; omega), h3, h4, h5⟩
          · exact absurd h.2 (by simp [hc])
        · by_cases hcl : closed.contains (x + (dirDelta d).1, y + (dirDelta d).2)
          · have heq : astarPush maze (mazeWidth maze) (mazeHeight maze) x y closed path
                (d :: rest) open_ g =
                astarPush maze (mazeWidth maze) (mazeHeight maze) x y closed path rest open_ g := by
              simp only [astarPush, hb, if_true, hc, hw, Bool.false_eq_true, if_false, hcl]
            rw [heq]
            rcases ih open_ g hnd with ⟨o', g', h1, h2, h3, h4, h5⟩ | h
            · exact Or.inl ⟨o', g', h1, le_trans h2 (by simp only [List.length_cons]; omega), h3, h4, h5⟩
            · exact absurd h.2 (by simp [hc])
          · have hclm : (x + (dirDelta d).1, y + (dirDelta d).2) ∉ closed :=
              fun hm => hcl (contains_iff_mem.mpr hm)
            have hstep : stepOk maze (x, y)
                (x + (dirDelta d).1, y + (dirDelta d).2) = true :=
              stepOk_iff.mpr ⟨d, rfl, hb, cell, hc, by simpa using hw⟩
            cases hfind : open_.find?
                (fun n => n.x = x + (dirDelta d).1 ∧ n.y = y + (dirDelta d).2) with
            | none =>
              have heq : astarPush maze (mazeWidth maze) (mazeHeight maze) x y closed path
                  (d :: rest) open_ g =
                  astarPush maze (mazeWidth maze) (mazeHeight maze) x y closed path rest
                    (open_ ++ [⟨x + (dirDelta d).1, y + (dirDelta d).2,
                      path ++ [(x + (dirDelta d).1, y + (dirDelta d).2)]⟩])
                    (((x + (dirDelta d).1, y + (dirDelta d).2),
                      gLookup g (x, y) + 1) :: g) := by
                simp only [astarPush, hb, if_true, hc, hw, Bool.false_eq_true, if_false, hcl,
                  hfind]
              rw [heq]
              have hfresh : ∀ n ∈ open_, ¬((n.x, n.y) =
                  (x + (dirDelta d).1, y + (dirDelta d).2)) := by
                intro n hn he
                have := List.find?_eq_none.mp hfind n hn
                simp only [decide_eq_true_eq] at this
                apply this
                constructor
                · exact congrArg Prod.fst he
                · exact congrArg Prod.snd he
              have hnd2 : ((open_ ++ [(⟨x + (dirDelta d).1, y + (dirDelta d).2,
                  path ++ [(x + (dirDelta d).1, y + (dirDelta d).2)]⟩ : SearchNode)]).map
                    SearchNode.coord).Nodup := by
                rw [List.map_append]
                refine List.Nodup.append hnd (by simp) ?_
                intro a ha hb2
                rcases List.mem_map.mp ha with ⟨n, hn, rfl⟩
                simp only [List.map_cons, List.map_nil, List.mem_singleton] at hb2
                exact hfresh n hn hb2
              rcases ih (open_ ++ [⟨x + (dirDelta d).1, y + (dirDelta d).2,
                  path ++ [(x + (dirDelta d).1, y + (dirDelta d).2)]⟩])
                  (((x + (dirDelta d).1, y + (dirDelta d).2), gLookup g (x, y) + 1) :: g)
                  hnd2 with ⟨o', g', h1, h2, h3, h4, h5⟩ | h
              · left
                refine ⟨o', g', h1, ?_, h3, ?_, ?_⟩
                · simp only [List.length_append, List.length_singleton] at h2
                  simp only [List.length_cons]
                  omega
                · intro c hcmem
                  rcases h4 c hcmem with hcm | hcm
                  · rw [List.map_append] at hcm
                    rcases List.mem_append.mp hcm with hcm | hcm
                    · exact Or.inl hcm
                    · simp only [List.map_cons, List.map_nil, List.mem_singleton] at hcm
                      subst hcm
                      exact Or.inr hclm
                  · exact Or.inr hcm
                · intro n hn
                  rcases h5 n hn with hmem | hnew
                  · rcases List.mem_append.mp hmem with hmem | hmem
                    · exact Or.inl hmem
                    · rcases List.mem_singleton.mp hmem with rfl
                      exact Or.inr ⟨rfl, hstep, hclm⟩
                  · exact Or.inr hnew
              · exact absurd h.2 (by simp [hc])
            | some found =>
              by_cases hlt : gLookup g (x, y) + 1 <
                  gLookup g (x + (dirDelta d).1, y + (dirDelta d).2)
              · have heq : astarPush maze (mazeWidth maze) (mazeHeight maze) x y closed path
                    (d :: rest) open_ g =
                    astarPush maze (mazeWidth maze) (mazeHeight maze) x y closed path rest
                      (setPathAt open_ (x + (dirDelta d).1, y + (dirDelta d).2)
                        (path ++ [(x + (dirDelta d).1, y + (dirDelta d).2)]))
                      (((x + (dirDelta d).1, y + (dirDelta d).2),
                        gLookup g (x, y) + 1) :: g) := by
                  simp only [astarPush, hb, if_true, hc, hw, Bool.false_eq_true, if_false,
                    hcl, hfind, hlt, if_true]
                rw [heq]
                have hnd2 : ((setPathAt open_ (x + (dirDelta d).1, y + (dirDelta d).2)
                    (path ++ [(x + (dirDelta d).1, y + (dirDelta d).2)])).map
                      SearchNode.coord).Nodup := by
                  rw [setPathAt_map_coord]; exact hnd
                rcases ih (setPathAt open_ (x + (dirDelta d).1, y + (dirDelta d).2)
                    (path ++ [(x + (dirDelta d).1, y + (dirDelta d).2)]))
                    (((x + (dirDelta d).1, y + (dirDelta d).2), gLookup g (x, y) + 1) :: g)
                    hnd2 with ⟨o', g', h1, h2, h3, h4, h5⟩ | h
                · left
                  refine ⟨o', g', h1, ?_, h3, ?_, ?_⟩
                  · rw [setPathAt_length] at h2
                    simp only [List.length_cons]
                    omega
                  · intro c hcmem
                    rcases h4 c hcmem with hcm | hcm
                    · rw [setPathAt_map_coord] at hcm
                      exact Or.inl hcm
                    · exact Or.inr hcm
                  · intro n hn
                    rcases h5 n hn with hmem | hnew
                    · rcases mem_setPathAt hmem with hmem | ⟨hcoord, hpath⟩
                      · exact Or.inl hmem
                      · right
                        refine ⟨by rw [hpath, hcoord], ?_, ?_⟩
                        · rw [hcoord]; exact hstep
                        · rw [hcoord]; exact hclm
                    · exact Or.inr hnew
                · exact absurd h.2 (by simp [hc])
              · have heq : astarPush maze (mazeWidth maze) (mazeHeight maze) x y closed path
                    (d :: rest) open_ g =
                    astarPush maze (mazeWidth maze) (mazeHeight maze) x y closed path rest
                      open_ g := by
                  simp only [astarPush, hb, if_true, hc, hw, Bool.false_eq_true, if_false,
                    hcl, hfind, hlt, if_false]
                rw [heq]
                rcases ih open_ g hnd with ⟨o', g', h1, h2, h3, h4, h5⟩ | h
                · exact Or.inl ⟨o', g', h1, le_trans h2 (by simp only [List.length_cons]; omega), h3, h4, h5⟩
                · exact absurd h.2 (by simp [hc])
    · have heq : astarPush maze (mazeWidth maze) (mazeHeight maze) x y closed path
          (d :: rest) open_ g =
          astarPush maze (mazeWidth maze) (mazeHeight maze) x y closed path rest open_ g := by
        simp only [astarPush, hb, Bool.false_eq_true, if_false]
      rw [heq]
      rcases ih open_ g hnd with ⟨o', g', h1, h2, h3, h4, h5⟩ | h
      · exact Or.inl ⟨o', g', h1, le_trans h2 (by simp only [List.length_cons]; omega), h3, h4, h5⟩
      · exact Or.inr h

/-- Preservation of the basic A* invariant across one expansion. -/
theorem AstarInv.step_astar {maze : Maze} {s : Coord} {current : SearchNode}
    {rest open' : List SearchNode} {closed : List Coord}
    (hinv : AstarInv maze s (current :: rest) closed)
    (hnd : (open'.map SearchNode.coord).Nodup)
    (hcls : ∀ c, c ∈ open'.map SearchNode.coord →
      c ∈ rest.map SearchNode.coord ∨ c ∉ (current.x, current.y) :: closed)
    (hnode : ∀ n ∈ open', n ∈ rest ∨
      (n.path = current.path ++ [(n.x, n.y)] ∧
        stepOk maze (current.x, current.y) (n.x, n.y) = true ∧
        (n.x, n.y) ∉ (current.x, current.y) :: closed)) :
    AstarInv maze s open' ((current.x, current.y) :: closed) := by
  obtain ⟨h1, h2, h3, h4, h5⟩ := hinv
  have hcurok := h1 current (List.mem_cons_self _ _)
  have hrest_ne : ∀ n ∈ rest, (n.x, n.y) ≠ (current.x, current.y) := by
    intro n hn he
    rw [List.map_cons, List.nodup_cons] at h3
    apply h3.1
    have : SearchNode.coord n ∈ rest.map SearchNode.coord :=
      List.mem_map.mpr ⟨n, hn, rfl⟩
    have hcc : SearchNode.coord n = SearchNode.coord current := he
    rwa [hcc] at this
  have hrest_ncl : ∀ n ∈ rest, (n.x, n.y) ∉ (current.x, current.y) :: closed := by
    intro n hn hmem
    rcases List.mem_cons.mp hmem with he | hmem
    · exact hrest_ne n hn he
    · exact h2 n (List.mem_cons_of_mem _ hn) hmem
  refine ⟨?_, ?_, hnd, ?_, ?_⟩
  · intro n hn
    rcases hnode n hn with hmem | ⟨hpath, hstep, hncl⟩
    · exact (h1 n (List.mem_cons_of_mem _ hmem)).mono
        (fun c hc => List.mem_cons_of_mem _ hc)
    · have := hcurok.extend hstep hncl (List.mem_cons_self _ _)
        (fun c hc => List.mem_cons_of_mem _ hc)
      rcases n with ⟨nx, ny, npath⟩
      simp only at hpath
      rw [hpath]
      exact this
  · intro n hn
    rcases hcls _ (List.mem_map.mpr ⟨n, hn, rfl⟩) with hmem | hmem
    · rcases List.mem_map.mp hmem with ⟨m, hm, hcoord⟩
      have : (m.x, m.y) = (n.x, n.y) := hcoord
      rw [← this]
      exact hrest_ncl m hm
    · exact hmem
  · exact List.nodup_cons.mpr ⟨h2 current (List.mem_cons_self _ _), h4⟩
  · intro c hc
    rcases List.mem_cons.mp hc with rfl | hc
    · exact hcurok.coord_cases
    · exact h5 c hc

/-- Facts about every `ok` result of the A* loop. -/
theorem astarLoop_ok_facts (maze : Maze) (s : Coord) (ex ey : Int) :
    ∀ (fuel : Nat) (open_ : List SearchNode) (closed : List Coord)
      (g : List (Coord × WithTop Nat)),
      AstarInv maze s open_ closed →
      ∀ l, astarLoop maze ex ey fuel open_ closed g = .ok l →
        l = [] ∨ (ValidPath maze s (ex, ey) l ∧ (s :: l).Nodup) := by
  intro fuel
  induction fuel with
  | zero => intro open_ closed g _ l h; cases h
  | succ fuel ih =>
    intro open_ closed g hinv l h
    cases hsort : sortBy (fLe g ex ey) open_ with
    | nil =>
      simp only [astarLoop, hsort] at h
      injection h with h
      exact Or.inl h.symm
    | cons current rest =>
      have hperm : open_.Perm (current :: rest) := by
        rw [← hsort]
        exact (sortBy_perm _ _).symm
      have hinv2 := hinv.perm hperm
      simp only [astarLoop, hsort] at h
      by_cases hg : current.x = ex ∧ current.y = ey
      · rw [if_pos hg] at h
        right
        obtain ⟨q, h1, h2, h3, h4, _⟩ := hinv2.1 current (List.mem_cons_self _ _)
        have hl : l = q := by
          injection h with h
          rw [← h, h1]
          rfl
        subst hl
        refine ⟨⟨h2, ?_⟩, h4⟩
        rw [h3]
        exact Prod.ext hg.1 hg.2
      · rw [if_neg hg] at h
        have hndrest : (rest.map SearchNode.coord).Nodup := by
          have := hinv2.2.2.1
          rw [List.map_cons, List.nodup_cons] at this
          exact this.2
        rcases astarPush_spec maze current.x current.y
            ((current.x, current.y) :: closed) current.path dirList rest g hndrest with
          ⟨o', g', hp, hlen, hnd, hcls, hnode⟩ | ⟨hp, _⟩
        · rw [hp] at h
          exact ih o' ((current.x, current.y) :: closed) g'
            (hinv2.step_astar hnd hcls hnode) l h
        · rw [hp] at h
          cases h

/-- With the supplied fuel the A* loop never exhausts. -/
theorem astarLoop_no_fuel (maze : Maze) (s : Coord) (ex ey : Int) :
    ∀ (fuel : Nat) (open_ : List SearchNode) (closed : List Coord)
      (g : List (Coord × WithTop Nat)),
      AstarInv maze s open_ closed →
      open_.length + 5 * (mazeWidth maze * mazeHeight maze + 2 - closed.length) < fuel →
      astarLoop maze ex ey fuel open_ closed g ≠ .outOfFuel := by
  intro fuel
  induction fuel with
  | zero => intro open_ closed g _ hlt; exact absurd hlt (by omega)
  | succ fuel ih =>
    intro open_ closed g hinv hlt
    cases hsort : sortBy (fLe g ex ey) open_ with
    | nil => simp [astarLoop, hsort]
    | cons current rest =>
      have hperm : open_.Perm (current :: rest) := by
        rw [← hsort]
        exact (sortBy_perm _ _).symm
      have hinv2 := hinv.perm hperm
      have hlen2 : open_.length = rest.length + 1 := by
        have := hperm.length_eq
        simpa using this
      have hclen : closed.length ≤ mazeWidth maze * mazeHeight maze + 1 :=
        length_le_of_nodup_bounds hinv.2.2.2.1 hinv.2.2.2.2
      simp only [astarLoop, hsort]
      by_cases hg : current.x = ex ∧ current.y = ey
      · rw [if_pos hg]; simp
      · rw [if_neg hg]
        have hndrest : (rest.map SearchNode.coord).Nodup := by
          have := hinv2.2.2.1
          rw [List.map_cons, List.nodup_cons] at this
          exact this.2
        rcases astarPush_spec maze current.x current.y
            ((current.x, current.y) :: closed) current.path dirList rest g hndrest with
          ⟨o', g', hp, hplen, hnd, hcls, hnode⟩ | ⟨hp, _⟩
        · rw [hp]
          refine ih o' ((current.x, current.y) :: closed) g'
            (hinv2.step_astar hnd hcls hnode) ?_
          simp only [dirList, List.length_cons, List.length_nil] at hplen
          simp only [List.length_cons]
          generalize mazeWidth maze * mazeHeight maze = K at hlt hclen ⊢
          omega
        · rw [hp]; simp

/-- On a rectangular grid with an in-bounds start, the A* loop never
throws. -/
theorem astarLoop_no_typeError (maze : Maze) (s : Coord) (ex ey : Int) (hr : Rect maze)
    (hs : inBounds (mazeWidth maze) (mazeHeight maze) s.1 s.2 = true) :
    ∀ (fuel : Nat) (open_ : List SearchNode) (closed : List Coord)
      (g : List (Coord × WithTop Nat)),
      AstarInv maze s open_ closed →
      astarLoop maze ex ey fuel open_ closed g ≠ .typeError := by
  intro fuel
  induction fuel with
  | zero => intro open_ closed g _; simp [astarLoop]
  | succ fuel ih =>
    intro open_ closed g hinv
    cases hsort : sortBy (fLe g ex ey) open_ with
    | nil => simp [astarLoop, hsort]
    | cons current rest =>
      have hperm : open_.Perm (current :: rest) := by
        rw [← hsort]
        exact (sortBy_perm _ _).symm
      have hinv2 := hinv.perm hperm
      simp only [astarLoop, hsort]
      by_cases hg : current.x = ex ∧ current.y = ey
      · rw [if_pos hg]; simp
      · rw [if_neg hg]
        have hcell : ∃ cell, cellAt maze current.x current.y = some cell := by
          rcases (hinv2.1 current (List.mem_cons_self _ _)).coord_cases with hcs | hcb
          · have h1 : current.x = s.1 := by rw [← hcs]
            have h2 : current.y = s.2 := by rw [← hcs]
            rw [h1, h2]
            exact cellAt_isSome_of_inBounds hr hs
          · exact cellAt_isSome_of_inBounds hr hcb
        have hndrest : (rest.map SearchNode.coord).Nodup := by
          have := hinv2.2.2.1
          rw [List.map_cons, List.nodup_cons] at this
          exact this.2
        rcases astarPush_spec maze current.x current.y
            ((current.x, current.y) :: closed) current.path dirList rest g hndrest with
          ⟨o', g', hp, hplen, hnd, hcls, hnode⟩ | ⟨hp, hnone⟩
        · rw [hp]
          exact ih o' ((current.x, current.y) :: closed) g' (hinv2.step_astar hnd hcls hnode)
        · rcases hcell with ⟨cell, hcell⟩
          rw [hcell] at hnone
          cases hnone

/-- The initial A* state satisfies the basic invariant. -/
theorem astarInv_init (maze : Maze) (s : Coord) :
    AstarInv maze s [⟨s.1, s.2, [s]⟩] [] := by
  refine ⟨?_, by simp, by simp, List.nodup_nil, by simp⟩
  intro n hn
  rcases List.mem_singleton.mp hn with rfl
  exact ⟨[], by simp, rfl, by simp [lastC], List.nodup_singleton s, by simp [lastC]⟩

/-- `astar` on a rectangular grid with an in-bounds start returns a value with
the path-mode facts. -/
theorem astar_results (maze : Maze) (s : Coord) (ex ey : Int) (hr : Rect maze)
    (hs : inBounds (mazeWidth maze) (mazeHeight maze) s.1 s.2 = true) :
    ∃ l, astar s.1 s.2 ex ey maze = .ok l ∧
      (l = [] ∨ (ValidPath maze s (ex, ey) l ∧ (s :: l).Nodup)) := by
  have hinit := astarInv_init maze s
  have hfuel : ([⟨s.1, s.2, [s]⟩] : List SearchNode).length +
      5 * (mazeWidth maze * mazeHeight maze + 2 - ([] : List Coord).length)
      < astarFuel maze := by
    simp [astarFuel]; omega
  have h1 := astarLoop_no_fuel maze s ex ey (astarFuel maze) _ _
    [((s.1, s.2), (0 : Nat))] hinit hfuel
  have h2 := astarLoop_no_typeError maze s ex ey hr hs (astarFuel maze) _ _
    [((s.1, s.2), (0 : Nat))] hinit
  have h3 := astarLoop_ok_facts maze s ex ey (astarFuel maze) _ _
    [((s.1, s.2), (0 : Nat))] hinit
  cases hres : astarLoop maze ex ey (astarFuel maze) [⟨s.1, s.2, [s]⟩] []
      [((s.1, s.2), (0 : Nat))] with
  | ok l => exact ⟨l, hres, h3 l hres⟩
  | typeError => exact absurd hres h2
  | outOfFuel => exact absurd hres h1

/-- Conditional facts about any `ok` result of `astar`. -/
theorem astar_ok_facts (maze : Maze) (sx sy ex ey : Int) (l : List Coord)
    (h : astar sx sy ex ey maze = .ok l) :
    l = [] ∨ (ValidPath maze (sx, sy) (ex, ey) l ∧ ((sx, sy) :: l).Nodup) :=
  astarLoop_ok_facts maze (sx, sy) ex ey (astarFuel maze) _ _ _
    (astarInv_init maze (sx, sy)) l h

/-! ## Start-equals-goal: every algorithm returns `[]` on its first
iteration -/

theorem dfs_start_eq_goal (maze : Maze) (sx sy : Int) :
    dfs sx sy sx sy maze = .ok [] := by
  have hf : dfsFuel maze = (4 * (mazeWidth maze * mazeHeight maze + 1) + 7) + 1 := rfl
  rw [dfs, hf]
  simp [dfsLoop]

theorem bfs_start_eq_goal (maze : Maze) (sx sy : Int) :
    bfs sx sy sx sy maze = .ok [] := by
  have hf : bfsFuel maze = (mazeWidth maze * mazeHeight maze + 7) + 1 := rfl
  rw [bfs, hf]
  simp [bfsLoop]

theorem astar_start_eq_goal (maze : Maze) (sx sy : Int) :
    astar sx sy sx sy maze = .ok [] := by
  have hf : astarFuel maze = (5 * (mazeWidth maze * mazeHeight maze + 1) + 7) + 1 := rfl
  rw [astar, hf]
  simp [astarLoop, sortBy, insertBy]

theorem dfsExplore_start_eq_goal (maze : Maze) (sx sy : Int) :
    dfsExplore sx sy sx sy maze = .ok [] := by
  have hf : dfsFuel maze = (4 * (mazeWidth maze * mazeHeight maze + 1) + 7) + 1 := rfl
  rw [dfsExplore, hf]
  simp [dfsExploreLoop]

theorem bfsExplore_start_eq_goal (maze : Maze) (sx sy : Int) :
    bfsExplore sx sy sx sy maze = .ok [] := by
  have hf : bfsFuel maze = (mazeWidth maze * mazeHeight maze + 7) + 1 := rfl
  rw [bfsExplore, hf]
  simp [bfsExploreLoop]

theorem astarExplore_start_eq_goal (maze : Maze) (sx sy : Int) :
    astarExplore sx sy sx sy maze = .ok ⟨[], []⟩ := by
  have hf : astarFuel maze = (5 * (mazeWidth maze * mazeHeight maze + 1) + 7) + 1 := rfl
  rw [astarExplore, hf]
  simp [expLoop, sortBy, insertBy, walkBack]

/-! ## Zero-width grids: no neighbour is ever in bounds, every algorithm
drains its frontier and returns `[]` -/

theorem inBounds_zeroW (H : Nat) (x y : Int) : inBounds 0 H x y = false := by
  by_cases h : 0 ≤ x
  · have h2 : ¬(x < ((0 : Nat) : Int)) := by
      push_cast
      omega
    simp [inBounds, h, h2]
  · simp [inBounds, h]

theorem dfsPush_zeroW (maze : Maze) (hW : mazeWidth maze = 0) (x y : Int)
    (visited path : List Coord) :
    ∀ (dirs : List Dir) (stack : List SearchNode),
      dfsPush maze (mazeWidth maze) (mazeHeight maze) x y visited path dirs stack
        = .ok stack := by
  intro dirs
  induction dirs with
  | nil => intro stack; rfl
  | cons d rest ih =>
    intro stack
    rw [show dfsPush maze (mazeWidth maze) (mazeHeight maze) x y visited path
        (d :: rest) stack = dfsPush maze (mazeWidth maze) (mazeHeight maze) x y
          visited path rest stack from by
      simp only [dfsPush, hW, inBounds_zeroW, Bool.false_eq_true, if_false]]
    exact ih stack

theorem dfs_zeroW (maze : Maze) (hW : mazeWidth maze = 0) (sx sy ex ey : Int) :
    dfs sx sy ex ey maze = .ok [] := by
  have hf : dfsFuel maze = (4 * (mazeWidth maze * mazeHeight maze + 1) + 6) + 1 + 1 := rfl
  rw [dfs, hf]
  by_cases hg : sx = ex ∧ sy = ey
  · simp only [dfsLoop, List.contains_nil,
      Bool.false_eq_true, if_false]
    rw [if_pos hg]
    rfl
  · simp only [dfsLoop, List.contains_nil,
      Bool.false_eq_true, if_false]
    rw [if_neg hg, dfsPush_zeroW maze hW]
    rfl

theorem bfsPush_zeroW (maze : Maze) (hW : mazeWidth maze = 0) (x y : Int)
    (path : List Coord) :
    ∀ (dirs : List Dir) (queue : List SearchNode) (visited : List Coord),
      bfsPush maze (mazeWidth maze) (mazeHeight maze) x y path dirs queue visited
        = .ok (queue, visited) := by
  intro dirs
  induction dirs with
  | nil => intro queue visited; rfl
  | cons d rest ih =>
    intro queue visited
    rw [show bfsPush maze (mazeWidth maze) (mazeHeight maze) x y path
        (d :: rest) queue visited = bfsPush maze (mazeWidth maze) (mazeHeight maze) x y
          path rest queue visited from by
      simp only [bfsPush, hW, inBounds_zeroW, Bool.false_eq_true, if_false]]
    exact ih queue visited

theorem bfs_zeroW (maze : Maze) (hW : mazeWidth maze = 0) (sx sy ex ey : Int) :
    bfs sx sy ex ey maze = .ok [] := by
  have hf : bfsFuel maze = (mazeWidth maze * mazeHeight maze + 6) + 1 + 1 := rfl
  rw [bfs, hf]
  by_cases hg : sx = ex ∧ sy = ey
  · simp only [bfsLoop]
    rw [if_pos hg]
    rfl
  · simp only [bfsLoop]
    rw [if_neg hg, bfsPush_zeroW maze hW]
    rfl

theorem astarPush_zeroW (maze : Maze) (hW : mazeWidth maze = 0) (x y : Int)
    (closed path : List Coord) :
    ∀ (dirs : List Dir) (open_ : List SearchNode) (g : List (Coord × WithTop Nat)),
      astarPush maze (mazeWidth maze) (mazeHeight maze) x y closed path dirs open_ g
        = .ok (open_, g) := by
  intro dirs
  induction dirs with
  | nil => intro open_ g; rfl
  | cons d rest ih =>
    intro open_ g
    rw [show astarPush maze (mazeWidth maze) (mazeHeight maze) x y closed path
        (d :: rest) open_ g = astarPush maze (mazeWidth maze) (mazeHeight maze) x y
          closed path rest open_ g from by
      simp only [astarPush, hW, inBounds_zeroW, Bool.false_eq_true, if_false]]
    exact ih open_ g

theorem astar_zeroW (maze : Maze) (hW : mazeWidth maze = 0) (sx sy ex ey : Int) :
    astar sx sy ex ey maze = .ok [] := by
  have hf : astarFuel maze = (5 * (mazeWidth maze * mazeHeight maze + 1) + 6) + 1 + 1 := rfl
  rw [astar, hf]
  by_cases hg : sx = ex ∧ sy = ey
  · simp only [astarLoop, sortBy, insertBy]
    rw [if_pos hg]
    rfl
  · simp only [astarLoop, sortBy, insertBy]
    rw [if_neg hg, astarPush_zeroW maze hW]
    rfl

theorem dfsExpPush_zeroW (maze : Maze) (hW : mazeWidth maze = 0) (x y : Int)
    (visited : List Coord) :
    ∀ (dirs : List Dir) (stack : List Coord),
      dfsExpPush maze (mazeWidth maze) (mazeHeight maze) x y visited dirs stack
        = .ok stack := by
  intro dirs
  induction dirs with
  | nil => intro stack; rfl
  | cons d rest ih =>
    intro stack
    rw [show dfsExpPush maze (mazeWidth maze) (mazeHeight maze) x y visited
        (d :: rest) stack = dfsExpPush maze (mazeWidth maze) (mazeHeight maze) x y
          visited rest stack from by
      simp only [dfsExpPush, hW, inBounds_zeroW, Bool.false_eq_true, if_false]]
    exact ih stack

theorem dfsExplore_zeroW (maze : Maze) (hW : mazeWidth maze = 0) (sx sy ex ey : Int) :
    dfsExplore sx sy ex ey maze = .ok [] := by
  have hf : dfsFuel maze = (4 * (mazeWidth maze * mazeHeight maze + 1) + 6) + 1 + 1 := rfl
  rw [dfsExplore, hf]
  by_cases hg : sx = ex ∧ sy = ey
  · simp only [dfsExploreLoop, List.contains_nil,
      Bool.false_eq_true, if_false]
    rw [if_pos hg]
    rfl
  · simp only [dfsExploreLoop, List.contains_nil,
      Bool.false_eq_true, if_false]
    rw [if_neg hg, dfsExpPush_zeroW maze hW]
    rfl

theorem bfsExpPush_zeroW (maze : Maze) (hW : mazeWidth maze = 0) (x y : Int) :
    ∀ (dirs : List Dir) (queue visited : List Coord),
      bfsExpPush maze (mazeWidth maze) (mazeHeight maze) x y dirs queue visited
        = .ok (queue, visited) := by
  intro dirs
  induction dirs with
  | nil => intro queue visited; rfl
  | cons d rest ih =>
    intro queue visited
    rw [show bfsExpPush maze (mazeWidth maze) (mazeHeight maze) x y
        (d :: rest) queue visited = bfsExpPush maze (mazeWidth maze) (mazeHeight maze) x y
          rest queue visited from by
      simp only [bfsExpPush, hW, inBounds_zeroW, Bool.false_eq_true, if_false]]
    exact ih queue visited

theorem bfsExplore_zeroW (maze : Maze) (hW : mazeWidth maze = 0) (sx sy ex ey : Int) :
    bfsExplore sx sy ex ey maze = .ok [] := by
  have hf : bfsFuel maze = (mazeWidth maze * mazeHeight maze + 6) + 1 + 1 := rfl
  rw [bfsExplore, hf]
  by_cases hg : sx = ex ∧ sy = ey
  · simp only [bfsExploreLoop]
    rw [if_pos hg]
    rfl
  · simp only [bfsExploreLoop]
    rw [if_neg hg, bfsExpPush_zeroW maze hW]
    rfl

theorem expPush_zeroW (maze : Maze) (hW : mazeWidth maze = 0) (x y : Int)
    (gCur : Nat) (closed : List Coord) :
    ∀ (dirs : List Dir) (open_ : List ExpNode) (g : List (Coord × Nat))
      (cf : List (Coord × Coord)),
      expPush maze (mazeWidth maze) (mazeHeight maze) x y gCur closed dirs open_ g cf
        = .ok (open_, g, cf) := by
  intro dirs
  induction dirs with
  | nil => intro open_ g cf; rfl
  | cons d rest ih =>
    intro open_ g cf
    rw [show expPush maze (mazeWidth maze) (mazeHeight maze) x y gCur closed
        (d :: rest) open_ g cf = expPush maze (mazeWidth maze) (mazeHeight maze) x y
          gCur closed rest open_ g cf from by
      simp only [expPush, hW, inBounds_zeroW, Bool.false_eq_true, if_false]]
    exact ih open_ g cf

/-- One unfolding of the `expLoop` recursion (stated once so proofs can
rewrite with it exactly once, avoiding numeral-driven unfolding). -/
theorem expLoop_unfold (maze : Maze) (sx sy ex ey : Int) (fuel : Nat)
    (open_ : List ExpNode) (closed explored : List Coord) (g : List (Coord × Nat))
    (cf : List (Coord × Coord)) :
    expLoop maze sx sy ex ey (fuel + 1) open_ closed explored g cf =
      match sortBy (expLe ex ey) open_ with
      | [] => .ok (explored, g, cf)
      | current :: rest =>
        if closed.contains (current.x, current.y) then
          expLoop maze sx sy ex ey fuel rest closed explored g cf
        else
          let closed' := (current.x, current.y) :: closed
          let explored' :=
            if current.x = sx ∧ current.y = sy then explored
            else explored ++ [(current.x, current.y)]
          if current.x = ex ∧ current.y = ey then
            .ok (explored', g, cf)
          else
            match expPush maze (mazeWidth maze) (mazeHeight maze) current.x current.y
                current.g closed' dirList rest g cf with
            | .ok (open', g', cf') =>
              expLoop maze sx sy ex ey fuel open' closed' explored' g' cf'
            | .typeError => .typeError
            | .outOfFuel => .outOfFuel := rfl

theorem astarExplore_zeroW (maze : Maze) (hW : mazeWidth maze = 0) (sx sy ex ey : Int) :
    astarExplore sx sy ex ey maze = .ok ⟨[], []⟩ := by
  have hf : astarFuel maze = (5 * (mazeWidth maze * mazeHeight maze + 1) + 6) + 1 + 1 := rfl
  rw [astarExplore, hf]
  by_cases hg : sx = ex ∧ sy = ey
  · obtain ⟨rfl, rfl⟩ := hg
    simp [expLoop, sortBy, insertBy, walkBack]
  · have e1 : expLoop maze sx sy ex ey
        ((5 * (mazeWidth maze * mazeHeight maze + 1) + 6) + 1 + 1)
        [⟨sx, sy, 0⟩] [] [] [((sx, sy), 0)] [] =
        expLoop maze sx sy ex ey ((5 * (mazeWidth maze * mazeHeight maze + 1) + 6) + 1)
          [] [(sx, sy)] [] [((sx, sy), 0)] [] := by
      rw [expLoop_unfold]
      simp only [sortBy, insertBy, List.contains_nil, Bool.false_eq_true, if_false]
      rw [if_neg hg, expPush_zeroW maze hW]
      simp
    have e2 : expLoop maze sx sy ex ey
        ((5 * (mazeWidth maze * mazeHeight maze + 1) + 6) + 1)
        [] [(sx, sy)] [] [((sx, sy), 0)] [] =
        .ok ([], [((sx, sy), 0)], []) := by
      rw [expLoop_unfold]
      rfl
    rw [e1, e2]
    have hne : ((ex, ey) : Coord) ≠ (sx, sy) := by
      intro he
      injection he with h1 h2
      exact hg ⟨h1.symm, h2.symm⟩
    have hb : (((ex, ey) : Coord) == (sx, sy)) = false := beq_eq_false_iff_ne.mpr hne
    simp [List.lookup, hb]

/-! ## Out-of-bounds starts and goals -/

/-- On a rectangular grid, a coordinate failing the bounds test has no cell:
`maze[y][x]` is `undefined`. -/
theorem cellAt_none_of_not_inBounds {maze : Maze} (hr : Rect maze) {x y : Int}
    (h : inBounds (mazeWidth maze) (mazeHeight maze) x y = false) :
    cellAt maze x y = none := by
  by_cases hx : 0 ≤ x
  · by_cases hy : 0 ≤ y
    · have hcases : ((mazeWidth maze : Int) ≤ x) ∨ ((mazeHeight maze : Int) ≤ y) := by
        by_contra hc
        push_neg at hc
        have ht : inBounds (mazeWidth maze) (mazeHeight maze) x y = true := by
          simp [inBounds, hx, hy, hc.1, hc.2]
        rw [ht] at h
        cases h
      simp only [cellAt, hx, hy, and_self, if_true]
      rcases hcases with hW | hH
      · cases hrow : maze[y.toNat]? with
        | none => rfl
        | some row =>
          have hmem : row ∈ maze := by
            rcases List.getElem?_eq_some.mp hrow with ⟨hlt, hget⟩
            exact hget ▸ List.getElem_mem hlt
          have hlen : row.length = mazeWidth maze := hr row hmem
          have hred : (Option.some row).bind (fun r => r[x.toNat]?) = row[x.toNat]? := rfl
          rw [hred]
          apply List.getElem?_eq_none
          omega
      · have hnone : maze[y.toNat]? = none := by
          apply List.getElem?_eq_none
          simp only [mazeHeight] at hH
          omega
        rw [hnone]
        rfl
    · simp [cellAt, hy]
  · simp [cellAt, hx]

theorem dfsPush_oobIsolated (maze : Maze) (x y : Int) (visited path : List Coord)
    (hall : ∀ d : Dir, inBounds (mazeWidth maze) (mazeHeight maze)
      (x + (dirDelta d).1) (y + (dirDelta d).2) = false) :
    ∀ (dirs : List Dir) (stack : List SearchNode),
      dfsPush maze (mazeWidth maze) (mazeHeight maze) x y visited path dirs stack
        = .ok stack := by
  intro dirs
  induction dirs with
  | nil => intro stack; rfl
  | cons d rest ih =>
    intro stack
    rw [show dfsPush maze (mazeWidth maze) (mazeHeight maze) x y visited path
        (d :: rest) stack = dfsPush maze (mazeWidth maze) (mazeHeight maze) x y
          visited path rest stack from by
      simp only [dfsPush, hall d, Bool.false_eq_true, if_false]]
    exact ih stack

theorem dfsPush_oobCrash (maze : Maze) (x y : Int) (visited path : List Coord)
    (hnone : cellAt maze x y = none) :
    ∀ (dirs : List Dir) (stack : List SearchNode),
      (∃ d ∈ dirs, inBounds (mazeWidth maze) (mazeHeight maze)
        (x + (dirDelta d).1) (y + (dirDelta d).2) = true) →
      dfsPush maze (mazeWidth maze) (mazeHeight maze) x y visited path dirs stack
        = .typeError := by
  intro dirs
  induction dirs with
  | nil => intro stack h; rcases h with ⟨d, hd, _⟩; cases hd
  | cons d rest ih =>
    intro stack h
    by_cases hb : inBounds (mazeWidth maze) (mazeHeight maze)
        (x + (dirDelta d).1) (y + (dirDelta d).2)
    · simp only [dfsPush, hb, if_true, hnone]
    · rcases h with ⟨d2, hd2, hbd2⟩
      rcases List.mem_cons.mp hd2 with rfl | hd2
      · exact absurd hbd2 (by simp [hb])
      · rw [show dfsPush maze (mazeWidth maze) (mazeHeight maze) x y visited path
            (d :: rest) stack = dfsPush maze (mazeWidth maze) (mazeHeight maze) x y
              visited path rest stack from by
          simp only [dfsPush, hb, Bool.false_eq_true, if_false]]
        exact ih stack ⟨d2, hd2, hbd2⟩

theorem bfsPush_oobIsolated (maze : Maze) (x y : Int) (path : List Coord)
    (hall : ∀ d : Dir, inBounds (mazeWidth maze) (mazeHeight maze)
      (x + (dirDelta d).1) (y + (dirDelta d).2) = false) :
    ∀ (dirs : List Dir) (queue : List SearchNode) (visited : List Coord),
      bfsPush maze (mazeWidth maze) (mazeHeight maze) x y path dirs queue visited
        = .ok (queue, visited) := by
  intro dirs
  induction dirs with
  | nil => intro queue visited; rfl
  | cons d rest ih =>
    intro queue visited
    rw [show bfsPush maze (mazeWidth maze) (mazeHeight maze) x y path
        (d :: rest) queue visited = bfsPush maze (mazeWidth maze) (mazeHeight maze) x y
          path rest queue visited from by
      simp only [bfsPush, hall d, Bool.false_eq_true, if_false]]
    exact ih queue visited

theorem bfsPush_oobCrash (maze : Maze) (x y : Int) (path : List Coord)
    (hnone : cellAt maze x y = none) :
    ∀ (dirs : List Dir) (queue : List SearchNode) (visited : List Coord),
      (∃ d ∈ dirs, inBounds (mazeWidth maze) (mazeHeight maze)
        (x + (dirDelta d).1) (y + (dirDelta d).2) = true) →
      bfsPush maze (mazeWidth maze) (mazeHeight maze) x y path dirs queue visited
        = .typeError := by
  intro dirs
  induction dirs with
  | nil => intro queue visited h; rcases h with ⟨d, hd, _⟩; cases hd
  | cons d rest ih =>
    intro queue visited h
    by_cases hb : inBounds (mazeWidth maze) (mazeHeight maze)
        (x + (dirDelta d).1) (y + (dirDelta d).2)
    · simp only [bfsPush, hb, if_true, hnone]
    · rcases h with ⟨d2, hd2, hbd2⟩
      rcases List.mem_cons.mp hd2 with rfl | hd2
      · exact absurd hbd2 (by simp [hb])
      · rw [show bfsPush maze (mazeWidth maze) (mazeHeight maze) x y path
            (d :: rest) queue visited = bfsPush maze (mazeWidth maze) (mazeHeight maze)
              x y path rest queue visited from by
          simp only [bfsPush, hb, Bool.false_eq_true, if_false]]
        exact ih queue visited ⟨d2, hd2, hbd2⟩

theorem astarPush_oobIsolated (maze : Maze) (x y : Int) (closed path : List Coord)
    (hall : ∀ d : Dir, inBounds (mazeWidth maze) (mazeHeight maze)
      (x + (dirDelta d).1) (y + (dirDelta d).2) = false) :
    ∀ (dirs : List Dir) (open_ : List SearchNode) (g : List (Coord × WithTop Nat)),
      astarPush maze (mazeWidth maze) (mazeHeight maze) x y closed path dirs open_ g
        = .ok (open_, g) := by
  intro dirs
  induction dirs with
  | nil => intro open_ g; rfl
  | cons d rest ih =>
    intro open_ g
    rw [show astarPush maze (mazeWidth maze) (mazeHeight maze) x y closed path
        (d :: rest) open_ g = astarPush maze (mazeWidth maze) (mazeHeight maze) x y
          closed path rest open_ g from by
      simp only [astarPush, hall d, Bool.false_eq_true, if_false]]
    exact ih open_ g

theorem astarPush_oobCrash (maze : Maze) (x y : Int) (closed path : List Coord)
    (hnone : cellAt maze x y = none) :
    ∀ (dirs : List Dir) (open_ : List SearchNode) (g : List (Coord × WithTop Nat)),
      (∃ d ∈ dirs, inBounds (mazeWidth maze) (mazeHeight maze)
        (x + (dirDelta d).1) (y + (dirDelta d).2) = true) →
      astarPush maze (mazeWidth maze) (mazeHeight maze) x y closed path dirs open_ g
        = .typeError := by
  intro dirs
  induction dirs with
  | nil => intro open_ g h; rcases h with ⟨d, hd, _⟩; cases hd
  | cons d rest ih =>
    intro open_ g h
    by_cases hb : inBounds (mazeWidth maze) (mazeHeight maze)
        (x + (dirDelta d).1) (y + (dirDelta d).2)
    · simp only [astarPush, hb, if_true, hnone]
    · rcases h with ⟨d2, hd2, hbd2⟩
      rcases List.mem_cons.mp hd2 with rfl | hd2
      · exact absurd hbd2 (by simp [hb])
      · rw [show astarPush maze (mazeWidth maze) (mazeHeight maze) x y closed path
            (d :: rest) open_ g = astarPush maze (mazeWidth maze) (mazeHeight maze) x y
              closed path rest open_ g from by
          simp only [astarPush, hb, Bool.false_eq_true, if_false]]
        exact ih open_ g ⟨d2, hd2, hbd2⟩

/-- A path-mode search from an out-of-grid start whose four neighbours are
also out of bounds drains its frontier and returns `[]`. -/
theorem dfs_oobIsolated (maze : Maze) (sx sy ex ey : Int)
    (hall : ∀ d : Dir, inBounds (mazeWidth maze) (mazeHeight maze)
      (sx + (dirDelta d).1) (sy + (dirDelta d).2) = false) :
    dfs sx sy ex ey maze = .ok [] := by
  have hf : dfsFuel maze = (4 * (mazeWidth maze * mazeHeight maze + 1) + 6) + 1 + 1 := rfl
  rw [dfs, hf]
  by_cases hg : sx = ex ∧ sy = ey
  · simp only [dfsLoop, List.contains_nil, Bool.false_eq_true, if_false]
    rw [if_pos hg]
    rfl
  · simp only [dfsLoop, List.contains_nil, Bool.false_eq_true, if_false]
    rw [if_neg hg, dfsPush_oobIsolated maze sx sy _ _ hall]
    rfl

theorem bfs_oobIsolated (maze : Maze) (sx sy ex ey : Int)
    (hall : ∀ d : Dir, inBounds (mazeWidth maze) (mazeHeight maze)
      (sx + (dirDelta d).1) (sy + (dirDelta d).2) = false) :
    bfs sx sy ex ey maze = .ok [] := by
  have hf : bfsFuel maze = (mazeWidth maze * mazeHeight maze + 6) + 1 + 1 := rfl
  rw [bfs, hf]
  by_cases hg : sx = ex ∧ sy = ey
  · simp only [bfsLoop]
    rw [if_pos hg]
    rfl
  · simp only [bfsLoop]
    rw [if_neg hg, bfsPush_oobIsolated maze sx sy _ hall]
    rfl

theorem astar_oobIsolated (maze : Maze) (sx sy ex ey : Int)
    (hall : ∀ d : Dir, inBounds (mazeWidth maze) (mazeHeight maze)
      (sx + (dirDelta d).1) (sy + (dirDelta d).2) = false) :
    astar sx sy ex ey maze = .ok [] := by
  have hf : astarFuel maze = (5 * (mazeWidth maze * mazeHeight maze + 1) + 6) + 1 + 1 := rfl
  rw [astar, hf]
  by_cases hg : sx = ex ∧ sy = ey
  · simp only [astarLoop, sortBy, insertBy]
    rw [if_pos hg]
    rfl
  · simp only [astarLoop, sortBy, insertBy]
    rw [if_neg hg, astarPush_oobIsolated maze sx sy _ _ hall]
    rfl

/-- A path-mode search from an out-of-grid start that is orthogonally
adjacent to an in-grid cell throws a TypeError on its first expansion (the
wall accessor dereferences `undefined`), unless the start already equals the
goal. -/
theorem dfs_oobCrash (maze : Maze) (sx sy ex ey : Int)
    (hnone : cellAt maze sx sy = none)
    (hnb : ∃ d : Dir, inBounds (mazeWidth maze) (mazeHeight maze)
      (sx + (dirDelta d).1) (sy + (dirDelta d).2) = true)
    (hg : ¬(sx = ex ∧ sy = ey)) :
    dfs sx sy ex ey maze = .typeError := by
  have hf : dfsFuel maze = (4 * (mazeWidth maze * mazeHeight maze + 1) + 7) + 1 := rfl
  rw [dfs, hf]
  simp only [dfsLoop, List.contains_nil, Bool.false_eq_true, if_false]
  rw [if_neg hg]
  rcases hnb with ⟨d, hd⟩
  rw [dfsPush_oobCrash maze sx sy _ _ hnone _ _ ⟨d, by cases d <;> simp, hd⟩]

theorem bfs_oobCrash (maze : Maze) (sx sy ex ey : Int)
    (hnone : cellAt maze sx sy = none)
    (hnb : ∃ d : Dir, inBounds (mazeWidth maze) (mazeHeight maze)
      (sx + (dirDelta d).1) (sy + (dirDelta d).2) = true)
    (hg : ¬(sx = ex ∧ sy = ey)) :
    bfs sx sy ex ey maze = .typeError := by
  have hf : bfsFuel maze = (mazeWidth maze * mazeHeight maze + 7) + 1 := rfl
  rw [bfs, hf]
  simp only [bfsLoop]
  rw [if_neg hg]
  rcases hnb with ⟨d, hd⟩
  rw [bfsPush_oobCrash maze sx sy _ hnone _ _ _ ⟨d, by cases d <;> simp [dirList], hd⟩]

theorem astar_oobCrash (maze : Maze) (sx sy ex ey : Int)
    (hnone : cellAt maze sx sy = none)
    (hnb : ∃ d : Dir, inBounds (mazeWidth maze) (mazeHeight maze)
      (sx + (dirDelta d).1) (sy + (dirDelta d).2) = true)
    (hg : ¬(sx = ex ∧ sy = ey)) :
    astar sx sy ex ey maze = .typeError := by
  have hf : astarFuel maze = (5 * (mazeWidth maze * mazeHeight maze + 1) + 7) + 1 := rfl
  rw [astar, hf]
  simp only [astarLoop, sortBy, insertBy]
  rw [if_neg hg]
  rcases hnb with ⟨d, hd⟩
  rw [astarPush_oobCrash maze sx sy _ _ hnone _ _ _ ⟨d, by cases d <;> simp [dirList], hd⟩]

/-- The last coordinate of a nonempty path is among its entries. -/
theorem lastC_mem {s : Coord} {p : List Coord} (h : p ≠ []) : lastC s p ∈ p := by
  cases p with
  | nil => exact absurd rfl h
  | cons a as =>
    rw [lastC, List.getLastD_cons]
    exact List.getLastD_mem_cons _ _

/-- A valid path to an out-of-bounds goal must be empty (so its start is the
goal), since every chain coordinate is in bounds. -/
theorem validPath_oob_goal {maze : Maze} {s t : Coord} {p : List Coord}
    (hv : ValidPath maze s t p)
    (ht : inBounds (mazeWidth maze) (mazeHeight maze) t.1 t.2 = false) :
    p = [] := by
  by_contra hne
  have hmem : lastC s p ∈ p := lastC_mem hne
  have := chainOk_targets hv.1 _ hmem
  rw [hv.2] at this
  rw [this] at ht
  cases ht

theorem mazeHeight_pos_of_inBounds {maze : Maze} {x y : Int}
    (h : inBounds (mazeWidth maze) (mazeHeight maze) x y = true) :
    maze.length ≠ 0 := by
  simp only [inBounds, Bool.and_eq_true, decide_eq_true_eq] at h
  intro hz
  have : mazeHeight maze = 0 := hz
  rw [this] at h
  omega

/-! ## Claim theorems (first batch) -/

/-- C5: for every grid and every in-bounds start and goal, the sequence
returned by a path-mode strategy is either empty or a wall-respecting chain
of unit steps from the start whose coordinates are all inside the grid and
whose final coordinate is the goal. -/
theorem C5_path_mode_valid_chain (maze : Maze) (sx sy ex ey : Int)
    (hs : inBounds (mazeWidth maze) (mazeHeight maze) sx sy = true)
    (hgoal : inBounds (mazeWidth maze) (mazeHeight maze) ex ey = true)
    (method : SearchMethod)
    (hm : method = .DFS ∨ method = .BFS ∨ method = .ASTAR)
    (l : List Coord) (h : findPath sx sy ex ey method maze = .ok l) :
    l = [] ∨ (ValidPath maze (sx, sy) (ex, ey) l ∧
      ∀ c ∈ l, inBounds (mazeWidth maze) (mazeHeight maze) c.1 c.2 = true) := by
  have hz := mazeHeight_pos_of_inBounds hs
  rcases hm with rfl | rfl | rfl
  · simp only [findPath, hz, if_false] at h
    rcases dfs_ok_facts maze sx sy ex ey l h with h2 | ⟨h2, _⟩
    · exact Or.inl h2
    · exact Or.inr ⟨h2, chainOk_targets h2.1⟩
  · simp only [findPath, hz, if_false] at h
    rcases bfs_ok_facts maze sx sy ex ey l h with h2 | ⟨h2, _⟩
    · exact Or.inl h2
    · exact Or.inr ⟨h2, chainOk_targets h2.1⟩
  · simp only [findPath, hz, if_false] at h
    rcases astar_ok_facts maze sx sy ex ey l h with h2 | ⟨h2, _⟩
    · exact Or.inl h2
    · exact Or.inr ⟨h2, chainOk_targets h2.1⟩

/-- Witness for C5 on a concrete 2×1 open grid. -/
theorem C5_witness :
    ([((1 : Int), (0 : Int))] : List Coord) = [] ∨
      (ValidPath [[⟨false, false, false, false⟩, ⟨false, false, false, false⟩]]
        (0, 0) (1, 0) [((1 : Int), (0 : Int))] ∧
      ∀ c ∈ ([((1 : Int), (0 : Int))] : List Coord),
        inBounds (mazeWidth [[⟨false, false, false, false⟩, ⟨false, false, false, false⟩]])
          (mazeHeight [[⟨false, false, false, false⟩, ⟨false, false, false, false⟩]])
          c.1 c.2 = true) :=
  C5_path_mode_valid_chain
    [[⟨false, false, false, false⟩, ⟨false, false, false, false⟩]] 0 0 1 0
    (by decide) (by decide) .DFS (Or.inl rfl) [((1 : Int), (0 : Int))] (by decide)

/-- C10: for every grid and every in-bounds start and goal, the sequence
returned by a path-mode strategy contains no coordinate twice. -/
theorem C10_path_mode_nodup (maze : Maze) (sx sy ex ey : Int)
    (hs : inBounds (mazeWidth maze) (mazeHeight maze) sx sy = true)
    (hgoal : inBounds (mazeWidth maze) (mazeHeight maze) ex ey = true)
    (method : SearchMethod)
    (hm : method = .DFS ∨ method = .BFS ∨ method = .ASTAR)
    (l : List Coord) (h : findPath sx sy ex ey method maze = .ok l) :
    l.Nodup := by
  have hz := mazeHeight_pos_of_inBounds hs
  rcases hm with rfl | rfl | rfl
  · simp only [findPath, hz, if_false] at h
    rcases dfs_ok_facts maze sx sy ex ey l h with rfl | ⟨_, h2⟩
    · exact List.nodup_nil
    · exact (List.nodup_cons.mp h2).2
  · simp only [findPath, hz, if_false] at h
    rcases bfs_ok_facts maze sx sy ex ey l h with rfl | ⟨_, h2⟩
    · exact List.nodup_nil
    · exact (List.nodup_cons.mp h2).2
  · simp only [findPath, hz, if_false] at h
    rcases astar_ok_facts maze sx sy ex ey l h with rfl | ⟨_, h2⟩
    · exact List.nodup_nil
    · exact (List.nodup_cons.mp h2).2

/-- Witness for C10 on a concrete 3×1 open grid. -/
theorem C10_witness :
    ([((1 : Int), (0 : Int)), ((2 : Int), (0 : Int))] : List Coord).Nodup :=
  C10_path_mode_nodup
    [[⟨false, false, false, false⟩, ⟨false, false, false, false⟩,
      ⟨false, false, false, false⟩]] 0 0 2 0
    (by decide) (by decide) .BFS (Or.inr (Or.inl rfl))
    [((1 : Int), (0 : Int)), ((2 : Int), (0 : Int))] (by decide)

/-- C8: for every grid and every strategy, when the start equals the goal the
dispatcher returns the empty sequence (zero moves needed). -/
theorem C8_start_eq_goal (maze : Maze) (sx sy : Int) (method : SearchMethod) :
    findPath sx sy sx sy method maze = .ok [] := by
  by_cases hz : maze.length = 0
  · simp [findPath, hz]
  · cases method with
    | DFS =>
      simp only [findPath, hz, if_false]
      exact dfs_start_eq_goal maze sx sy
    | BFS =>
      simp only [findPath, hz, if_false]
      exact bfs_start_eq_goal maze sx sy
    | ASTAR =>
      simp only [findPath, hz, if_false]
      exact astar_start_eq_goal maze sx sy
    | DFS_EXPLORE =>
      simp only [findPath, hz, if_false]
      exact dfsExplore_start_eq_goal maze sx sy
    | BFS_EXPLORE =>
      simp only [findPath, hz, if_false]
      exact bfsExplore_start_eq_goal maze sx sy
    | ASTAR_EXPLORE =>
      simp only [findPath, hz, if_false]
      rw [astarExplore_start_eq_goal maze sx sy]

/-- C9: for every start, goal and strategy, an empty grid (zero rows, or a
zero-length first row) makes the dispatcher return the empty sequence with
no error. -/
theorem C9_empty_grid (maze : Maze) (sx sy ex ey : Int) (method : SearchMethod)
    (h : mazeHeight maze = 0 ∨ mazeWidth maze = 0) :
    findPath sx sy ex ey method maze = .ok [] := by
  by_cases hz : maze.length = 0
  · simp [findPath, hz]
  · have hW : mazeWidth maze = 0 := by
      rcases h with h | h
      · exact absurd h hz
      · exact h
    cases method with
    | DFS =>
      simp only [findPath, hz, if_false]
      exact dfs_zeroW maze hW sx sy ex ey
    | BFS =>
      simp only [findPath, hz, if_false]
      exact bfs_zeroW maze hW sx sy ex ey
    | ASTAR =>
      simp only [findPath, hz, if_false]
      exact astar_zeroW maze hW sx sy ex ey
    | DFS_EXPLORE =>
      simp only [findPath, hz, if_false]
      exact dfsExplore_zeroW maze hW sx sy ex ey
    | BFS_EXPLORE =>
      simp only [findPath, hz, if_false]
      exact bfsExplore_zeroW maze hW sx sy ex ey
    | ASTAR_EXPLORE =>
      simp only [findPath, hz, if_false]
      rw [astarExplore_zeroW maze hW sx sy ex ey]

/-- Witness for C9 on the concrete zero-width grid `[[]]`. -/
theorem C9_witness :
    findPath 3 7 2 5 .ASTAR ([[]] : Maze) = .ok [] :=
  C9_empty_grid [[]] 3 7 2 5 .ASTAR (Or.inr rfl)

/-- C6 counterexample: on the rectangular 1×1 grid with the single open cell,
a start just outside the grid but adjacent to it makes `findPath` throw a
TypeError (the wall accessor dereferences `undefined`), instead of returning
the empty sequence with no error as the claim states. -/
theorem C6_counterexample :
    findPath (-1) 0 0 0 .DFS [[⟨false, false, false, false⟩]] = .typeError ∧
    ∀ l : List Coord,
      findPath (-1) 0 0 0 .DFS [[⟨false, false, false, false⟩]] ≠ .ok l := by
  constructor
  · decide
  · intro l h
    rw [show findPath (-1) 0 0 0 .DFS [[⟨false, false, false, false⟩]] = .typeError
      from by decide] at h
    cases h

/-- C6 amended: on a rectangular grid, a path-mode search with an
out-of-bounds start or goal returns the empty sequence with no error in
exactly these cases: the start is in bounds and the goal is not; the start is
out of bounds and none of its four neighbours is in bounds; or the start is
out of bounds and equals the goal.  But when the start is out of bounds,
differs from the goal, and has an in-bounds neighbour, the call throws a
TypeError. -/
theorem C6_amended_oob (maze : Maze) (hr : Rect maze) (sx sy ex ey : Int)
    (method : SearchMethod)
    (hm : method = .DFS ∨ method = .BFS ∨ method = .ASTAR) :
    (inBounds (mazeWidth maze) (mazeHeight maze) sx sy = true →
      inBounds (mazeWidth maze) (mazeHeight maze) ex ey = false →
      findPath sx sy ex ey method maze = .ok []) ∧
    (inBounds (mazeWidth maze) (mazeHeight maze) sx sy = false →
      (∀ d : Dir, inBounds (mazeWidth maze) (mazeHeight maze)
        (sx + (dirDelta d).1) (sy + (dirDelta d).2) = false) →
      findPath sx sy ex ey method maze = .ok []) ∧
    (inBounds (mazeWidth maze) (mazeHeight maze) sx sy = false →
      sx = ex → sy = ey → findPath sx sy ex ey method maze = .ok []) ∧
    (inBounds (mazeWidth maze) (mazeHeight maze) sx sy = false →
      (∃ d : Dir, inBounds (mazeWidth maze) (mazeHeight maze)
        (sx + (dirDelta d).1) (sy + (dirDelta d).2) = true) →
      ¬(sx = ex ∧ sy = ey) →
      findPath sx sy ex ey method maze = .typeError) := by
  refine ⟨?_, ?_, ?_, ?_⟩
  · intro hs hgoal
    have hz := mazeHeight_pos_of_inBounds hs
    have hresults : ∀ l, (l = [] ∨ (ValidPath maze (sx, sy) (ex, ey) l ∧
        ((sx, sy) :: l).Nodup)) → l = [] := by
      intro l hl
      rcases hl with rfl | ⟨hv, _⟩
      · rfl
      · exact validPath_oob_goal hv hgoal
    rcases hm with rfl | rfl | rfl
    · simp only [findPath, hz, if_false]
      obtain ⟨l, hok, hfacts⟩ := dfs_results maze (sx, sy) ex ey hr hs
      rw [hok, hresults l hfacts]
    · simp only [findPath, hz, if_false]
      obtain ⟨l, hok, hfacts⟩ := bfs_results maze (sx, sy) ex ey hr hs
      rw [hok, hresults l hfacts]
    · simp only [findPath, hz, if_false]
      obtain ⟨l, hok, hfacts⟩ := astar_results maze (sx, sy) ex ey hr hs
      rw [hok, hresults l hfacts]
  · intro _ hall
    by_cases hz : maze.length = 0
    · simp [findPath, hz]
    · rcases hm with rfl | rfl | rfl
      · simp only [findPath, hz, if_false]
        exact dfs_oobIsolated maze sx sy ex ey hall
      · simp only [findPath, hz, if_false]
        exact bfs_oobIsolated maze sx sy ex ey hall
      · simp only [findPath, hz, if_false]
        exact astar_oobIsolated maze sx sy ex ey hall
  · intro _ hx hy
    subst hx
    subst hy
    rcases hm with rfl | rfl | rfl <;> exact C8_start_eq_goal maze sx sy _
  · intro hs hnb hg
    have hz : maze.length ≠ 0 := by
      rcases hnb with ⟨d, hd⟩
      exact mazeHeight_pos_of_inBounds hd
    have hnone : cellAt maze sx sy = none := cellAt_none_of_not_inBounds hr (by
      simpa using hs)
    rcases hm with rfl | rfl | rfl
    · simp only [findPath, hz, if_false]
      exact dfs_oobCrash maze sx sy ex ey hnone hnb hg
    · simp only [findPath, hz, if_false]
      exact bfs_oobCrash maze sx sy ex ey hnone hnb hg
    · simp only [findPath, hz, if_false]
      exact astar_oobCrash maze sx sy ex ey hnone hnb hg

/-- Witness for the amended C6, on the concrete 1×1 open grid. -/
theorem C6_amended_witness :
    (inBounds (mazeWidth [[⟨false, false, false, false⟩]])
        (mazeHeight [[⟨false, false, false, false⟩]]) 0 0 = true →
      inBounds (mazeWidth [[⟨false, false, false, false⟩]])
        (mazeHeight [[⟨false, false, false, false⟩]]) 5 5 = false →
      findPath 0 0 5 5 .BFS [[⟨false, false, false, false⟩]] = .ok []) ∧
    (inBounds (mazeWidth [[⟨false, false, false, false⟩]])
        (mazeHeight [[⟨false, false, false, false⟩]]) 0 0 = false →
      (∀ d : Dir, inBounds (mazeWidth [[⟨false, false, false, false⟩]])
        (mazeHeight [[⟨false, false, false, false⟩]])
        (0 + (dirDelta d).1) (0 + (dirDelta d).2) = false) →
      findPath 0 0 5 5 .BFS [[⟨false, false, false, false⟩]] = .ok []) ∧
    (inBounds (mazeWidth [[⟨false, false, false, false⟩]])
        (mazeHeight [[⟨false, false, false, false⟩]]) 0 0 = false →
      (0 : Int) = 5 → (0 : Int) = 5 →
      findPath 0 0 5 5 .BFS [[⟨false, false, false, false⟩]] = .ok []) ∧
    (inBounds (mazeWidth [[⟨false, false, false, false⟩]])
        (mazeHeight [[⟨false, false, false, false⟩]]) 0 0 = false →
      (∃ d : Dir, inBounds (mazeWidth [[⟨false, false, false, false⟩]])
        (mazeHeight [[⟨false, false, false, false⟩]])
        (0 + (dirDelta d).1) (0 + (dirDelta d).2) = true) →
      ¬((0 : Int) = 5 ∧ (0 : Int) = 5) →
      findPath 0 0 5 5 .BFS [[⟨false, false, false, false⟩]] = .typeError) :=
  C6_amended_oob [[⟨false, false, false, false⟩]]
    (by
      intro row hrow
      rcases List.mem_singleton.mp hrow with rfl
      rfl)
    0 0 5 5 .BFS (Or.inr (Or.inl rfl))

/-! ## DFS exploration: expansion step and loop invariant -/

/-- Everything `dfsExpPush` can do: push the fresh legal neighbours (reverse
order) and leave every legal neighbour either visited or on the new stack;
or throw on an out-of-grid wall read. -/
theorem dfsExpPush_spec (maze : Maze) (x y : Int) (visited : List Coord) :
    ∀ (dirs : List Dir) (stack : List Coord),
      (∃ news stack', dfsExpPush maze (mazeWidth maze) (mazeHeight maze) x y visited
          dirs stack = .ok stack' ∧ stack' = news ++ stack ∧
          news.length ≤ dirs.length ∧
          (∀ c ∈ news, stepOk maze (x, y) c = true ∧ c ∉ visited) ∧
          (∀ d ∈ dirs,
            inBounds (mazeWidth maze) (mazeHeight maze)
              (moveTo (x, y) d).1 (moveTo (x, y) d).2 = true →
            ∀ cell, cellAt maze x y = some cell → dirWall d cell = false →
              moveTo (x, y) d ∈ visited ∨ moveTo (x, y) d ∈ stack'))
      ∨ (dfsExpPush maze (mazeWidth maze) (mazeHeight maze) x y visited dirs stack
          = .typeError ∧ cellAt maze x y = none) := by
  intro dirs
  induction dirs with
  | nil =>
    intro stack
    left
    exact ⟨[], stack, rfl, rfl, by simp, by simp, by simp⟩
  | cons d rest ih =>
    intro stack
    by_cases hb : inBounds (mazeWidth maze) (mazeHeight maze)
        (x + (dirDelta d).1) (y + (dirDelta d).2)
    · cases hc : cellAt maze x y with
      | none =>
        right
        constructor
        · simp only [dfsExpPush, hb, if_true, hc]
        · rfl
      | some cell =>
        by_cases hw : dirWall d cell
        · have heq : dfsExpPush maze (mazeWidth maze) (mazeHeight maze) x y visited
              (d :: rest) stack =
              dfsExpPush maze (mazeWidth maze) (mazeHeight maze) x y visited rest stack := by
            simp only [dfsExpPush, hb, if_true, hc, hw]
          rw [heq]
          rcases ih stack with ⟨news, stack', h1, h2, h3, h4, h6⟩ | h
          · left
            refine ⟨news, stack', h1, h2, le_trans h3 (by simp), h4, ?_⟩
            intro d2 hd2 hb2 cell2 hc2 hw2
            rcases List.mem_cons.mp hd2 with rfl | hd2
            · injection hc2 with hc2
              subst hc2
              rw [hw] at hw2
              cases hw2
            · exact h6 d2 hd2 hb2 cell2 (hc.trans hc2) hw2
          · exact absurd h.2 (by simp [hc])
        · by_cases hv : visited.contains (x + (dirDelta d).1, y + (dirDelta d).2)
          · have heq : dfsExpPush maze (mazeWidth maze) (mazeHeight maze) x y visited
                (d :: rest) stack =
                dfsExpPush maze (mazeWidth maze) (mazeHeight maze) x y visited rest stack := by
              simp only [dfsExpPush, hb, if_true, hc, hw, Bool.false_eq_true, if_false, hv]
            rw [heq]
            rcases ih stack with ⟨news, stack', h1, h2, h3, h4, h6⟩ | h
            · left
              refine ⟨news, stack', h1, h2, le_trans h3 (by simp), h4, ?_⟩
              intro d2 hd2 hb2 cell2 hc2 hw2
              rcases List.mem_cons.mp hd2 with rfl | hd2
              · exact Or.inl (contains_iff_mem.mp hv)
              · exact h6 d2 hd2 hb2 cell2 (hc.trans hc2) hw2
            · exact absurd h.2 (by simp [hc])
          · have heq : dfsExpPush maze (mazeWidth maze) (mazeHeight maze) x y visited
                (d :: rest) stack =
                dfsExpPush maze (mazeWidth maze) (mazeHeight maze) x y visited rest
                  ((x + (dirDelta d).1, y + (dirDelta d).2) :: stack) := by
              simp only [dfsExpPush, hb, if_true, hc, hw, Bool.false_eq_true, if_false, hv]
            rw [heq]
            rcases ih ((x + (dirDelta d).1, y + (dirDelta d).2) :: stack) with
              ⟨news, stack', h1, h2, h3, h4, h6⟩ | h
            · left
              refine ⟨news ++ [(x + (dirDelta d).1, y + (dirDelta d).2)], stack', h1, ?_,
                  ?_, ?_, ?_⟩
              · rw [h2]; simp
              · simp only [List.length_append, List.length_cons, List.length_nil]
                omega
              · intro c hcm
                rcases List.mem_append.mp hcm with hcm | hcm
                · exact h4 c hcm
                · rcases List.mem_singleton.mp hcm with rfl
                  exact ⟨stepOk_iff.mpr ⟨d, rfl, hb, cell, hc, by simpa using hw⟩,
                    fun hm => hv (contains_iff_mem.mpr hm)⟩
              · intro d2 hd2 hb2 cell2 hc2 hw2
                rcases List.mem_cons.mp hd2 with rfl | hd2
                · right
                  rw [h2]
                  exact List.mem_append_right _ (List.mem_cons_self _ _)
                · rcases h6 d2 hd2 hb2 cell2 (hc.trans hc2) hw2 with hm | hm
                  · exact Or.inl hm
                  · exact Or.inr hm
            · exact absurd h.2 (by simp [hc])
    · have heq : dfsExpPush maze (mazeWidth maze) (mazeHeight maze) x y visited
          (d :: rest) stack =
          dfsExpPush maze (mazeWidth maze) (mazeHeight maze) x y visited rest stack := by
        simp only [dfsExpPush, hb, Bool.false_eq_true, if_false]
      rw [heq]
      rcases ih stack with ⟨news, stack', h1, h2, h3, h4, h6⟩ | h
      · left
        refine ⟨news, stack', h1, h2, le_trans h3 (by simp), h4, ?_⟩
        intro d2 hd2 hb2 cell2 hc2 hw2
        rcases List.mem_cons.mp hd2 with rfl | hd2
        · exact absurd hb2 (by simpa using hb)
        · exact h6 d2 hd2 hb2 cell2 hc2 hw2
      · exact Or.inr h

/-- The `dfsExplore` loop invariant. -/
def DfsExpInv (maze : Maze) (s : Coord) (stack visited explored : List Coord) : Prop :=
  visited.Nodup ∧
  visited = explored.reverse ∧
  (∀ c ∈ visited, c = s ∨ inBounds (mazeWidth maze) (mazeHeight maze) c.1 c.2 = true) ∧
  (∀ c ∈ stack, c = s ∨ inBounds (mazeWidth maze) (mazeHeight maze) c.1 c.2 = true) ∧
  (explored = [] ∨ explored.head? = some s) ∧
  (∀ c ∈ stack, Reachable maze s c) ∧
  (∀ c ∈ visited, Reachable maze s c) ∧
  (∀ c ∈ visited, ∀ c2, stepOk maze c c2 = true → c2 ∈ visited ∨ c2 ∈ stack) ∧
  (s ∈ visited ∨ (visited = [] ∧ explored = [] ∧ stack = [s]))

/-- Dropping a stale (already visited) stack entry preserves the
`dfsExplore` invariant. -/
theorem DfsExpInv.skip_dfsExp {maze : Maze} {s c : Coord} {rest visited explored : List Coord}
    (hinv : DfsExpInv maze s (c :: rest) visited explored) (hv : c ∈ visited) :
    DfsExpInv maze s rest visited explored := by
  obtain ⟨hnd, hve, hvb, hsb, hhead, hsreach, hvreach, hclosure, hstart⟩ := hinv
  refine ⟨hnd, hve, hvb, fun a ha => hsb a (List.mem_cons_of_mem _ ha), hhead,
    fun a ha => hsreach a (List.mem_cons_of_mem _ ha), hvreach, ?_, ?_⟩
  · intro a ha c2 hs2
    rcases hclosure a ha c2 hs2 with h2 | h2
    · exact Or.inl h2
    · rcases List.mem_cons.mp h2 with rfl | h2
      · exact Or.inl hv
      · exact Or.inr h2
  · rcases hstart with h2 | ⟨he1, _, _⟩
    · exact Or.inl h2
    · rw [he1] at hv
      cases hv

/-- Expanding a fresh stack entry preserves the `dfsExplore` invariant. -/
theorem DfsExpInv.step_dfsExp {maze : Maze} {s c : Coord}
    {rest visited explored news stack' : List Coord}
    (hinv : DfsExpInv maze s (c :: rest) visited explored)
    (hfresh : c ∉ visited)
    (hpe : stack' = news ++ rest)
    (hnews : ∀ a ∈ news, stepOk maze (c.1, c.2) a = true ∧ a ∉ c :: visited)
    (hcl : ∀ d ∈ [Dir.left, Dir.down, Dir.right, Dir.up],
      inBounds (mazeWidth maze) (mazeHeight maze)
        (moveTo (c.1, c.2) d).1 (moveTo (c.1, c.2) d).2 = true →
      ∀ cell, cellAt maze c.1 c.2 = some cell → dirWall d cell = false →
        moveTo (c.1, c.2) d ∈ c :: visited ∨ moveTo (c.1, c.2) d ∈ stack') :
    DfsExpInv maze s stack' (c :: visited) (explored ++ [c]) := by
  obtain ⟨hnd, hve, hvb, hsb, hhead, hsreach, hvreach, hclosure, hstart⟩ := hinv
  have hcreach : Reachable maze s c := hsreach c (List.mem_cons_self _ _)
  have hhead2 : explored ++ [c] = [] ∨ (explored ++ [c]).head? = some s := by
    rcases hhead with rfl | hh
    · right
      rcases hstart with hsv | ⟨_, _, he3⟩
      · rw [hve] at hsv
        simp at hsv
      · have hcs : c = s := List.mem_singleton.mp (he3 ▸ List.mem_cons_self c rest)
        rw [hcs]
        rfl
    · right
      cases explored with
      | nil => cases hh
      | cons a tl => simpa using hh
  have hstart2 : s ∈ c :: visited ∨
      (c :: visited = [] ∧ explored ++ [c] = [] ∧ stack' = [s]) := by
    rcases hstart with hsv | ⟨he1, he2, he3⟩
    · exact Or.inl (List.mem_cons_of_mem _ hsv)
    · have hcs : c = s := List.mem_singleton.mp (he3 ▸ List.mem_cons_self c rest)
      rw [hcs]
      exact Or.inl (List.mem_cons_self _ _)
  refine ⟨List.nodup_cons.mpr ⟨hfresh, hnd⟩, by rw [hve]; simp, ?_, ?_,
    hhead2, ?_, ?_, ?_, hstart2⟩
  · intro a ha
    rcases List.mem_cons.mp ha with rfl | ha
    · exact hsb a (List.mem_cons_self _ _)
    · exact hvb a ha
  · intro a ha
    rw [hpe] at ha
    rcases List.mem_append.mp ha with ha | ha
    · exact Or.inr (stepOk_inBounds (hnews a ha).1)
    · exact hsb a (List.mem_cons_of_mem _ ha)
  · intro a ha
    rw [hpe] at ha
    rcases List.mem_append.mp ha with ha | ha
    · exact hcreach.step_one (hnews a ha).1
    · exact hsreach a (List.mem_cons_of_mem _ ha)
  · intro a ha
    rcases List.mem_cons.mp ha with rfl | ha
    · exact hcreach
    · exact hvreach a ha
  · intro a ha c2 hs2
    rcases List.mem_cons.mp ha with rfl | ha
    · rcases stepOk_iff.mp hs2 with ⟨d, rfl, hb2, cell, hc2, hw2⟩
      have hd4 : d ∈ [Dir.left, Dir.down, Dir.right, Dir.up] := by
        cases d <;> simp
      rcases hcl d hd4 hb2 cell hc2 hw2 with h2 | h2
      · exact Or.inl h2
      · exact Or.inr h2
    · rcases hclosure a ha c2 hs2 with h2 | h2
      · exact Or.inl (List.mem_cons_of_mem _ h2)
      · rcases List.mem_cons.mp h2 with rfl | h2
        · exact Or.inl (List.mem_cons_self _ _)
        · right
          rw [hpe]
          exact List.mem_append_right _ h2

/-- Exploration-order facts extracted from a final `explored` list: the
returned tail is duplicate-free, avoids the start, and consists of reachable
non-start coordinates. -/
theorem explored_tail_facts {maze : Maze} {s : Coord} {explored : List Coord}
    (hnd : explored.Nodup)
    (hhead : explored = [] ∨ explored.head? = some s)
    (hreach : ∀ c ∈ explored, Reachable maze s c) :
    explored.tail.Nodup ∧ s ∉ explored.tail ∧
    (∀ c ∈ explored.tail, Reachable maze s c ∧ c ≠ s) ∧
    (∀ c ∈ explored, c = s ∨ c ∈ explored.tail) := by
  rcases hhead with rfl | hhead
  · exact ⟨List.nodup_nil, by simp, by simp, by simp⟩
  · cases explored with
    | nil => cases hhead
    | cons a tl =>
      injection hhead with hhead
      subst hhead
      rw [List.nodup_cons] at hnd
      refine ⟨hnd.2, hnd.1, ?_, ?_⟩
      · intro c hc
        refine ⟨hreach c (List.mem_cons_of_mem _ hc), ?_⟩
        intro he
        subst he
        exact hnd.1 hc
      · intro c hc
        rcases List.mem_cons.mp hc with rfl | hc
        · exact Or.inl rfl
        · exact Or.inr hc

/-- Master facts about every `ok` result of the `dfsExplore` loop. -/
theorem dfsExploreLoop_facts (maze : Maze) (s : Coord) (ex ey : Int) :
    ∀ (fuel : Nat) (stack visited explored : List Coord),
      DfsExpInv maze s stack visited explored →
      ∀ l, dfsExploreLoop maze ex ey fuel stack visited explored = .ok l →
        l.Nodup ∧ s ∉ l ∧ (∀ c ∈ l, Reachable maze s c ∧ c ≠ s) ∧
        (Reachable maze s (ex, ey) ∨
          (∀ c, Reachable maze s c → c = s ∨ c ∈ l)) := by
  intro fuel
  induction fuel with
  | zero => intro stack visited explored _ l h; cases h
  | succ fuel ih =>
    intro stack visited explored hinv l h
    obtain ⟨hnd, hve, hvb, hsb, hhead, hsreach, hvreach, hclosure, hstart⟩ := hinv
    have hend : explored.Nodup := by
      rw [hve] at hnd
      exact List.nodup_reverse.mp hnd
    have hereach : ∀ c ∈ explored, Reachable maze s c := by
      intro c hc
      exact hvreach c (by rw [hve, List.mem_reverse]; exact hc)
    match stack with
    | [] =>
      simp only [dfsExploreLoop] at h
      injection h with h
      subst h
      obtain ⟨f1, f2, f3, _⟩ := explored_tail_facts hend hhead hereach
      refine ⟨f1, f2, f3, Or.inr ?_⟩
      -- the frontier is empty: the visited set is closed under steps and
      -- contains the start, hence contains every reachable coordinate
      have hsv : s ∈ visited := by
        rcases hstart with h | ⟨_, _, h⟩
        · exact h
        · cases h
      intro c hc
      have hcv : c ∈ visited := by
        refine Reachable.mem_closed (fun c => c ∈ visited) hsv ?_ hc
        intro a ha c2 hs2
        rcases hclosure a ha c2 hs2 with h | h
        · exact h
        · cases h
      rw [hve, List.mem_reverse] at hcv
      rcases (explored_tail_facts hend hhead hereach).2.2.2 c hcv with h | h
      · exact Or.inl h
      · exact Or.inr h
    | c :: rest =>
      by_cases hv : visited.contains c
      · simp only [dfsExploreLoop, hv, if_true] at h
        refine ih rest visited explored ⟨hnd, hve, hvb,
          fun a ha => hsb a (List.mem_cons_of_mem _ ha), hhead,
          fun a ha => hsreach a (List.mem_cons_of_mem _ ha), hvreach, ?_, ?_⟩ l h
        · intro a ha c2 hs2
          rcases hclosure a ha c2 hs2 with h2 | h2
          · exact Or.inl h2
          · rcases List.mem_cons.mp h2 with rfl | h2
            · exact Or.inl (contains_iff_mem.mp hv)
            · exact Or.inr h2
        · rcases hstart with h2 | ⟨he1, he2, he3⟩
          · exact Or.inl h2
          · rw [he1] at hv
            simp at hv
      · have hfresh : c ∉ visited := fun hm => hv (contains_iff_mem.mpr hm)
        have hcreach : Reachable maze s c := hsreach c (List.mem_cons_self _ _)
        have hnd2 : (explored ++ [c]).Nodup := by
          refine List.Nodup.append hend (List.nodup_singleton c) ?_
          intro a ha hb2
          rcases List.mem_singleton.mp hb2 with rfl
          exact hfresh (by rw [hve, List.mem_reverse]; exact ha)
        have hhead2 : explored ++ [c] = [] ∨ (explored ++ [c]).head? = some s := by
          rcases hhead with rfl | hh
          · right
            rcases hstart with hsv | ⟨_, _, he3⟩
            · rw [hve] at hsv
              simp at hsv
            · have : c = s := by
                have := List.mem_singleton.mp (he3 ▸ List.mem_cons_self c rest)
                exact this
              subst this
              rfl
          · right
            cases explored with
            | nil => cases hh
            | cons a tl => simpa using hh
        have hereach2 : ∀ a ∈ explored ++ [c], Reachable maze s a := by
          intro a ha
          rcases List.mem_append.mp ha with ha | ha
          · exact hereach a ha
          · rcases List.mem_singleton.mp ha with rfl
            exact hcreach
        by_cases hg : c.1 = ex ∧ c.2 = ey
        · simp only [dfsExploreLoop, hv, Bool.false_eq_true, if_false] at h
          rw [if_pos hg] at h
          injection h with h
          subst h
          obtain ⟨f1, f2, f3, _⟩ := explored_tail_facts hnd2 hhead2 hereach2
          refine ⟨f1, f2, f3, Or.inl ?_⟩
          have : c = (ex, ey) := Prod.ext hg.1 hg.2
          rw [← this]
          exact hcreach
        · simp only [dfsExploreLoop, hv, Bool.false_eq_true, if_false] at h
          rw [if_neg hg] at h
          rcases dfsExpPush_spec maze c.1 c.2 (c :: visited)
              [Dir.left, Dir.down, Dir.right, Dir.up] rest with
            ⟨news, stack', hp, hpe, hplen, hnews, hcl⟩ | ⟨hp, _⟩
          · rw [hp] at h
            refine ih stack' (c :: visited) (explored ++ [c]) ?_ l h
            have hstart2 : s ∈ c :: visited ∨
                (c :: visited = [] ∧ explored ++ [c] = [] ∧ stack' = [s]) := by
              rcases hstart with hsv | ⟨he1, he2, he3⟩
              · exact Or.inl (List.mem_cons_of_mem _ hsv)
              · have hcs : c = s := List.mem_singleton.mp (he3 ▸ List.mem_cons_self c rest)
                rw [hcs]
                exact Or.inl (List.mem_cons_self _ _)
            refine ⟨List.nodup_cons.mpr ⟨hfresh, hnd⟩, by rw [hve]; simp, ?_, ?_,
              hhead2, ?_, ?_, ?_, hstart2⟩
            · intro a ha
              rcases List.mem_cons.mp ha with rfl | ha
              · exact hsb a (List.mem_cons_self _ _)
              · exact hvb a ha
            · intro a ha
              rw [hpe] at ha
              rcases List.mem_append.mp ha with ha | ha
              · exact Or.inr (stepOk_inBounds (hnews a ha).1)
              · exact hsb a (List.mem_cons_of_mem _ ha)
            · intro a ha
              rw [hpe] at ha
              rcases List.mem_append.mp ha with ha | ha
              · exact hcreach.step_one (hnews a ha).1
              · exact hsreach a (List.mem_cons_of_mem _ ha)
            · intro a ha
              rcases List.mem_cons.mp ha with rfl | ha
              · exact hcreach
              · exact hvreach a ha
            · intro a ha c2 hs2
              rcases List.mem_cons.mp ha with rfl | ha
              · -- neighbours of the newly visited node
                rcases stepOk_iff.mp hs2 with ⟨d, rfl, hb2, cell, hc2, hw2⟩
                have hd4 : d ∈ [Dir.left, Dir.down, Dir.right, Dir.up] := by
                  cases d <;> simp
                rcases hcl d hd4 hb2 cell hc2 hw2 with h2 | h2
                · exact Or.inl h2
                · exact Or.inr h2
              · rcases hclosure a ha c2 hs2 with h2 | h2
                · exact Or.inl (List.mem_cons_of_mem _ h2)
                · rcases List.mem_cons.mp h2 with rfl | h2
                  · exact Or.inl (List.mem_cons_self _ _)
                  · right
                    rw [hpe]
                    exact List.mem_append_right _ h2
          · rw [hp] at h
            cases h

/-- With the supplied fuel the `dfsExplore` loop never exhausts. -/
theorem dfsExploreLoop_no_fuel (maze : Maze) (s : Coord) (ex ey : Int) :
    ∀ (fuel : Nat) (stack visited explored : List Coord),
      DfsExpInv maze s stack visited explored →
      stack.length + 4 * (mazeWidth maze * mazeHeight maze + 2 - visited.length) < fuel →
      dfsExploreLoop maze ex ey fuel stack visited explored ≠ .outOfFuel := by
  intro fuel
  induction fuel with
  | zero => intro stack visited explored _ hlt; exact absurd hlt (by omega)
  | succ fuel ih =>
    intro stack visited explored hinv hlt
    have hvlen : visited.length ≤ mazeWidth maze * mazeHeight maze + 1 :=
      length_le_of_nodup_bounds hinv.1 hinv.2.2.1
    match stack with
    | [] => simp [dfsExploreLoop]
    | c :: rest =>
      by_cases hv : visited.contains c
      · simp only [dfsExploreLoop, hv, if_true]
        refine ih rest visited explored (hinv.skip_dfsExp (contains_iff_mem.mp hv)) ?_
        simp only [List.length_cons] at hlt
        omega
      · have hfresh : c ∉ visited := fun hm => hv (contains_iff_mem.mpr hm)
        simp only [dfsExploreLoop, hv, Bool.false_eq_true, if_false]
        by_cases hg : c.1 = ex ∧ c.2 = ey
        · rw [if_pos hg]; simp
        · rw [if_neg hg]
          rcases dfsExpPush_spec maze c.1 c.2 (c :: visited)
              [Dir.left, Dir.down, Dir.right, Dir.up] rest with
            ⟨news, stack', hp, hpe, hplen, hnews, hcl⟩ | ⟨hp, _⟩
          · rw [hp]
            refine ih stack' (c :: visited) (explored ++ [c])
              (hinv.step_dfsExp hfresh hpe hnews hcl) ?_
            have hsl : stack'.length = news.length + rest.length := by rw [hpe]; simp
            simp only [List.length_cons] at hlt ⊢
            simp only [List.length_cons, List.length_nil] at hplen
            generalize mazeWidth maze * mazeHeight maze = K at hlt hvlen ⊢
            omega
          · rw [hp]; simp

/-- On a rectangular grid with an in-bounds start, the `dfsExplore` loop
never throws. -/
theorem dfsExploreLoop_no_typeError (maze : Maze) (s : Coord) (ex ey : Int)
    (hr : Rect maze)
    (hs : inBounds (mazeWidth maze) (mazeHeight maze) s.1 s.2 = true) :
    ∀ (fuel : Nat) (stack visited explored : List Coord),
      DfsExpInv maze s stack visited explored →
      dfsExploreLoop maze ex ey fuel stack visited explored ≠ .typeError := by
  intro fuel
  induction fuel with
  | zero => intro stack visited explored _; simp [dfsExploreLoop]
  | succ fuel ih =>
    intro stack visited explored hinv
    match stack with
    | [] => simp [dfsExploreLoop]
    | c :: rest =>
      by_cases hv : visited.contains c
      · simp only [dfsExploreLoop, hv, if_true]
        exact ih rest visited explored (hinv.skip_dfsExp (contains_iff_mem.mp hv))
      · have hfresh : c ∉ visited := fun hm => hv (contains_iff_mem.mpr hm)
        simp only [dfsExploreLoop, hv, Bool.false_eq_true, if_false]
        by_cases hg : c.1 = ex ∧ c.2 = ey
        · rw [if_pos hg]; simp
        · rw [if_neg hg]
          have hcell : ∃ cell, cellAt maze c.1 c.2 = some cell := by
            rcases hinv.2.2.2.1 c (List.mem_cons_self _ _) with hcs | hcb
            · rw [hcs]
              exact cellAt_isSome_of_inBounds hr hs
            · exact cellAt_isSome_of_inBounds hr hcb
          rcases dfsExpPush_spec maze c.1 c.2 (c :: visited)
              [Dir.left, Dir.down, Dir.right, Dir.up] rest with
            ⟨news, stack', hp, hpe, hplen, hnews, hcl⟩ | ⟨hp, hnone⟩
          · rw [hp]
            exact ih stack' (c :: visited) (explored ++ [c])
              (hinv.step_dfsExp hfresh hpe hnews hcl)
          · rcases hcell with ⟨cell, hcell⟩
            rw [hcell] at hnone
            cases hnone

/-- The initial `dfsExplore` state satisfies the invariant. -/
theorem dfsExpInv_init (maze : Maze) (s : Coord) :
    DfsExpInv maze s [s] [] [] := by
  refine ⟨List.nodup_nil, rfl, by simp, ?_, Or.inl rfl, ?_, by simp, by simp,
    Or.inr ⟨rfl, rfl, rfl⟩⟩
  · intro c hc
    rcases List.mem_singleton.mp hc with rfl
    exact Or.inl rfl
  · intro c hc
    rcases List.mem_singleton.mp hc with rfl
    exact Reachable.refl _ _

/-- Conditional facts about any `ok` result of `dfsExplore`, on any grid. -/
theorem dfsExplore_ok_facts (maze : Maze) (sx sy ex ey : Int) (l : List Coord)
    (h : dfsExplore sx sy ex ey maze = .ok l) :
    l.Nodup ∧ (sx, sy) ∉ l ∧ (∀ c ∈ l, Reachable maze (sx, sy) c ∧ c ≠ (sx, sy)) ∧
    (Reachable maze (sx, sy) (ex, ey) ∨
      (∀ c, Reachable maze (sx, sy) c → c = (sx, sy) ∨ c ∈ l)) :=
  dfsExploreLoop_facts maze (sx, sy) ex ey (dfsFuel maze) _ _ _
    (dfsExpInv_init maze (sx, sy)) l h

/-- `dfsExplore` on a rectangular grid with an in-bounds start returns a
value with the exploration facts. -/
theorem dfsExplore_results (maze : Maze) (s : Coord) (ex ey : Int) (hr : Rect maze)
    (hs : inBounds (mazeWidth maze) (mazeHeight maze) s.1 s.2 = true) :
    ∃ l, dfsExplore s.1 s.2 ex ey maze = .ok l ∧
      (l.Nodup ∧ s ∉ l ∧ (∀ c ∈ l, Reachable maze s c ∧ c ≠ s) ∧
        (Reachable maze s (ex, ey) ∨
          (∀ c, Reachable maze s c → c = s ∨ c ∈ l))) := by
  have hinit := dfsExpInv_init maze (s.1, s.2)
  have hfuel : ([(s.1, s.2)] : List Coord).length +
      4 * (mazeWidth maze * mazeHeight maze + 2 - ([] : List Coord).length)
      < dfsFuel maze := by
    simp [dfsFuel]; omega
  have h1 := dfsExploreLoop_no_fuel maze (s.1, s.2) ex ey (dfsFuel maze) _ _ _ hinit hfuel
  have h2 := dfsExploreLoop_no_typeError maze (s.1, s.2) ex ey hr
    (by simpa using hs) (dfsFuel maze) _ _ _ hinit
  cases hres : dfsExploreLoop maze ex ey (dfsFuel maze) [(s.1, s.2)] [] [] with
  | ok l =>
    have := dfsExploreLoop_facts maze (s.1, s.2) ex ey (dfsFuel maze) _ _ _ hinit l hres
    refine ⟨l, hres, ?_⟩
    simpa using this
  | typeError => exact absurd hres h2
  | outOfFuel => exact absurd hres h1

/-! ## BFS exploration: expansion step and loop invariant -/

/-- Everything `bfsExpPush` can do. -/
theorem bfsExpPush_spec (maze : Maze) (x y : Int) :
    ∀ (dirs : List Dir) (queue visited : List Coord),
      (∃ news queue' visited',
        bfsExpPush maze (mazeWidth maze) (mazeHeight maze) x y dirs queue visited
          = .ok (queue', visited') ∧
        queue' = queue ++ news ∧
        visited' = news.reverse ++ visited ∧
        news.length ≤ dirs.length ∧
        news.Nodup ∧
        (∀ c ∈ news, stepOk maze (x, y) c = true ∧ c ∉ visited) ∧
        (∀ d ∈ dirs, inBounds (mazeWidth maze) (mazeHeight maze)
            (moveTo (x, y) d).1 (moveTo (x, y) d).2 = true →
          ∀ cell, cellAt maze x y = some cell → dirWall d cell = false →
            moveTo (x, y) d ∈ visited'))
      ∨ (bfsExpPush maze (mazeWidth maze) (mazeHeight maze) x y dirs queue visited
          = .typeError ∧ cellAt maze x y = none) := by
  intro dirs
  induction dirs with
  | nil =>
    intro queue visited
    left
    exact ⟨[], queue, visited, rfl, by simp, by simp, by simp, by simp, by simp, by simp⟩
  | cons d rest ih =>
    intro queue visited
    by_cases hb : inBounds (mazeWidth maze) (mazeHeight maze)
        (x + (dirDelta d).1) (y + (dirDelta d).2)
    · cases hc : cellAt maze x y with
      | none =>
        right
        constructor
        · simp only [bfsExpPush, hb, if_true, hc]
        · rfl
      | some cell =>
        by_cases hw : dirWall d cell
        · have heq : bfsExpPush maze (mazeWidth maze) (mazeHeight maze) x y
              (d :: rest) queue visited =
              bfsExpPush maze (mazeWidth maze) (mazeHeight maze) x y rest queue visited := by
            simp only [bfsExpPush, hb, if_true, hc, hw]
          rw [heq]
          rcases ih queue visited with ⟨news, q', v', h1, h2, h3, h4, h5, h6, h7⟩ | h
          · left
            refine ⟨news, q', v', h1, h2, h3, le_trans h4 (by simp), h5, h6, ?_⟩
            intro d2 hd2 hb2 cell2 hc2 hw2
            rcases List.mem_cons.mp hd2 with rfl | hd2
            · injection hc2 with hc2
              subst hc2
              rw [hw] at hw2
              cases hw2
            · exact h7 d2 hd2 hb2 cell2 (hc.trans hc2) hw2
          · exact absurd h.2 (by simp [hc])
        · by_cases hv : visited.contains (x + (dirDelta d).1, y + (dirDelta d).2)
          · have heq : bfsExpPush maze (mazeWidth maze) (mazeHeight maze) x y
                (d :: rest) queue visited =
                bfsExpPush maze (mazeWidth maze) (mazeHeight maze) x y rest queue visited := by
              simp only [bfsExpPush, hb, if_true, hc, hw, Bool.false_eq_true, if_false, hv]
            rw [heq]
            rcases ih queue visited with ⟨news, q', v', h1, h2, h3, h4, h5, h6, h7⟩ | h
            · left
              refine ⟨news, q', v', h1, h2, h3, le_trans h4 (by simp), h5, h6, ?_⟩
              intro d2 hd2 hb2 cell2 hc2 hw2
              rcases List.mem_cons.mp hd2 with rfl | hd2
              · rw [h3]
                exact List.mem_append_right _ (contains_iff_mem.mp hv)
              · exact h7 d2 hd2 hb2 cell2 (hc.trans hc2) hw2
            · exact absurd h.2 (by simp [hc])
          · have heq : bfsExpPush maze (mazeWidth maze) (mazeHeight maze) x y
                (d :: rest) queue visited =
                bfsExpPush maze (mazeWidth maze) (mazeHeight maze) x y rest
                  (queue ++ [(x + (dirDelta d).1, y + (dirDelta d).2)])
                  ((x + (dirDelta d).1, y + (dirDelta d).2) :: visited) := by
              simp only [bfsExpPush, hb, if_true, hc, hw, Bool.false_eq_true, if_false, hv]
            rw [heq]
            rcases ih (queue ++ [(x + (dirDelta d).1, y + (dirDelta d).2)])
                ((x + (dirDelta d).1, y + (dirDelta d).2) :: visited) with
              ⟨news, q', v', h1, h2, h3, h4, h5, h6, h7⟩ | h
            · left
              refine ⟨(x + (dirDelta d).1, y + (dirDelta d).2) :: news, q', v', h1,
                  ?_, ?_, ?_, ?_, ?_, ?_⟩
              · rw [h2]; simp
              · rw [h3]; simp
              · simp only [List.length_cons]
                simpa using h4
              · refine List.nodup_cons.mpr ⟨?_, h5⟩
                intro hmem
                exact (h6 _ hmem).2 (List.mem_cons_self _ _)
              · intro c hcm
                rcases List.mem_cons.mp hcm with rfl | hcm
                · exact ⟨stepOk_iff.mpr ⟨d, rfl, hb, cell, hc, by simpa using hw⟩,
                    fun hm => hv (contains_iff_mem.mpr hm)⟩
                · obtain ⟨hs2, hnv⟩ := h6 c hcm
                  exact ⟨hs2, fun hm => hnv (List.mem_cons_of_mem _ hm)⟩
              · intro d2 hd2 hb2 cell2 hc2 hw2
                rcases List.mem_cons.mp hd2 with rfl | hd2
                · rw [h3]
                  exact List.mem_append_right _ (List.mem_cons_self _ _)
                · exact h7 d2 hd2 hb2 cell2 (hc.trans hc2) hw2
            · exact absurd h.2 (by simp [hc])
    · have heq : bfsExpPush maze (mazeWidth maze) (mazeHeight maze) x y
          (d :: rest) queue visited =
          bfsExpPush maze (mazeWidth maze) (mazeHeight maze) x y rest queue visited := by
        simp only [bfsExpPush, hb, Bool.false_eq_true, if_false]
      rw [heq]
      rcases ih queue visited with ⟨news, q', v', h1, h2, h3, h4, h5, h6, h7⟩ | h
      · left
        refine ⟨news, q', v', h1, h2, h3, le_trans h4 (by simp), h5, h6, ?_⟩
        intro d2 hd2 hb2 cell2 hc2 hw2
        rcases List.mem_cons.mp hd2 with rfl | hd2
        · exact absurd hb2 (by simpa using hb)
        · exact h7 d2 hd2 hb2 cell2 hc2 hw2
      · exact Or.inr h

/-- The `bfsExplore` loop invariant. -/
def BfsExpInv (maze : Maze) (s : Coord) (queue visited explored : List Coord) : Prop :=
  visited.Nodup ∧
  visited.Perm (explored ++ queue) ∧
  (∀ c ∈ visited, c = s ∨ inBounds (mazeWidth maze) (mazeHeight maze) c.1 c.2 = true) ∧
  (explored = [] ∨ explored.head? = some s) ∧
  (∀ c ∈ visited, Reachable maze s c) ∧
  (∀ c ∈ explored, ∀ c2, stepOk maze c c2 = true → c2 ∈ visited) ∧
  s ∈ visited ∧
  (explored = [] → queue = [s])

/-- Expanding the dequeued node preserves the `bfsExplore` invariant. -/
theorem BfsExpInv.step_bfsExp {maze : Maze} {s c : Coord}
    {rest visited explored news queue' visited' : List Coord}
    (hinv : BfsExpInv maze s (c :: rest) visited explored)
    (hqe : queue' = rest ++ news)
    (hve : visited' = news.reverse ++ visited)
    (hnodup : news.Nodup)
    (hnews : ∀ a ∈ news, stepOk maze (c.1, c.2) a = true ∧ a ∉ visited)
    (hcl : ∀ d ∈ dirList, inBounds (mazeWidth maze) (mazeHeight maze)
        (moveTo (c.1, c.2) d).1 (moveTo (c.1, c.2) d).2 = true →
      ∀ cell, cellAt maze c.1 c.2 = some cell → dirWall d cell = false →
        moveTo (c.1, c.2) d ∈ visited') :
    BfsExpInv maze s queue' visited' (explored ++ [c]) := by
  obtain ⟨hnd, hperm, hvb, hhead, hvreach, hclosure, hsv, hinit⟩ := hinv
  have hcv : c ∈ visited := hperm.symm.subset
    (List.mem_append_right _ (List.mem_cons_self _ _))
  have hcreach : Reachable maze s c := hvreach c hcv
  have hvsub : ∀ a ∈ visited, a ∈ visited' := by
    intro a ha
    rw [hve]
    exact List.mem_append_right _ ha
  refine ⟨?_, ?_, ?_, ?_, ?_, ?_, hvsub s hsv, by simp⟩
  · rw [hve]
    refine List.Nodup.append (List.nodup_reverse.mpr hnodup) hnd ?_
    intro a ha hb
    rw [List.mem_reverse] at ha
    exact (hnews a ha).2 hb
  · rw [hve, hqe]
    have p1 : (news.reverse ++ visited : List Coord).Perm (news ++ visited) :=
      (List.reverse_perm news).append_right visited
    have p2 : (news ++ visited : List Coord).Perm
        ((explored ++ [c]) ++ (rest ++ news)) := by
      have q1 : (news ++ visited : List Coord).Perm (news ++ (explored ++ c :: rest)) :=
        hperm.append_left news
      have q2 : (news ++ (explored ++ c :: rest) : List Coord).Perm
          ((explored ++ c :: rest) ++ news) := List.perm_append_comm
      have q3 : ((explored ++ c :: rest) ++ news : List Coord)
          = (explored ++ [c]) ++ (rest ++ news) := by simp
      rw [← q3]
      exact q1.trans q2
    exact p1.trans p2
  · intro a ha
    rw [hve] at ha
    rcases List.mem_append.mp ha with ha | ha
    · rw [List.mem_reverse] at ha
      exact Or.inr (stepOk_inBounds (hnews a ha).1)
    · exact hvb a ha
  · right
    rcases hhead with rfl | hh
    · have hcs : c = s := by
        have hq := hinit rfl
        simp only [List.cons.injEq] at hq
        exact hq.1
      simp [hcs]
    · cases explored with
      | nil => cases hh
      | cons a tl => simpa using hh
  · intro a ha
    rw [hve] at ha
    rcases List.mem_append.mp ha with ha | ha
    · rw [List.mem_reverse] at ha
      exact hcreach.step_one (hnews a ha).1
    · exact hvreach a ha
  · intro a ha c2 hs2
    rcases List.mem_append.mp ha with ha | ha
    · exact hvsub _ (hclosure a ha c2 hs2)
    · rcases List.mem_singleton.mp ha with rfl
      rcases stepOk_iff.mp hs2 with ⟨d, rfl, hb2, cell, hc2, hw2⟩
      exact hcl d (by cases d <;> simp [dirList]) hb2 cell hc2 hw2

/-- Master facts about every `ok` result of the `bfsExplore` loop. -/
theorem bfsExploreLoop_facts (maze : Maze) (s : Coord) (ex ey : Int) :
    ∀ (fuel : Nat) (queue visited explored : List Coord),
      BfsExpInv maze s queue visited explored →
      ∀ l, bfsExploreLoop maze ex ey fuel queue visited explored = .ok l →
        l.Nodup ∧ s ∉ l ∧ (∀ c ∈ l, Reachable maze s c ∧ c ≠ s) ∧
        (Reachable maze s (ex, ey) ∨
          (∀ c, Reachable maze s c → c = s ∨ c ∈ l)) := by
  intro fuel
  induction fuel with
  | zero => intro queue visited explored _ l h; cases h
  | succ fuel ih =>
    intro queue visited explored hinv l h
    obtain ⟨hnd, hperm, hvb, hhead, hvreach, hclosure, hsv, hinit⟩ := hinv
    match queue with
    | [] =>
      simp only [bfsExploreLoop] at h
      injection h with h
      subst h
      have hend : explored.Nodup := by
        have := hperm.nodup_iff.mp hnd
        simpa using this
      have hereach : ∀ c ∈ explored, Reachable maze s c := by
        intro c hc
        exact hvreach c (hperm.symm.subset (by simpa using hc))
      obtain ⟨f1, f2, f3, f4⟩ := explored_tail_facts hend hhead hereach
      refine ⟨f1, f2, f3, Or.inr ?_⟩
      intro c hc
      have hcv : c ∈ visited := by
        refine Reachable.mem_closed (fun a => a ∈ visited) hsv ?_ hc
        intro a ha c2 hs2
        have hae : a ∈ explored := by
          have := hperm.subset ha
          simpa using this
        exact hclosure a hae c2 hs2
      refine f4 c ?_
      have := hperm.subset hcv
      simpa using this
    | c :: rest =>
      have hcv : c ∈ visited := hperm.symm.subset
        (List.mem_append_right _ (List.mem_cons_self _ _))
      have hcreach : Reachable maze s c := hvreach c hcv
      have hpnodup : (explored ++ c :: rest).Nodup := hperm.nodup_iff.mp hnd
      have hnd2 : (explored ++ [c]).Nodup := by
        rw [List.nodup_append] at hpnodup
        refine List.Nodup.append hpnodup.1 (List.nodup_singleton c) ?_
        intro a ha hb
        rcases List.mem_singleton.mp hb with rfl
        exact hpnodup.2.2 ha (List.mem_cons_self _ _)
      have hhead2 : explored ++ [c] = [] ∨ (explored ++ [c]).head? = some s := by
        right
        rcases hhead with rfl | hh
        · have hq := hinit rfl
          simp only [List.cons.injEq] at hq
          simp [hq.1]
        · cases explored with
          | nil => cases hh
          | cons a tl => simpa using hh
      have hereach2 : ∀ a ∈ explored ++ [c], Reachable maze s a := by
        intro a ha
        rcases List.mem_append.mp ha with ha | ha
        · exact hvreach a (hperm.symm.subset (List.mem_append_left _ ha))
        · rcases List.mem_singleton.mp ha with rfl
          exact hcreach
      by_cases hg : c.1 = ex ∧ c.2 = ey
      · simp only [bfsExploreLoop] at h
        rw [if_pos hg] at h
        injection h with h
        subst h
        obtain ⟨f1, f2, f3, _⟩ := explored_tail_facts hnd2 hhead2 hereach2
        refine ⟨f1, f2, f3, Or.inl ?_⟩
        have : c = (ex, ey) := Prod.ext hg.1 hg.2
        rw [← this]
        exact hcreach
      · simp only [bfsExploreLoop] at h
        rw [if_neg hg] at h
        rcases bfsExpPush_spec maze c.1 c.2 dirList rest visited with
          ⟨news, q', v', hp, hqe, hve, hplen, hpnd, hnews, hcl⟩ | ⟨hp, _⟩
        · rw [hp] at h
          exact ih q' v' (explored ++ [c])
            (BfsExpInv.step_bfsExp ⟨hnd, hperm, hvb, hhead, hvreach, hclosure, hsv, hinit⟩
              hqe hve hpnd hnews hcl) l h
        · rw [hp] at h
          cases h

/-- With the supplied fuel the `bfsExplore` loop never exhausts. -/
theorem bfsExploreLoop_no_fuel (maze : Maze) (s : Coord) (ex ey : Int) :
    ∀ (fuel : Nat) (queue visited explored : List Coord),
      BfsExpInv maze s queue visited explored →
      queue.length + (mazeWidth maze * mazeHeight maze + 2 - visited.length) < fuel →
      bfsExploreLoop maze ex ey fuel queue visited explored ≠ .outOfFuel := by
  intro fuel
  induction fuel with
  | zero => intro queue visited explored _ hlt; exact absurd hlt (by omega)
  | succ fuel ih =>
    intro queue visited explored hinv hlt
    have hvlen : visited.length ≤ mazeWidth maze * mazeHeight maze + 1 :=
      length_le_of_nodup_bounds hinv.1 hinv.2.2.1
    match queue with
    | [] => simp [bfsExploreLoop]
    | c :: rest =>
      simp only [bfsExploreLoop]
      by_cases hg : c.1 = ex ∧ c.2 = ey
      · rw [if_pos hg]; simp
      · rw [if_neg hg]
        rcases bfsExpPush_spec maze c.1 c.2 dirList rest visited with
          ⟨news, q', v', hp, hqe, hve, hplen, hpnd, hnews, hcl⟩ | ⟨hp, _⟩
        · rw [hp]
          have hinv2 := hinv.step_bfsExp hqe hve hpnd hnews hcl
          have hvlen2 : v'.length ≤ mazeWidth maze * mazeHeight maze + 1 :=
            length_le_of_nodup_bounds hinv2.1 hinv2.2.2.1
          refine ih q' v' (explored ++ [c]) hinv2 ?_
          have hq : q'.length = rest.length + news.length := by rw [hqe]; simp
          have hv : v'.length = news.length + visited.length := by rw [hve]; simp
          simp only [List.length_cons] at hlt
          rw [hq, hv]
          rw [hv] at hvlen2
          generalize mazeWidth maze * mazeHeight maze = K at hlt hvlen hvlen2 ⊢
          omega
        · rw [hp]; simp

/-- On a rectangular grid with an in-bounds start, the `bfsExplore` loop
never throws. -/
theorem bfsExploreLoop_no_typeError (maze : Maze) (s : Coord) (ex ey : Int)
    (hr : Rect maze)
    (hs : inBounds (mazeWidth maze) (mazeHeight maze) s.1 s.2 = true) :
    ∀ (fuel : Nat) (queue visited explored : List Coord),
      BfsExpInv maze s queue visited explored →
      bfsExploreLoop maze ex ey fuel queue visited explored ≠ .typeError := by
  intro fuel
  induction fuel with
  | zero => intro queue visited explored _; simp [bfsExploreLoop]
  | succ fuel ih =>
    intro queue visited explored hinv
    match queue with
    | [] => simp [bfsExploreLoop]
    | c :: rest =>
      have hcv : c ∈ visited := hinv.2.1.symm.subset
        (List.mem_append_right _ (List.mem_cons_self _ _))
      simp only [bfsExploreLoop]
      by_cases hg : c.1 = ex ∧ c.2 = ey
      · rw [if_pos hg]; simp
      · rw [if_neg hg]
        have hcell : ∃ cell, cellAt maze c.1 c.2 = some cell := by
          rcases hinv.2.2.1 c hcv with hcs | hcb
          · rw [hcs]
            exact cellAt_isSome_of_inBounds hr hs
          · exact cellAt_isSome_of_inBounds hr hcb
        rcases bfsExpPush_spec maze c.1 c.2 dirList rest visited with
          ⟨news, q', v', hp, hqe, hve, hplen, hpnd, hnews, hcl⟩ | ⟨hp, hnone⟩
        · rw [hp]
          exact ih q' v' (explored ++ [c]) (hinv.step_bfsExp hqe hve hpnd hnews hcl)
        · rcases hcell with ⟨cell, hcell⟩
          rw [hcell] at hnone
          cases hnone

/-- The initial `bfsExplore` state satisfies the invariant. -/
theorem bfsExpInv_init (maze : Maze) (s : Coord) :
    BfsExpInv maze s [s] [s] [] := by
  refine ⟨List.nodup_singleton s, by simp, ?_, Or.inl rfl, ?_, by simp,
    List.mem_singleton_self s, fun _ => rfl⟩
  · intro c hc
    rcases List.mem_singleton.mp hc with rfl
    exact Or.inl rfl
  · intro c hc
    rcases List.mem_singleton.mp hc with rfl
    exact Reachable.refl _ _

/-- Conditional facts about any `ok` result of `bfsExplore`, on any grid. -/
theorem bfsExplore_ok_facts (maze : Maze) (sx sy ex ey : Int) (l : List Coord)
    (h : bfsExplore sx sy ex ey maze = .ok l) :
    l.Nodup ∧ (sx, sy) ∉ l ∧ (∀ c ∈ l, Reachable maze (sx, sy) c ∧ c ≠ (sx, sy)) ∧
    (Reachable maze (sx, sy) (ex, ey) ∨
      (∀ c, Reachable maze (sx, sy) c → c = (sx, sy) ∨ c ∈ l)) :=
  bfsExploreLoop_facts maze (sx, sy) ex ey (bfsFuel maze) _ _ _
    (bfsExpInv_init maze (sx, sy)) l h

/-- `bfsExplore` on a rectangular grid with an in-bounds start returns a
value with the exploration facts. -/
theorem bfsExplore_results (maze : Maze) (s : Coord) (ex ey : Int) (hr : Rect maze)
    (hs : inBounds (mazeWidth maze) (mazeHeight maze) s.1 s.2 = true) :
    ∃ l, bfsExplore s.1 s.2 ex ey maze = .ok l ∧
      (l.Nodup ∧ s ∉ l ∧ (∀ c ∈ l, Reachable maze s c ∧ c ≠ s) ∧
        (Reachable maze s (ex, ey) ∨
          (∀ c, Reachable maze s c → c = s ∨ c ∈ l))) := by
  have hinit := bfsExpInv_init maze (s.1, s.2)
  have hfuel : ([(s.1, s.2)] : List Coord).length +
      (mazeWidth maze * mazeHeight maze + 2 - ([(s.1, s.2)] : List Coord).length)
      < bfsFuel maze := by
    simp [bfsFuel]; omega
  have h1 := bfsExploreLoop_no_fuel maze (s.1, s.2) ex ey (bfsFuel maze) _ _ _ hinit hfuel
  have h2 := bfsExploreLoop_no_typeError maze (s.1, s.2) ex ey hr
    (by simpa using hs) (bfsFuel maze) _ _ _ hinit
  cases hres : bfsExploreLoop maze ex ey (bfsFuel maze) [(s.1, s.2)] [(s.1, s.2)] [] with
  | ok l =>
    have := bfsExploreLoop_facts maze (s.1, s.2) ex ey (bfsFuel maze) _ _ _ hinit l hres
    refine ⟨l, hres, ?_⟩
    simpa using this
  | typeError => exact absurd hres h2
  | outOfFuel => exact absurd hres h1

/-! ## A* exploration: the explored list never contains the start -/

/-- One-step equation of `expLoop` when the sorted open set is empty. -/
theorem expLoop_nil_eq (maze : Maze) (sx sy ex ey : Int) (fuel : Nat)
    (open_ : List ExpNode) (closed explored : List Coord) (g : List (Coord × Nat))
    (cf : List (Coord × Coord)) (h : sortBy (expLe ex ey) open_ = []) :
    expLoop maze sx sy ex ey (fuel + 1) open_ closed explored g cf =
      .ok (explored, g, cf) := by
  rw [expLoop_unfold, h]

/-- One-step equation of `expLoop` when the sorted open set is nonempty. -/
theorem expLoop_cons_eq (maze : Maze) (sx sy ex ey : Int) (fuel : Nat)
    (open_ : List ExpNode) (closed explored : List Coord) (g : List (Coord × Nat))
    (cf : List (Coord × Coord)) (current : ExpNode) (rest : List ExpNode)
    (h : sortBy (expLe ex ey) open_ = current :: rest) :
    expLoop maze sx sy ex ey (fuel + 1) open_ closed explored g cf =
      if closed.contains (current.x, current.y) then
        expLoop maze sx sy ex ey fuel rest closed explored g cf
      else
        if current.x = ex ∧ current.y = ey then
          .ok ((if current.x = sx ∧ current.y = sy then explored
                else explored ++ [(current.x, current.y)]), g, cf)
        else
          match expPush maze (mazeWidth maze) (mazeHeight maze) current.x current.y
              current.g ((current.x, current.y) :: closed) dirList rest g cf with
          | .ok (open2, g2, cf2) =>
            expLoop maze sx sy ex ey fuel open2 ((current.x, current.y) :: closed)
              (if current.x = sx ∧ current.y = sy then explored
               else explored ++ [(current.x, current.y)]) g2 cf2
          | .typeError => .typeError
          | .outOfFuel => .outOfFuel := by
  rw [expLoop_unfold, h]

/-- The start coordinate is never added to the `explored` list: the loop
skips it explicitly (`if (!isStartNode) explored.push([x, y])`). -/
theorem expLoop_start_not_mem (maze : Maze) (sx sy ex ey : Int) :
    ∀ (fuel : Nat) (open_ : List ExpNode) (closed explored : List Coord)
      (g : List (Coord × Nat)) (cf : List (Coord × Coord)),
      (sx, sy) ∉ explored →
      ∀ l g2 cf2,
        expLoop maze sx sy ex ey fuel open_ closed explored g cf = .ok (l, g2, cf2) →
        (sx, sy) ∉ l := by
  intro fuel
  induction fuel with
  | zero =>
    intro open_ closed explored g cf hex l g2 cf2 h
    cases h
  | succ fuel ih =>
    intro open_ closed explored g cf hex l g2 cf2 h
    cases hsort : sortBy (expLe ex ey) open_ with
    | nil =>
      rw [expLoop_nil_eq maze sx sy ex ey fuel open_ closed explored g cf hsort] at h
      injection h with h
      have he : explored = l := congrArg Prod.fst h
      rw [← he]
      exact hex
    | cons current rest =>
      rw [expLoop_cons_eq maze sx sy ex ey fuel open_ closed explored g cf
        current rest hsort] at h
      by_cases hc : closed.contains (current.x, current.y)
      · rw [if_pos hc] at h
        exact ih rest closed explored g cf hex l g2 cf2 h
      · rw [if_neg hc] at h
        have hex2 : (sx, sy) ∉ (if current.x = sx ∧ current.y = sy then explored
            else explored ++ [(current.x, current.y)]) := by
          by_cases hs : current.x = sx ∧ current.y = sy
          · rw [if_pos hs]; exact hex
          · rw [if_neg hs]
            intro hm
            rcases List.mem_append.mp hm with hm | hm
            · exact hex hm
            · have he := List.mem_singleton.mp hm
              injection he with h1 h2
              exact hs ⟨h1.symm, h2.symm⟩
        by_cases hg : current.x = ex ∧ current.y = ey
        · rw [if_pos hg] at h
          injection h with h
          have he : _ = l := congrArg Prod.fst h
          rw [← he]
          exact hex2
        · rw [if_neg hg] at h
          cases hp : expPush maze (mazeWidth maze) (mazeHeight maze) current.x current.y
              current.g ((current.x, current.y) :: closed) dirList rest g cf with
          | ok t =>
            obtain ⟨open2, g3, cf3⟩ := t
            rw [hp] at h
            exact ih open2 ((current.x, current.y) :: closed) _ g3 cf3 hex2 l g2 cf2 h
          | typeError => rw [hp] at h; cases h
          | outOfFuel => rw [hp] at h; cases h

/-- `astarExplore`'s explored list never contains the start. -/
theorem astarExplore_start_not_mem (maze : Maze) (sx sy ex ey : Int)
    (r : ExpResult) (h : astarExplore sx sy ex ey maze = .ok r) :
    (sx, sy) ∉ r.explored := by
  rw [astarExplore] at h
  cases hl : expLoop maze sx sy ex ey (astarFuel maze)
      [⟨sx, sy, 0⟩] [] [] [((sx, sy), 0)] [] with
  | ok t =>
    obtain ⟨explored, g, cf⟩ := t
    rw [hl] at h
    have hnm := expLoop_start_not_mem maze sx sy ex ey (astarFuel maze)
      [⟨sx, sy, 0⟩] [] [] [((sx, sy), 0)] [] (by simp) explored g cf hl
    have h2 : (if (g.lookup (ex, ey)).isSome then
        match walkBack cf (sx, sy) (cf.length + 1) (ex, ey) [] with
        | some acc => JsResult.ok (⟨explored, acc.reverse⟩ : ExpResult)
        | none => .outOfFuel
      else .ok ⟨explored, []⟩) = .ok r := h
    by_cases hg : (g.lookup (ex, ey)).isSome
    · rw [if_pos hg] at h2
      cases hw : walkBack cf (sx, sy) (cf.length + 1) (ex, ey) [] with
      | some acc =>
        rw [hw] at h2
        injection h2 with h2
        rw [← h2]
        exact hnm
      | none => rw [hw] at h2; cases h2
    · rw [if_neg hg] at h2
      injection h2 with h2
      rw [← h2]
      exact hnm
  | typeError => rw [hl] at h; cases h
  | outOfFuel => rw [hl] at h; cases h

/-- C4: for every grid and every strategy, whenever `findPath` returns a
sequence, that sequence does not contain the start coordinate
`(startX, startY)`. -/
theorem C4_start_not_in_result (maze : Maze) (sx sy ex ey : Int)
    (method : SearchMethod) (l : List Coord)
    (h : findPath sx sy ex ey method maze = .ok l) :
    (sx, sy) ∉ l := by
  rw [findPath.eq_def] at h
  by_cases hz : maze.length = 0
  · rw [if_pos hz] at h
    injection h with h
    rw [← h]
    simp
  · rw [if_neg hz] at h
    cases method with
    | DFS =>
      rcases dfs_ok_facts maze sx sy ex ey l h with rfl | ⟨_, hnd⟩
      · simp
      · exact (List.nodup_cons.mp hnd).1
    | BFS =>
      rcases bfs_ok_facts maze sx sy ex ey l h with rfl | ⟨_, hnd⟩
      · simp
      · exact (List.nodup_cons.mp hnd).1
    | ASTAR =>
      rcases astar_ok_facts maze sx sy ex ey l h with rfl | ⟨_, hnd⟩
      · simp
      · exact (List.nodup_cons.mp hnd).1
    | DFS_EXPLORE =>
      exact (dfsExplore_ok_facts maze sx sy ex ey l h).2.1
    | BFS_EXPLORE =>
      exact (bfsExplore_ok_facts maze sx sy ex ey l h).2.1
    | ASTAR_EXPLORE =>
      cases ha : astarExplore sx sy ex ey maze with
      | ok r =>
        rw [ha] at h
        have h2 : JsResult.ok r.explored = .ok l := h
        injection h2 with h2
        rw [← h2]
        exact astarExplore_start_not_mem maze sx sy ex ey r ha
      | typeError => rw [ha] at h; cases h
      | outOfFuel => rw [ha] at h; cases h

/-- Concrete instance of C4: DFS on a 1-cell grid. -/
theorem C4_witness :
    findPath 0 0 0 0 SearchMethod.DFS [[⟨false, false, false, false⟩]] = .ok [] ∧
    ((0, 0) : Coord) ∉ ([] : List Coord) :=
  ⟨by decide, C4_start_not_in_result [[⟨false, false, false, false⟩]] 0 0 0 0
    SearchMethod.DFS [] (by decide)⟩

/-! ## A* exploration: open-set coordinates and the expansion step -/

/-- The coordinates of the nodes of an open set. -/
def openCoords (open_ : List ExpNode) : List Coord :=
  open_.map (fun n => (n.x, n.y))

theorem mem_openCoords {open_ : List ExpNode} {c : Coord} :
    c ∈ openCoords open_ ↔ ∃ n ∈ open_, (n.x, n.y) = c := by
  simp [openCoords]

theorem openCoords_append (a b : List ExpNode) :
    openCoords (a ++ b) = openCoords a ++ openCoords b :=
  List.map_append _ _ _

theorem openCoords_setGAt (l : List ExpNode) (c : Coord) (gv : Nat) :
    openCoords (setGAt l c gv) = openCoords l := by
  induction l with
  | nil => rfl
  | cons n ns ih =>
    by_cases h : n.x = c.1 ∧ n.y = c.2
    · simp [setGAt, h, openCoords]
    · simp only [setGAt, h, if_false]
      simp only [openCoords, List.map_cons] at ih ⊢
      rw [ih]

theorem setGAt_length (l : List ExpNode) (c : Coord) (gv : Nat) :
    (setGAt l c gv).length = l.length := by
  have h := congrArg List.length (openCoords_setGAt l c gv)
  simpa [openCoords] using h

/-- A successful association-list lookup means the key occurs in the list. -/
theorem lookup_isSome_key {l : List (Coord × Nat)} {k : Coord}
    (h : (l.lookup k).isSome = true) : ∃ p ∈ l, p.1 = k := by
  induction l with
  | nil => simp [List.lookup] at h
  | cons p rest ih =>
    obtain ⟨a, b⟩ := p
    by_cases hab : k = a
    · exact ⟨(a, b), List.mem_cons_self _ _, hab.symm⟩
    · have hb : (k == a) = false := beq_eq_false_iff_ne.mpr hab
      rw [List.lookup, hb] at h
      rcases ih h with ⟨p, hp, hpk⟩
      exact ⟨p, List.mem_cons_of_mem _ hp, hpk⟩

/-- Everything `expPush` can do, at the level of coordinates and `gScore`
keys: it appends (or re-weights) fresh acceptable neighbours of `(x, y)`,
records a `gScore`/`cameFrom` entry for each, keeps every open coordinate
and every `gScore` binding, and guarantees that every passable in-bounds
neighbour ends up either closed or with a `gScore` key. -/
theorem expPush_spec (maze : Maze) (x y : Int) (gCur : Nat) (closed : List Coord) :
    ∀ (dirs : List Dir) (open_ : List ExpNode) (g : List (Coord × Nat))
      (cf : List (Coord × Coord)),
      (∃ open' g' cf',
        expPush maze (mazeWidth maze) (mazeHeight maze) x y gCur closed dirs open_ g cf
          = .ok (open', g', cf') ∧
        open'.length ≤ open_.length + dirs.length ∧
        (∀ n ∈ open', (n.x, n.y) ∈ openCoords open_ ∨
          (stepOk maze (x, y) (n.x, n.y) = true ∧ (n.x, n.y) ∉ closed)) ∧
        (∀ c ∈ openCoords open_, c ∈ openCoords open') ∧
        (∀ p ∈ g, p ∈ g') ∧
        (∀ p ∈ g', p ∈ g ∨
          (p.1 ∈ openCoords open' ∧ stepOk maze (x, y) p.1 = true)) ∧
        (∀ d ∈ dirs, inBounds (mazeWidth maze) (mazeHeight maze)
            (moveTo (x, y) d).1 (moveTo (x, y) d).2 = true →
          ∀ cell, cellAt maze x y = some cell → dirWall d cell = false →
            moveTo (x, y) d ∈ closed ∨ ∃ p ∈ g', p.1 = moveTo (x, y) d))
      ∨ (expPush maze (mazeWidth maze) (mazeHeight maze) x y gCur closed dirs open_ g cf
          = .typeError ∧ cellAt maze x y = none) := by
  intro dirs
  induction dirs with
  | nil =>
    intro open_ g cf
    left
    exact ⟨open_, g, cf, rfl, by simp, fun n hn => Or.inl (by
      exact mem_openCoords.mpr ⟨n, hn, rfl⟩), fun c hc => hc, fun p hp => hp,
      fun p hp => Or.inl hp, by simp⟩
  | cons d rest ih =>
    intro open_ g cf
    by_cases hb : inBounds (mazeWidth maze) (mazeHeight maze)
        (x + (dirDelta d).1) (y + (dirDelta d).2)
    · cases hc : cellAt maze x y with
      | none =>
        right
        constructor
        · simp only [expPush, hb, if_true, hc]
        · rfl
      | some cell =>
        by_cases hw : dirWall d cell
        · have heq : expPush maze (mazeWidth maze) (mazeHeight maze) x y gCur closed
              (d :: rest) open_ g cf =
              expPush maze (mazeWidth maze) (mazeHeight maze) x y gCur closed
                rest open_ g cf := by
            simp only [expPush, hb, if_true, hc, hw]
          rw [heq]
          rcases ih open_ g cf with ⟨o', g', cf', h1, h2, h3, h4, h5, h6, h7⟩ | h
          · left
            refine ⟨o', g', cf', h1, le_trans h2 (by simp), h3, h4, h5, h6, ?_⟩
            intro d2 hd2 hb2 cell2 hc2 hw2
            rcases List.mem_cons.mp hd2 with rfl | hd2
            · injection hc2 with hc2
              subst hc2
              rw [hw] at hw2
              cases hw2
            · exact h7 d2 hd2 hb2 cell2 (hc.trans hc2) hw2
          · exact absurd h.2 (by simp [hc])
        · by_cases hcl : closed.contains (x + (dirDelta d).1, y + (dirDelta d).2)
          · have heq : expPush maze (mazeWidth maze) (mazeHeight maze) x y gCur closed
                (d :: rest) open_ g cf =
                expPush maze (mazeWidth maze) (mazeHeight maze) x y gCur closed
                  rest open_ g cf := by
              simp only [expPush, hb, if_true, hc, hw, Bool.false_eq_true, if_false, hcl]
            rw [heq]
            rcases ih open_ g cf with ⟨o', g', cf', h1, h2, h3, h4, h5, h6, h7⟩ | h
            · left
              refine ⟨o', g', cf', h1, le_trans h2 (by simp), h3, h4, h5, h6, ?_⟩
              intro d2 hd2 hb2 cell2 hc2 hw2
              rcases List.mem_cons.mp hd2 with rfl | hd2
              · exact Or.inl (contains_iff_mem.mp hcl)
              · exact h7 d2 hd2 hb2 cell2 (hc.trans hc2) hw2
            · exact absurd h.2 (by simp [hc])
          · by_cases hi : (match g.lookup (x + (dirDelta d).1, y + (dirDelta d).2) with
                | none => true
                | some m => decide (gCur + 1 < m)) = true
            · -- the improvement test passes: a gScore binding is recorded and
              -- the neighbour is added to (or re-weighted in) the open set
              have hstep : stepOk maze (x, y)
                  (x + (dirDelta d).1, y + (dirDelta d).2) = true :=
                stepOk_iff.mpr ⟨d, rfl, hb, cell, hc, by simpa using hw⟩
              have hfresh : (x + (dirDelta d).1, y + (dirDelta d).2) ∉ closed :=
                fun hm => hcl (contains_iff_mem.mpr hm)
              cases hf : open_.find? (fun n => n.x = x + (dirDelta d).1 ∧
                  n.y = y + (dirDelta d).2) with
              | none =>
                have heq : expPush maze (mazeWidth maze) (mazeHeight maze) x y gCur
                    closed (d :: rest) open_ g cf =
                    expPush maze (mazeWidth maze) (mazeHeight maze) x y gCur closed
                      rest (open_ ++ [⟨x + (dirDelta d).1, y + (dirDelta d).2, gCur + 1⟩])
                      (((x + (dirDelta d).1, y + (dirDelta d).2), gCur + 1) :: g)
                      (((x + (dirDelta d).1, y + (dirDelta d).2), (x, y)) :: cf) := by
                  simp only [expPush, hb, if_true, hc, hw, Bool.false_eq_true, if_false,
                    hcl, hi, hf]
                rw [heq]
                rcases ih (open_ ++ [⟨x + (dirDelta d).1, y + (dirDelta d).2, gCur + 1⟩])
                    (((x + (dirDelta d).1, y + (dirDelta d).2), gCur + 1) :: g)
                    (((x + (dirDelta d).1, y + (dirDelta d).2), (x, y)) :: cf) with
                  ⟨o', g', cf', h1, h2, h3, h4, h5, h6, h7⟩ | h
                · left
                  have hnewmem : ((x + (dirDelta d).1, y + (dirDelta d).2) : Coord) ∈
                      openCoords (open_ ++
                        [⟨x + (dirDelta d).1, y + (dirDelta d).2, gCur + 1⟩]) := by
                    rw [openCoords_append]
                    exact List.mem_append_right _ (by simp [openCoords])
                  refine ⟨o', g', cf', h1, ?_, ?_, ?_, ?_, ?_, ?_⟩
                  · have h2b := h2
                    simp only [List.length_append, List.length_cons,
                      List.length_nil] at h2b ⊢
                    omega
                  · intro n hn
                    rcases h3 n hn with hm | hm
                    · rw [openCoords_append] at hm
                      rcases List.mem_append.mp hm with hm | hm
                      · exact Or.inl hm
                      · simp only [openCoords, List.map_cons, List.map_nil,
                          List.mem_singleton] at hm
                        exact Or.inr (by rw [hm]; exact ⟨hstep, hfresh⟩)
                    · exact Or.inr hm
                  · intro c hcm
                    refine h4 c ?_
                    rw [openCoords_append]
                    exact List.mem_append_left _ hcm
                  · intro p hp
                    exact h5 p (List.mem_cons_of_mem _ hp)
                  · intro p hp
                    rcases h6 p hp with hm | hm
                    · rcases List.mem_cons.mp hm with rfl | hm
                      · exact Or.inr ⟨h4 _ hnewmem, hstep⟩
                      · exact Or.inl hm
                    · exact Or.inr hm
                  · intro d2 hd2 hb2 cell2 hc2 hw2
                    rcases List.mem_cons.mp hd2 with rfl | hd2
                    · exact Or.inr ⟨((x + (dirDelta d2).1, y + (dirDelta d2).2),
                        gCur + 1), h5 _ (List.mem_cons_self _ _), rfl⟩
                    · exact h7 d2 hd2 hb2 cell2 (hc.trans hc2) hw2
                · exact absurd h.2 (by simp [hc])
              | some n0 =>
                have heq : expPush maze (mazeWidth maze) (mazeHeight maze) x y gCur
                    closed (d :: rest) open_ g cf =
                    expPush maze (mazeWidth maze) (mazeHeight maze) x y gCur closed
                      rest (setGAt open_ (x + (dirDelta d).1, y + (dirDelta d).2)
                        (gCur + 1))
                      (((x + (dirDelta d).1, y + (dirDelta d).2), gCur + 1) :: g)
                      (((x + (dirDelta d).1, y + (dirDelta d).2), (x, y)) :: cf) := by
                  simp only [expPush, hb, if_true, hc, hw, Bool.false_eq_true, if_false,
                    hcl, hi, hf]
                rw [heq]
                rcases ih (setGAt open_ (x + (dirDelta d).1, y + (dirDelta d).2)
                      (gCur + 1))
                    (((x + (dirDelta d).1, y + (dirDelta d).2), gCur + 1) :: g)
                    (((x + (dirDelta d).1, y + (dirDelta d).2), (x, y)) :: cf) with
                  ⟨o', g', cf', h1, h2, h3, h4, h5, h6, h7⟩ | h
                · left
                  have hn0 : ((x + (dirDelta d).1, y + (dirDelta d).2) : Coord) ∈
                      openCoords open_ := by
                    have hf2 := List.find?_some hf
                    simp only [decide_eq_true_eq] at hf2
                    have hf3 := List.mem_of_find?_eq_some hf
                    exact mem_openCoords.mpr ⟨n0, hf3, by rw [hf2.1, hf2.2]⟩
                  refine ⟨o', g', cf', h1, ?_, ?_, ?_, ?_, ?_, ?_⟩
                  · refine le_trans h2 ?_
                    rw [setGAt_length]
                    simp only [List.length_cons]
                    omega
                  · intro n hn
                    rcases h3 n hn with hm | hm
                    · rw [openCoords_setGAt] at hm
                      exact Or.inl hm
                    · exact Or.inr hm
                  · intro c hcm
                    exact h4 c (by rw [openCoords_setGAt]; exact hcm)
                  · intro p hp
                    exact h5 p (List.mem_cons_of_mem _ hp)
                  · intro p hp
                    rcases h6 p hp with hm | hm
                    · rcases List.mem_cons.mp hm with rfl | hm
                      · exact Or.inr ⟨h4 _ (by rw [openCoords_setGAt]; exact hn0),
                          hstep⟩
                      · exact Or.inl hm
                    · exact Or.inr hm
                  · intro d2 hd2 hb2 cell2 hc2 hw2
                    rcases List.mem_cons.mp hd2 with rfl | hd2
                    · exact Or.inr ⟨((x + (dirDelta d2).1, y + (dirDelta d2).2),
                        gCur + 1), h5 _ (List.mem_cons_self _ _), rfl⟩
                    · exact h7 d2 hd2 hb2 cell2 (hc.trans hc2) hw2
                · exact absurd h.2 (by simp [hc])
            · -- the improvement test fails: the neighbour already has a
              -- gScore binding at most as large
              have heq : expPush maze (mazeWidth maze) (mazeHeight maze) x y gCur
                  closed (d :: rest) open_ g cf =
                  expPush maze (mazeWidth maze) (mazeHeight maze) x y gCur closed
                    rest open_ g cf := by
                simp only [expPush, hb, if_true, hc, hw, Bool.false_eq_true, if_false,
                  hcl, hi]
              have hkey : ((g.lookup (x + (dirDelta d).1,
                  y + (dirDelta d).2)).isSome) = true := by
                cases hg : g.lookup (x + (dirDelta d).1, y + (dirDelta d).2) with
                | none => rw [hg] at hi; simp at hi
                | some m => simp
              rw [heq]
              rcases ih open_ g cf with ⟨o', g', cf', h1, h2, h3, h4, h5, h6, h7⟩ | h
              · left
                refine ⟨o', g', cf', h1, le_trans h2 (by simp), h3, h4, h5, h6, ?_⟩
                intro d2 hd2 hb2 cell2 hc2 hw2
                rcases List.mem_cons.mp hd2 with rfl | hd2
                · rcases lookup_isSome_key hkey with ⟨p, hp, hpk⟩
                  exact Or.inr ⟨p, h5 p hp, hpk⟩
                · exact h7 d2 hd2 hb2 cell2 (hc.trans hc2) hw2
              · exact absurd h.2 (by simp [hc])
    · have heq : expPush maze (mazeWidth maze) (mazeHeight maze) x y gCur closed
          (d :: rest) open_ g cf =
          expPush maze (mazeWidth maze) (mazeHeight maze) x y gCur closed
            rest open_ g cf := by
        simp only [expPush, hb, Bool.false_eq_true, if_false]
      rw [heq]
      rcases ih open_ g cf with ⟨o', g', cf', h1, h2, h3, h4, h5, h6, h7⟩ | h
      · left
        refine ⟨o', g', cf', h1, le_trans h2 (by simp), h3, h4, h5, h6, ?_⟩
        intro d2 hd2 hb2 cell2 hc2 hw2
        rcases List.mem_cons.mp hd2 with rfl | hd2
        · exact absurd hb2 (by simpa using hb)
        · exact h7 d2 hd2 hb2 cell2 hc2 hw2
      · exact Or.inr h

/-! ## A* exploration: loop invariant -/

/-- The `astarExplore` loop invariant: the closed set is duplicate-free, the
explored list is exactly the closed set minus the start in expansion order,
open and closed coordinates are in bounds (or the start) and reachable,
every `gScore` key is open or closed, every closed non-goal cell has been
expanded, and the start is closed or still the only open node. -/
def ExpInv (maze : Maze) (s : Coord) (ex ey : Int) (open_ : List ExpNode)
    (closed explored : List Coord) (g : List (Coord × Nat)) : Prop :=
  closed.Nodup ∧
  explored = closed.reverse.filter (fun c => decide (c ≠ s)) ∧
  (∀ c ∈ openCoords open_,
    c = s ∨ inBounds (mazeWidth maze) (mazeHeight maze) c.1 c.2 = true) ∧
  (∀ c ∈ closed,
    c = s ∨ inBounds (mazeWidth maze) (mazeHeight maze) c.1 c.2 = true) ∧
  (∀ c ∈ openCoords open_, Reachable maze s c) ∧
  (∀ c ∈ closed, Reachable maze s c) ∧
  (∀ p ∈ g, p.1 ∈ openCoords open_ ∨ p.1 ∈ closed) ∧
  (∀ c ∈ closed, c = (ex, ey) ∨
    ∀ c2, stepOk maze c c2 = true → c2 ∈ closed ∨ c2 ∈ openCoords open_) ∧
  (s ∈ closed ∨ (closed = [] ∧ openCoords open_ = [s]))

/-- Appending the popped coordinate to `explored` (unless it is the start)
matches the `closed`-set filter characterisation. -/
theorem explored_extend {s : Coord} {cx cy : Int} {closed explored : List Coord}
    (hexp : explored = closed.reverse.filter (fun c => decide (c ≠ s))) :
    (if cx = s.1 ∧ cy = s.2 then explored else explored ++ [((cx, cy) : Coord)]) =
      (((cx, cy) : Coord) :: closed).reverse.filter (fun c => decide (c ≠ s)) := by
  by_cases hcs : cx = s.1 ∧ cy = s.2
  · rw [if_pos hcs]
    have hce : ((cx, cy) : Coord) = s := by rw [hcs.1, hcs.2]
    rw [hexp]
    simp [List.filter_append, hce]
  · rw [if_neg hcs]
    have hne : ((cx, cy) : Coord) ≠ s := by
      intro he
      exact hcs ⟨congrArg Prod.fst he, congrArg Prod.snd he⟩
    rw [hexp]
    simp [List.filter_append, hne]

/-- The facts the `explored = closed minus start` characterisation yields. -/
theorem closedFilter_facts {s : Coord} {closed explored : List Coord}
    (hnd : closed.Nodup)
    (hexp : explored = closed.reverse.filter (fun c => decide (c ≠ s))) :
    explored.Nodup ∧ s ∉ explored ∧ (∀ c ∈ explored, c ∈ closed ∧ c ≠ s) ∧
      (∀ c ∈ closed, c = s ∨ c ∈ explored) := by
  subst hexp
  refine ⟨(List.nodup_reverse.mpr hnd).filter _, ?_, ?_, ?_⟩
  · intro hm
    rcases List.mem_filter.mp hm with ⟨_, hdec⟩
    simp at hdec
  · intro c hm
    rcases List.mem_filter.mp hm with ⟨hmem, hdec⟩
    exact ⟨List.mem_reverse.mp hmem, by simpa using hdec⟩
  · intro c hm
    by_cases hcs : c = s
    · exact Or.inl hcs
    · exact Or.inr (List.mem_filter.mpr ⟨List.mem_reverse.mpr hm, by simpa using hcs⟩)

/-- Skipping an already-closed popped node preserves the invariant. -/
theorem ExpInv.skip_exp {maze : Maze} {s : Coord} {ex ey : Int}
    {open_ : List ExpNode} {closed explored : List Coord} {g : List (Coord × Nat)}
    {current : ExpNode} {rest : List ExpNode}
    (hinv : ExpInv maze s ex ey open_ closed explored g)
    (hsort : sortBy (expLe ex ey) open_ = current :: rest)
    (hc : closed.contains (current.x, current.y) = true) :
    ExpInv maze s ex ey rest closed explored g := by
  obtain ⟨hnd, hexp, hob, hcb, hor, hcr, hg, hclosure, hstart⟩ := hinv
  have hp1 : (((current.x, current.y) : Coord) :: openCoords rest).Perm
      (openCoords open_) := by
    have h := (sortBy_perm (expLe ex ey) open_).map (fun n => (n.x, n.y))
    rw [hsort] at h
    exact h
  have hA : ∀ c ∈ openCoords rest, c ∈ openCoords open_ := by
    intro c hm
    exact hp1.subset (List.mem_cons_of_mem _ hm)
  have hB : ∀ c ∈ openCoords open_,
      c = ((current.x, current.y) : Coord) ∨ c ∈ openCoords rest := by
    intro c hm
    exact List.mem_cons.mp (hp1.symm.subset hm)
  refine ⟨hnd, hexp, fun c hm => hob c (hA c hm), hcb,
    fun c hm => hor c (hA c hm), hcr, ?_, ?_, ?_⟩
  · intro p hp
    rcases hg p hp with hm | hm
    · rcases hB p.1 hm with he | hm
      · exact Or.inr (by rw [he]; exact contains_iff_mem.mp hc)
      · exact Or.inl hm
    · exact Or.inr hm
  · intro c hm
    rcases hclosure c hm with h | h
    · exact Or.inl h
    · refine Or.inr ?_
      intro c2 hs2
      rcases h c2 hs2 with h2 | h2
      · exact Or.inl h2
      · rcases hB c2 h2 with rfl | h2
        · exact Or.inl (contains_iff_mem.mp hc)
        · exact Or.inr h2
  · rcases hstart with h | ⟨h1, _⟩
    · exact Or.inl h
    · rw [h1] at hc
      simp at hc

/-- Expanding a fresh non-goal popped node preserves the invariant. -/
theorem ExpInv.step_exp {maze : Maze} {s : Coord} {ex ey : Int}
    {open_ : List ExpNode} {closed explored : List Coord} {g : List (Coord × Nat)}
    {cf : List (Coord × Coord)} {current : ExpNode} {rest : List ExpNode}
    {open' : List ExpNode} {g' : List (Coord × Nat)} {cf' : List (Coord × Coord)}
    (hinv : ExpInv maze s ex ey open_ closed explored g)
    (hsort : sortBy (expLe ex ey) open_ = current :: rest)
    (hc : ¬ closed.contains (current.x, current.y) = true)
    (hp : expPush maze (mazeWidth maze) (mazeHeight maze) current.x current.y
        current.g ((current.x, current.y) :: closed) dirList rest g cf
      = .ok (open', g', cf')) :
    ExpInv maze s ex ey open' ((current.x, current.y) :: closed)
      (if current.x = s.1 ∧ current.y = s.2 then explored
       else explored ++ [(current.x, current.y)]) g' := by
  obtain ⟨hnd, hexp, hob, hcb, hor, hcr, hg, hclosure, hstart⟩ := hinv
  have hp1 : (((current.x, current.y) : Coord) :: openCoords rest).Perm
      (openCoords open_) := by
    have h := (sortBy_perm (expLe ex ey) open_).map (fun n => (n.x, n.y))
    rw [hsort] at h
    exact h
  have hA : ∀ c ∈ openCoords rest, c ∈ openCoords open_ := by
    intro c hm
    exact hp1.subset (List.mem_cons_of_mem _ hm)
  have hB : ∀ c ∈ openCoords open_,
      c = ((current.x, current.y) : Coord) ∨ c ∈ openCoords rest := by
    intro c hm
    exact List.mem_cons.mp (hp1.symm.subset hm)
  have hcur : ((current.x, current.y) : Coord) ∈ openCoords open_ :=
    hp1.subset (List.mem_cons_self _ _)
  have hfresh : ((current.x, current.y) : Coord) ∉ closed :=
    fun hm => hc (contains_iff_mem.mpr hm)
  have hcreach : Reachable maze s ((current.x, current.y) : Coord) :=
    hor _ hcur
  rcases expPush_spec maze current.x current.y current.g
      ((current.x, current.y) :: closed) dirList rest g cf with
    ⟨o2, g2, cf2, h1, h2, h3, h4, h5, h6, h7⟩ | ⟨h1, _⟩
  · rw [h1] at hp
    injection hp with hp
    injection hp with hpo hp
    injection hp with hpg _
    subst hpo
    subst hpg
    have hg'new : ∀ p ∈ g2, p.1 ∈ openCoords o2 ∨
        p.1 ∈ ((current.x, current.y) : Coord) :: closed := by
      intro p hpm
      rcases h6 p hpm with hm | hm
      · rcases hg p hm with hm2 | hm2
        · rcases hB p.1 hm2 with he | hm3
          · exact Or.inr (by rw [he]; exact List.mem_cons_self _ _)
          · exact Or.inl (h4 p.1 hm3)
        · exact Or.inr (List.mem_cons_of_mem _ hm2)
      · exact Or.inl hm.1
    refine ⟨List.nodup_cons.mpr ⟨hfresh, hnd⟩, explored_extend hexp, ?_, ?_, ?_, ?_,
      hg'new, ?_, ?_⟩
    · intro c hm
      rcases mem_openCoords.mp hm with ⟨n, hn, rfl⟩
      rcases h3 n hn with hm2 | hm2
      · exact hob _ (hA _ hm2)
      · exact Or.inr (stepOk_inBounds hm2.1)
    · intro c hm
      rcases List.mem_cons.mp hm with rfl | hm
      · exact hob _ hcur
      · exact hcb c hm
    · intro c hm
      rcases mem_openCoords.mp hm with ⟨n, hn, rfl⟩
      rcases h3 n hn with hm2 | hm2
      · exact hor _ (hA _ hm2)
      · exact hcreach.step_one hm2.1
    · intro c hm
      rcases List.mem_cons.mp hm with rfl | hm
      · exact hcreach
      · exact hcr c hm
    · intro c hm
      rcases List.mem_cons.mp hm with rfl | hm
      · refine Or.inr ?_
        intro c2 hs2
        rcases stepOk_iff.mp hs2 with ⟨d, he2, hb2, cell, hc2, hw2⟩
        have hd : d ∈ dirList := by cases d <;> simp [dirList]
        subst he2
        rcases h7 d hd hb2 cell hc2 hw2 with hm2 | ⟨p, hpm, hpk⟩
        · exact Or.inl hm2
        · rcases hg'new p hpm with hm3 | hm3
          · exact Or.inr (by rw [← hpk]; exact hm3)
          · exact Or.inl (by rw [← hpk]; exact hm3)
      · rcases hclosure c hm with h | h
        · exact Or.inl h
        · refine Or.inr ?_
          intro c2 hs2
          rcases h c2 hs2 with h2 | h2
          · exact Or.inl (List.mem_cons_of_mem _ h2)
          · rcases hB c2 h2 with rfl | h2
            · exact Or.inl (List.mem_cons_self _ _)
            · exact Or.inr (h4 c2 h2)
    · by_cases hcs : ((current.x, current.y) : Coord) = s
      · exact Or.inl (by rw [hcs]; exact List.mem_cons_self _ _)
      · rcases hstart with h | ⟨_, h2⟩
        · exact Or.inl (List.mem_cons_of_mem _ h)
        · rw [h2] at hcur
          exact absurd (List.mem_singleton.mp hcur) hcs
  · rw [h1] at hp
    cases hp

/-- Facts about any `ok` result of the `astarExplore` loop, given the
invariant. -/
theorem expLoop_facts (maze : Maze) (s : Coord) (ex ey : Int) :
    ∀ (fuel : Nat) (open_ : List ExpNode) (closed explored : List Coord)
      (g : List (Coord × Nat)) (cf : List (Coord × Coord)),
      ExpInv maze s ex ey open_ closed explored g →
      ∀ l g2 cf2,
        expLoop maze s.1 s.2 ex ey fuel open_ closed explored g cf = .ok (l, g2, cf2) →
        l.Nodup ∧ s ∉ l ∧ (∀ c ∈ l, Reachable maze s c ∧ c ≠ s) ∧
        (∀ p ∈ g2, Reachable maze s p.1) ∧
        (Reachable maze s (ex, ey) ∨
          (∀ c, Reachable maze s c → c = s ∨ c ∈ l)) := by
  intro fuel
  induction fuel with
  | zero =>
    intro open_ closed explored g cf hinv l g2 cf2 h
    cases h
  | succ fuel ih =>
    intro open_ closed explored g cf hinv l g2 cf2 h
    cases hsort : sortBy (expLe ex ey) open_ with
    | nil =>
      rw [expLoop_nil_eq maze s.1 s.2 ex ey fuel open_ closed explored g cf hsort] at h
      injection h with h
      obtain ⟨hnd, hexp, hob, hcb, hor, hcr, hg, hclosure, hstart⟩ := hinv
      have hopen : open_ = [] := sortBy_eq_nil_iff.mp hsort
      subst hopen
      have hl : explored = l := congrArg Prod.fst h
      have hgg : g = g2 := congrArg Prod.fst (congrArg Prod.snd h)
      subst hl
      subst hgg
      obtain ⟨f1, f2, f3, f4⟩ := closedFilter_facts hnd hexp
      refine ⟨f1, f2, ?_, ?_, ?_⟩
      · intro c hc
        obtain ⟨hcm, hcs⟩ := f3 c hc
        exact ⟨hcr c hcm, hcs⟩
      · intro p hp
        rcases hg p hp with hm | hm
        · simp [openCoords] at hm
        · exact hcr _ hm
      · by_cases hreach : Reachable maze s (ex, ey)
        · exact Or.inl hreach
        · refine Or.inr ?_
          have hsc : s ∈ closed := by
            rcases hstart with h2 | ⟨_, h2⟩
            · exact h2
            · simp [openCoords] at h2
          intro c hc
          have hcc : c ∈ closed := by
            refine Reachable.mem_closed (fun a => a ∈ closed) hsc ?_ hc
            intro a ha c2 hs2
            rcases hclosure a ha with h2 | h2
            · exact absurd (h2 ▸ hcr a ha) hreach
            · rcases h2 c2 hs2 with h3 | h3
              · exact h3
              · simp [openCoords] at h3
          exact f4 c hcc
    | cons current rest =>
      rw [expLoop_cons_eq maze s.1 s.2 ex ey fuel open_ closed explored g cf
        current rest hsort] at h
      by_cases hc : closed.contains (current.x, current.y)
      · rw [if_pos hc] at h
        exact ih rest closed explored g cf (hinv.skip_exp hsort hc) l g2 cf2 h
      · rw [if_neg hc] at h
        by_cases hgoal : current.x = ex ∧ current.y = ey
        · rw [if_pos hgoal] at h
          injection h with h
          obtain ⟨hnd, hexp, hob, hcb, hor, hcr, hg, hclosure, hstart⟩ := hinv
          have hp1 : (((current.x, current.y) : Coord) :: openCoords rest).Perm
              (openCoords open_) := by
            have h2 := (sortBy_perm (expLe ex ey) open_).map (fun n => (n.x, n.y))
            rw [hsort] at h2
            exact h2
          have hcur : ((current.x, current.y) : Coord) ∈ openCoords open_ :=
            hp1.subset (List.mem_cons_self _ _)
          have hfresh : ((current.x, current.y) : Coord) ∉ closed :=
            fun hm => hc (contains_iff_mem.mpr hm)
          have hcreach : Reachable maze s ((current.x, current.y) : Coord) :=
            hor _ hcur
          have hl : (if current.x = s.1 ∧ current.y = s.2 then explored
              else explored ++ [(current.x, current.y)]) = l := congrArg Prod.fst h
          have hgg : g = g2 := congrArg Prod.fst (congrArg Prod.snd h)
          subst hgg
          rw [explored_extend hexp] at hl
          obtain ⟨f1, f2, f3, _⟩ := closedFilter_facts
            (List.nodup_cons.mpr ⟨hfresh, hnd⟩) hl.symm
          refine ⟨f1, f2, ?_, ?_, Or.inl ?_⟩
          · intro c hcm
            obtain ⟨hcm2, hcs⟩ := f3 c hcm
            rcases List.mem_cons.mp hcm2 with rfl | hcm2
            · exact ⟨hcreach, hcs⟩
            · exact ⟨hcr c hcm2, hcs⟩
          · intro p hp
            rcases hg p hp with hm | hm
            · exact hor _ hm
            · exact hcr _ hm
          · have hce : ((current.x, current.y) : Coord) = (ex, ey) := by
              rw [hgoal.1, hgoal.2]
            rw [← hce]
            exact hcreach
        · rw [if_neg hgoal] at h
          cases hp : expPush maze (mazeWidth maze) (mazeHeight maze) current.x
              current.y current.g ((current.x, current.y) :: closed) dirList
              rest g cf with
          | ok t =>
            obtain ⟨o2, g3, cf3⟩ := t
            rw [hp] at h
            exact ih o2 ((current.x, current.y) :: closed) _ g3 cf3
              (hinv.step_exp hsort hc hp) l g2 cf2 h
          | typeError => rw [hp] at h; cases h
          | outOfFuel => rw [hp] at h; cases h

/-- With fuel exceeding the measure
`open.length + 5 * (W * H + 2 - closed.length)` the loop cannot exhaust. -/
theorem expLoop_no_fuel (maze : Maze) (s : Coord) (ex ey : Int) :
    ∀ (fuel : Nat) (open_ : List ExpNode) (closed explored : List Coord)
      (g : List (Coord × Nat)) (cf : List (Coord × Coord)),
      ExpInv maze s ex ey open_ closed explored g →
      open_.length + 5 * (mazeWidth maze * mazeHeight maze + 2 - closed.length)
        < fuel →
      expLoop maze s.1 s.2 ex ey fuel open_ closed explored g cf ≠ .outOfFuel := by
  intro fuel
  induction fuel with
  | zero =>
    intro open_ closed explored g cf _ hlt
    omega
  | succ fuel ih =>
    intro open_ closed explored g cf hinv hlt h
    cases hsort : sortBy (expLe ex ey) open_ with
    | nil =>
      rw [expLoop_nil_eq maze s.1 s.2 ex ey fuel open_ closed explored g cf hsort] at h
      cases h
    | cons current rest =>
      rw [expLoop_cons_eq maze s.1 s.2 ex ey fuel open_ closed explored g cf
        current rest hsort] at h
      have hlen : rest.length + 1 = open_.length := by
        have h2 := (sortBy_perm (expLe ex ey) open_).length_eq
        rw [hsort] at h2
        simpa using h2
      by_cases hc : closed.contains (current.x, current.y)
      · rw [if_pos hc] at h
        refine ih rest closed explored g cf (hinv.skip_exp hsort hc) ?_ h
        omega
      · rw [if_neg hc] at h
        by_cases hgoal : current.x = ex ∧ current.y = ey
        · rw [if_pos hgoal] at h
          cases h
        · rw [if_neg hgoal] at h
          cases hp : expPush maze (mazeWidth maze) (mazeHeight maze) current.x
              current.y current.g ((current.x, current.y) :: closed) dirList
              rest g cf with
          | ok t =>
            obtain ⟨o2, g3, cf3⟩ := t
            rw [hp] at h
            have hinv2 := hinv.step_exp hsort hc hp
            rcases expPush_spec maze current.x current.y current.g
                ((current.x, current.y) :: closed) dirList rest g cf with
              ⟨o2b, g3b, cf3b, h1, h2, _⟩ | ⟨h1, _⟩
            · rw [h1] at hp
              injection hp with hp
              injection hp with hpo hp
              subst hpo
              have hcl2 : ((current.x, current.y) :: closed).length ≤
                  mazeWidth maze * mazeHeight maze + 1 :=
                length_le_of_nodup_bounds hinv2.1 hinv2.2.2.2.1
              refine ih o2b ((current.x, current.y) :: closed) _ g3 cf3 hinv2 ?_ h
              have hd4 : dirList.length = 4 := rfl
              rw [hd4] at h2
              simp only [List.length_cons] at hcl2 ⊢
              generalize hK : mazeWidth maze * mazeHeight maze = K at hlt hcl2 ⊢
              omega
            · rw [h1] at hp
              cases hp
          | typeError => rw [hp] at h; cases h
          | outOfFuel =>
            rcases expPush_spec maze current.x current.y current.g
                ((current.x, current.y) :: closed) dirList rest g cf with
              ⟨o2b, g3b, cf3b, h1, _⟩ | ⟨h1, _⟩
            · rw [h1] at hp
              cases hp
            · rw [h1] at hp
              cases hp

/-- On a rectangular grid with an in-bounds start the loop never throws. -/
theorem expLoop_no_typeError (maze : Maze) (s : Coord) (ex ey : Int)
    (hr : Rect maze)
    (hs : inBounds (mazeWidth maze) (mazeHeight maze) s.1 s.2 = true) :
    ∀ (fuel : Nat) (open_ : List ExpNode) (closed explored : List Coord)
      (g : List (Coord × Nat)) (cf : List (Coord × Coord)),
      ExpInv maze s ex ey open_ closed explored g →
      expLoop maze s.1 s.2 ex ey fuel open_ closed explored g cf ≠ .typeError := by
  intro fuel
  induction fuel with
  | zero =>
    intro open_ closed explored g cf _ h
    cases h
  | succ fuel ih =>
    intro open_ closed explored g cf hinv h
    cases hsort : sortBy (expLe ex ey) open_ with
    | nil =>
      rw [expLoop_nil_eq maze s.1 s.2 ex ey fuel open_ closed explored g cf hsort] at h
      cases h
    | cons current rest =>
      rw [expLoop_cons_eq maze s.1 s.2 ex ey fuel open_ closed explored g cf
        current rest hsort] at h
      by_cases hc : closed.contains (current.x, current.y)
      · rw [if_pos hc] at h
        exact ih rest closed explored g cf (hinv.skip_exp hsort hc) h
      · rw [if_neg hc] at h
        by_cases hgoal : current.x = ex ∧ current.y = ey
        · rw [if_pos hgoal] at h
          cases h
        · rw [if_neg hgoal] at h
          have hcur : ((current.x, current.y) : Coord) ∈ openCoords open_ := by
            have hp1 := (sortBy_perm (expLe ex ey) open_).map (fun n => (n.x, n.y))
            rw [hsort] at hp1
            exact hp1.subset (List.mem_cons_self _ _)
          have hbnd : inBounds (mazeWidth maze) (mazeHeight maze)
              current.x current.y = true := by
            rcases hinv.2.2.1 _ hcur with he | hb
            · have h1 : current.x = s.1 := congrArg Prod.fst he
              have h2 : current.y = s.2 := congrArg Prod.snd he
              rw [h1, h2]
              exact hs
            · exact hb
          obtain ⟨cell, hcell⟩ := cellAt_isSome_of_inBounds hr hbnd
          cases hp : expPush maze (mazeWidth maze) (mazeHeight maze) current.x
              current.y current.g ((current.x, current.y) :: closed) dirList
              rest g cf with
          | ok t =>
            obtain ⟨o2, g3, cf3⟩ := t
            rw [hp] at h
            exact ih o2 ((current.x, current.y) :: closed) _ g3 cf3
              (hinv.step_exp hsort hc hp) h
          | typeError =>
            rcases expPush_spec maze current.x current.y current.g
                ((current.x, current.y) :: closed) dirList rest g cf with
              ⟨o2b, g3b, cf3b, h1, _⟩ | ⟨h1, hnone⟩
            · rw [h1] at hp
              cases hp
            · rw [hnone] at hcell
              cases hcell
          | outOfFuel => rw [hp] at h; cases h

/-- The invariant holds at the start of `astarExplore`. -/
theorem expInv_init (maze : Maze) (s : Coord) (ex ey : Int) :
    ExpInv maze s ex ey [⟨s.1, s.2, 0⟩] [] [] [((s.1, s.2), 0)] := by
  refine ⟨List.nodup_nil, rfl, ?_, by simp, ?_, by simp, ?_, by simp, Or.inr ⟨rfl, ?_⟩⟩
  · intro c hc
    simp [openCoords] at hc
    exact Or.inl (by rw [hc])
  · intro c hc
    simp [openCoords] at hc
    rw [hc]
    exact Reachable.refl _ _
  · intro p hp
    rcases List.mem_singleton.mp hp with rfl
    simp [openCoords]
  · simp [openCoords]

/-- `astarExplore` on a rectangular grid with an in-bounds start and an
unreachable goal returns the full reachable component minus the start and an
empty reconstructed path. -/
theorem astarExplore_results_unreachable (maze : Maze) (s : Coord) (ex ey : Int)
    (hr : Rect maze)
    (hs : inBounds (mazeWidth maze) (mazeHeight maze) s.1 s.2 = true)
    (hur : ¬ Reachable maze s (ex, ey)) :
    ∃ l, astarExplore s.1 s.2 ex ey maze = .ok ⟨l, []⟩ ∧
      l.Nodup ∧ s ∉ l ∧ (∀ c ∈ l, Reachable maze s c ∧ c ≠ s) ∧
      (∀ c, Reachable maze s c → c = s ∨ c ∈ l) := by
  have hinit := expInv_init maze s ex ey
  have hfuel : ([⟨s.1, s.2, 0⟩] : List ExpNode).length +
      5 * (mazeWidth maze * mazeHeight maze + 2 - ([] : List Coord).length)
      < astarFuel maze := by
    simp [astarFuel]
    omega
  have h1 := expLoop_no_fuel maze s ex ey (astarFuel maze) _ _ _ _ [] hinit hfuel
  have h2 := expLoop_no_typeError maze s ex ey hr hs (astarFuel maze) _ _ _ _ [] hinit
  cases hres : expLoop maze s.1 s.2 ex ey (astarFuel maze)
      [⟨s.1, s.2, 0⟩] [] [] [((s.1, s.2), 0)] [] with
  | ok t =>
    obtain ⟨l, g2, cf2⟩ := t
    obtain ⟨f1, f2, f3, fg, f5⟩ := expLoop_facts maze s ex ey (astarFuel maze)
      _ _ _ _ [] hinit l g2 cf2 hres
    have hcomplete : ∀ c, Reachable maze s c → c = s ∨ c ∈ l := by
      rcases f5 with h | h
      · exact absurd h hur
      · exact h
    have hnog : ((g2.lookup (ex, ey)).isSome) = false := by
      cases hg : (g2.lookup (ex, ey)).isSome with
      | false => rfl
      | true =>
        rcases lookup_isSome_key hg with ⟨p, hp, hpk⟩
        exact absurd (hpk ▸ fg p hp) hur
    refine ⟨l, ?_, f1, f2, f3, hcomplete⟩
    rw [astarExplore, hres]
    have h3 : (if (g2.lookup (ex, ey)).isSome then
        match walkBack cf2 (s.1, s.2) (cf2.length + 1) (ex, ey) [] with
        | some acc => JsResult.ok (⟨l, acc.reverse⟩ : ExpResult)
        | none => .outOfFuel
      else .ok ⟨l, []⟩) = JsResult.ok (⟨l, []⟩ : ExpResult) := by
      rw [hnog]
      simp
    exact h3
  | typeError => exact absurd hres h2
  | outOfFuel => exact absurd hres h1

/-! ## Claim C7: unreachable goal -/

/-- A finite step-closed set separating `t` from `s` refutes reachability;
the closure condition only quantifies over the four moves, so on concrete
data it is decidable. -/
theorem not_reachable_of_closed (maze : Maze) (s t : Coord) (S : List Coord)
    (hs : s ∈ S) (ht : t ∉ S)
    (hcl : ∀ c ∈ S, ∀ d ∈ dirList,
      stepOk maze c (moveTo c d) = false ∨ moveTo c d ∈ S) :
    ¬ Reachable maze s t := by
  intro h
  refine ht (Reachable.mem_closed (fun c => c ∈ S) hs ?_ h)
  intro c hc c2 hs2
  rcases stepOk_iff.mp hs2 with ⟨d, he, _⟩
  subst he
  have hd : d ∈ dirList := by cases d <;> simp [dirList]
  rcases hcl c hc d hd with hf | hm
  · rw [hf] at hs2
    cases hs2
  · exact hm

/-- C7: on a rectangular grid with an in-bounds start whose goal is
unreachable, every path-mode strategy returns the empty sequence, while every
explore-mode strategy returns a duplicate-free sequence containing exactly
the coordinates reachable from the start other than the start itself — in
particular it is not the empty sequence whenever the reachable component has
more than one cell. -/
theorem C7_unreachable_goal (maze : Maze) (sx sy ex ey : Int) (hr : Rect maze)
    (hs : inBounds (mazeWidth maze) (mazeHeight maze) sx sy = true)
    (hur : ¬ Reachable maze (sx, sy) (ex, ey)) :
    findPath sx sy ex ey SearchMethod.DFS maze = .ok [] ∧
    findPath sx sy ex ey SearchMethod.BFS maze = .ok [] ∧
    findPath sx sy ex ey SearchMethod.ASTAR maze = .ok [] ∧
    (∀ method ∈ [SearchMethod.DFS_EXPLORE, SearchMethod.BFS_EXPLORE,
        SearchMethod.ASTAR_EXPLORE],
      ∃ l, findPath sx sy ex ey method maze = .ok l ∧ l.Nodup ∧
        (∀ c, c ∈ l ↔ (Reachable maze (sx, sy) c ∧ c ≠ (sx, sy))) ∧
        ((∃ c, Reachable maze (sx, sy) c ∧ c ≠ (sx, sy)) → l ≠ [])) := by
  have hz : ¬ maze.length = 0 := by
    have := mazeHeight_pos_of_inBounds hs
    simp only [mazeHeight] at this
    omega
  have hexplore : ∀ (l : List Coord), l.Nodup → (sx, sy) ∉ l →
      (∀ c ∈ l, Reachable maze (sx, sy) c ∧ c ≠ (sx, sy)) →
      (Reachable maze (sx, sy) (ex, ey) ∨
        (∀ c, Reachable maze (sx, sy) c → c = (sx, sy) ∨ c ∈ l)) →
      l.Nodup ∧ (∀ c, c ∈ l ↔ (Reachable maze (sx, sy) c ∧ c ≠ (sx, sy))) ∧
        ((∃ c, Reachable maze (sx, sy) c ∧ c ≠ (sx, sy)) → l ≠ []) := by
    intro l hnd hnm hmem hcomp
    have hcomp2 : ∀ c, Reachable maze (sx, sy) c → c = (sx, sy) ∨ c ∈ l := by
      rcases hcomp with h | h
      · exact absurd h hur
      · exact h
    have hiff : ∀ c, c ∈ l ↔ (Reachable maze (sx, sy) c ∧ c ≠ (sx, sy)) := by
      intro c
      constructor
      · exact hmem c
      · rintro ⟨hc, hcs⟩
        rcases hcomp2 c hc with rfl | h
        · exact absurd rfl hcs
        · exact h
    refine ⟨hnd, hiff, ?_⟩
    rintro ⟨c, hc, hcs⟩ hnil
    have := (hiff c).mpr ⟨hc, hcs⟩
    rw [hnil] at this
    cases this
  refine ⟨?_, ?_, ?_, ?_⟩
  · have hu : findPath sx sy ex ey SearchMethod.DFS maze =
        dfs sx sy ex ey maze := by
      rw [findPath.eq_def, if_neg hz]
    obtain ⟨l, hl, hfacts⟩ := dfs_results maze (sx, sy) ex ey hr hs
    have hl2 : dfs sx sy ex ey maze = .ok l := hl
    rcases hfacts with rfl | ⟨hvp, _⟩
    · rw [hu, hl2]
    · exact absurd ⟨l, hvp⟩ hur
  · have hu : findPath sx sy ex ey SearchMethod.BFS maze =
        bfs sx sy ex ey maze := by
      rw [findPath.eq_def, if_neg hz]
    obtain ⟨l, hl, hfacts⟩ := bfs_results maze (sx, sy) ex ey hr hs
    have hl2 : bfs sx sy ex ey maze = .ok l := hl
    rcases hfacts with rfl | ⟨hvp, _⟩
    · rw [hu, hl2]
    · exact absurd ⟨l, hvp⟩ hur
  · have hu : findPath sx sy ex ey SearchMethod.ASTAR maze =
        astar sx sy ex ey maze := by
      rw [findPath.eq_def, if_neg hz]
    obtain ⟨l, hl, hfacts⟩ := astar_results maze (sx, sy) ex ey hr hs
    have hl2 : astar sx sy ex ey maze = .ok l := hl
    rcases hfacts with rfl | ⟨hvp, _⟩
    · rw [hu, hl2]
    · exact absurd ⟨l, hvp⟩ hur
  · intro method hm
    simp only [List.mem_cons, List.mem_singleton, List.not_mem_nil, or_false] at hm
    rcases hm with rfl | rfl | rfl
    · have hu : findPath sx sy ex ey SearchMethod.DFS_EXPLORE maze =
          dfsExplore sx sy ex ey maze := by
        rw [findPath.eq_def, if_neg hz]
      obtain ⟨l, hl, hnd, hnm, hmem, hcomp⟩ := dfsExplore_results maze (sx, sy)
        ex ey hr hs
      have hl2 : dfsExplore sx sy ex ey maze = .ok l := hl
      obtain ⟨f1, f2, f3⟩ := hexplore l hnd hnm hmem hcomp
      exact ⟨l, by rw [hu, hl2], f1, f2, f3⟩
    · have hu : findPath sx sy ex ey SearchMethod.BFS_EXPLORE maze =
          bfsExplore sx sy ex ey maze := by
        rw [findPath.eq_def, if_neg hz]
      obtain ⟨l, hl, hnd, hnm, hmem, hcomp⟩ := bfsExplore_results maze (sx, sy)
        ex ey hr hs
      have hl2 : bfsExplore sx sy ex ey maze = .ok l := hl
      obtain ⟨f1, f2, f3⟩ := hexplore l hnd hnm hmem hcomp
      exact ⟨l, by rw [hu, hl2], f1, f2, f3⟩
    · obtain ⟨l, hl, hnd, hnm, hmem, hcomp⟩ :=
        astarExplore_results_unreachable maze (sx, sy) ex ey hr hs hur
      have hl2 : astarExplore sx sy ex ey maze = .ok ⟨l, []⟩ := hl
      have hu : findPath sx sy ex ey SearchMethod.ASTAR_EXPLORE maze =
          (match astarExplore sx sy ex ey maze with
           | .ok r => JsResult.ok r.explored
           | .typeError => .typeError
           | .outOfFuel => .outOfFuel) := by
        rw [findPath.eq_def, if_neg hz]
      obtain ⟨f1, f2, f3⟩ := hexplore l hnd hnm hmem (Or.inr hcomp)
      refine ⟨l, ?_, f1, f2, f3⟩
      rw [hu, hl2]

/-- Concrete instance of C7: a 2-by-1 grid whose only passage is blocked by
an east wall on the start cell. -/
theorem C7_witness :
    findPath 0 0 1 0 SearchMethod.BFS
      [[⟨false, true, false, false⟩, ⟨false, false, false, false⟩]] = .ok [] :=
  (C7_unreachable_goal [[⟨false, true, false, false⟩, ⟨false, false, false, false⟩]]
    0 0 1 0
    (by intro row hrow; rcases List.mem_singleton.mp hrow with rfl; rfl)
    (by decide)
    (not_reachable_of_closed _ (0, 0) (1, 0) [(0, 0)] (by decide) (by decide)
      (by decide))).2.1

/-! ## BFS optimality -/

/-- The number of moves of a queued node's path (`path.slice(1).length`). -/
def nodeDepth (n : SearchNode) : Nat := n.path.tail.length

/-- Splitting the last move off a nonempty wall-respecting path. -/
theorem ValidPath.snoc_elim {maze : Maze} {s c : Coord} {p : List Coord}
    (hv : ValidPath maze s c p) (hne : p ≠ []) :
    ∃ p', p = p' ++ [c] ∧ ValidPath maze s (lastC s p') p' ∧
      stepOk maze (lastC s p') c = true := by
  rcases List.eq_nil_or_concat p with rfl | ⟨p', a, rfl⟩
  · exact absurd rfl hne
  · rw [List.concat_eq_append] at hv
    obtain ⟨hc, hl⟩ := hv
    rw [lastC_append_single] at hl
    subst hl
    rw [chainOk_append_single, Bool.and_eq_true] at hc
    refine ⟨p', ?_, ⟨hc.1, rfl⟩, hc.2⟩
    rw [List.concat_eq_append]

/-- A list whose elements are all one value is pairwise related by any
reflexive-at-that-value relation. -/
theorem pairwise_of_const {α : Type} {R : α → α → Prop} {l : List α} {v : α}
    (hall : ∀ x ∈ l, x = v) (hv : R v v) : l.Pairwise R := by
  induction l with
  | nil => exact List.Pairwise.nil
  | cons a as ih =>
    refine List.Pairwise.cons ?_ (ih (fun x hx => hall x (List.mem_cons_of_mem _ hx)))
    intro b hb
    rw [hall a (List.mem_cons_self _ _), hall b (List.mem_cons_of_mem _ hb)]
    exact hv

/-- The strengthened BFS invariant for the shortest-path proof: in addition
to well-formedness, queue depths are non-decreasing and span at most two
consecutive levels, every queued path is optimal for its endpoint, every
visited cell is queued or fully expanded, every cell closer than the queue
front is already visited, and a visited goal is still queued. -/
def BfsOptInv (maze : Maze) (s : Coord) (ex ey : Int) (queue : List SearchNode)
    (visited : List Coord) : Prop :=
  BfsInv maze s queue visited ∧
  s ∈ visited ∧
  (queue.map nodeDepth).Pairwise (fun a b => a ≤ b ∧ b ≤ a + 1) ∧
  (∀ n ∈ queue, ∀ p, ValidPath maze s (n.x, n.y) p → nodeDepth n ≤ p.length) ∧
  (∀ c ∈ visited, (∃ n ∈ queue, (n.x, n.y) = c) ∨
    (∀ c2, stepOk maze c c2 = true → c2 ∈ visited)) ∧
  (∀ c p, ValidPath maze s c p →
    (∀ n, queue.head? = some n → p.length < nodeDepth n) → c ∈ visited) ∧
  ((ex, ey) ∈ visited → ∃ n ∈ queue, (n.x, n.y) = (ex, ey))

/-- At expansion time every cell within the front node's depth is already
visited. -/
theorem bfsOpt_close_visited {maze : Maze} {s : Coord} {ex ey : Int}
    {node : SearchNode} {queue : List SearchNode} {visited : List Coord}
    (hinv : BfsOptInv maze s ex ey (node :: queue) visited) :
    ∀ c p, ValidPath maze s c p → p.length ≤ nodeDepth node → c ∈ visited := by
  obtain ⟨hbfs, hsv, hpair, hopt, hcl, hnear, hgoal⟩ := hinv
  intro c p hv hlen
  by_cases hlt : p.length < nodeDepth node
  · refine hnear c p hv ?_
    intro n hn
    injection hn with hn
    rw [← hn]
    exact hlt
  · rcases eq_or_ne p [] with rfl | hne
    · have hcs : s = c := by simpa [lastC] using hv.2
      rw [← hcs]
      exact hsv
    · obtain ⟨p', hpe, hv', hstep⟩ := hv.snoc_elim hne
      have hlen' : p'.length < nodeDepth node := by
        rw [hpe] at hlen
        simp only [List.length_append, List.length_cons, List.length_nil] at hlen
        omega
      have hc' : lastC s p' ∈ visited := by
        refine hnear _ p' hv' ?_
        intro n hn
        injection hn with hn
        rw [← hn]
        exact hlen'
      rcases hcl _ hc' with ⟨m, hm, hmc⟩ | hclosed
      · exfalso
        have hmd : nodeDepth node ≤ nodeDepth m := by
          rcases List.mem_cons.mp hm with rfl | hm2
          · exact le_refl _
          · simp only [List.map_cons] at hpair
            have := (List.pairwise_cons.mp hpair).1 (nodeDepth m)
              (List.mem_map.mpr ⟨m, hm2, rfl⟩)
            exact this.1
        have hom := hopt m hm p' (by rw [hmc]; exact hv')
        omega
      · rw [hpe] at hv
        obtain ⟨hcchain, hclast⟩ := hv
        exact hclosed c hstep

/-- Expanding the dequeued node preserves the strengthened invariant. -/
theorem BfsOptInv.step_opt {maze : Maze} {s : Coord} {ex ey : Int}
    {node : SearchNode} {queue queue' news : List SearchNode}
    {visited visited' : List Coord}
    (hinv : BfsOptInv maze s ex ey (node :: queue) visited)
    (hgneq : ¬(node.x = ex ∧ node.y = ey))
    (hqe : queue' = queue ++ news)
    (hve : visited' = (news.map SearchNode.coord).reverse ++ visited)
    (hnodup : (news.map SearchNode.coord).Nodup)
    (hnews : ∀ n ∈ news, n.path = node.path ++ [(n.x, n.y)] ∧
      stepOk maze (node.x, node.y) (n.x, n.y) = true ∧ (n.x, n.y) ∉ visited)
    (h7c : ∀ d ∈ dirList, inBounds (mazeWidth maze) (mazeHeight maze)
        (moveTo (node.x, node.y) d).1 (moveTo (node.x, node.y) d).2 = true →
      ∀ cell, cellAt maze node.x node.y = some cell → dirWall d cell = false →
        moveTo (node.x, node.y) d ∈ visited') :
    BfsOptInv maze s ex ey queue' visited' := by
  have hkey := bfsOpt_close_visited hinv
  obtain ⟨hbfs, hsv, hpair, hopt, hcl, hnear, hgoal⟩ := hinv
  obtain ⟨hnodeok, hnodevis⟩ := hbfs.1 node (List.mem_cons_self _ _)
  obtain ⟨q0, hq0, _, _, _, _⟩ := hnodeok
  have hvsub : ∀ c ∈ visited, c ∈ visited' := by
    intro c hc
    rw [hve]
    exact List.mem_append_right _ hc
  have hdnews : ∀ n ∈ news, nodeDepth n = nodeDepth node + 1 := by
    intro n hn
    have hp := (hnews n hn).1
    have h1 : nodeDepth n = node.path.length := by
      rw [nodeDepth, hp, List.length_tail]
      simp
    have h2 : nodeDepth node = node.path.length - 1 := by
      rw [nodeDepth, List.length_tail]
    rw [h1, h2, hq0]
    simp
  simp only [List.map_cons] at hpair
  obtain ⟨hpairhead, hpairtail⟩ := List.pairwise_cons.mp hpair
  have hqd : ∀ m ∈ queue, nodeDepth node ≤ nodeDepth m ∧
      nodeDepth m ≤ nodeDepth node + 1 := by
    intro m hm
    exact hpairhead (nodeDepth m) (List.mem_map.mpr ⟨m, hm, rfl⟩)
  have hnewopt : ∀ n ∈ news, ∀ p, ValidPath maze s (n.x, n.y) p →
      nodeDepth n ≤ p.length := by
    intro n hn p hv
    rw [hdnews n hn]
    by_contra hcon
    have hple : p.length ≤ nodeDepth node := by omega
    exact (hnews n hn).2.2 (hkey _ p hv hple)
  have hq'd : ∀ m ∈ queue', nodeDepth m ≤ nodeDepth node + 1 := by
    intro m hm
    rw [hqe] at hm
    rcases List.mem_append.mp hm with hm | hm
    · exact (hqd m hm).2
    · exact le_of_eq (hdnews m hm)
  have hclosure' : ∀ c ∈ visited', (∃ n ∈ queue', (n.x, n.y) = c) ∨
      (∀ c2, stepOk maze c c2 = true → c2 ∈ visited') := by
    intro c hc
    rw [hve] at hc
    rcases List.mem_append.mp hc with hc | hc
    · rw [List.mem_reverse] at hc
      rcases List.mem_map.mp hc with ⟨n, hn, rfl⟩
      exact Or.inl ⟨n, by rw [hqe]; exact List.mem_append_right _ hn, rfl⟩
    · rcases hcl c hc with ⟨m, hm, hmc⟩ | hclosed
      · rcases List.mem_cons.mp hm with rfl | hm2
        · refine Or.inr ?_
          intro c2 hs2
          rcases stepOk_iff.mp hs2 with ⟨d, he2, hb2, cell, hc2, hw2⟩
          have hd : d ∈ dirList := by cases d <;> simp [dirList]
          subst he2
          rw [← hmc]
          exact h7c d hd (by rw [hmc]; exact hb2) cell (by rw [← hmc] at hc2; exact hc2)
            hw2
        · exact Or.inl ⟨m, by rw [hqe]; exact List.mem_append_left _ hm2, hmc⟩
      · exact Or.inr (fun c2 hs2 => hvsub _ (hclosed c2 hs2))
  refine ⟨hbfs.step_bfs hqe hve hnodup hnews, hvsub _ hsv, ?_, ?_, hclosure', ?_, ?_⟩
  · rw [hqe, List.map_append]
    rw [List.pairwise_append]
    refine ⟨hpairtail, ?_, ?_⟩
    · refine pairwise_of_const (v := nodeDepth node + 1) ?_ ⟨le_refl _, by omega⟩
      intro x hx
      rcases List.mem_map.mp hx with ⟨n, hn, rfl⟩
      exact hdnews n hn
    · intro a ha b hb
      rcases List.mem_map.mp ha with ⟨m, hm, rfl⟩
      rcases List.mem_map.mp hb with ⟨n, hn, rfl⟩
      rw [hdnews n hn]
      obtain ⟨h1, h2⟩ := hqd m hm
      exact ⟨h2, by omega⟩
  · intro n hn p hv
    rw [hqe] at hn
    rcases List.mem_append.mp hn with hn | hn
    · exact hopt n (List.mem_cons_of_mem _ hn) p hv
    · exact hnewopt n hn p hv
  · intro c p hv hprem
    cases hq1 : queue' with
    | nil =>
      have hreach : Reachable maze s c := ⟨p, hv⟩
      refine Reachable.mem_closed (fun a => a ∈ visited') (hvsub _ hsv) ?_ hreach
      intro a ha c2 hs2
      rcases hclosure' a ha with ⟨n, hn, _⟩ | hclosed
      · rw [hq1] at hn
        cases hn
      · exact hclosed c2 hs2
    | cons n1 t1 =>
      have hlt : p.length < nodeDepth n1 := by
        refine hprem n1 ?_
        rw [hq1]
        rfl
      have hn1 : n1 ∈ queue' := by
        rw [hq1]
        exact List.mem_cons_self _ _
      have hple : p.length ≤ nodeDepth node := by
        have := hq'd n1 hn1
        omega
      exact hvsub _ (hkey c p hv hple)
  · intro hgv
    rw [hve] at hgv
    rcases List.mem_append.mp hgv with hgv | hgv
    · rw [List.mem_reverse] at hgv
      rcases List.mem_map.mp hgv with ⟨n, hn, hne⟩
      exact ⟨n, by rw [hqe]; exact List.mem_append_right _ hn, hne⟩
    · rcases hgoal hgv with ⟨m, hm, hmc⟩
      rcases List.mem_cons.mp hm with rfl | hm2
      · exact absurd ⟨congrArg Prod.fst hmc, congrArg Prod.snd hmc⟩ hgneq
      · exact ⟨m, by rw [hqe]; exact List.mem_append_left _ hm2, hmc⟩

/-- Any `ok` result of the BFS loop under the strengthened invariant is a
shortest path when the goal is reachable. -/
theorem bfsLoop_opt (maze : Maze) (s : Coord) (ex ey : Int) :
    ∀ (fuel : Nat) (queue : List SearchNode) (visited : List Coord),
      BfsOptInv maze s ex ey queue visited →
      Reachable maze s (ex, ey) →
      ∀ l, bfsLoop maze ex ey fuel queue visited = .ok l →
        ValidPath maze s (ex, ey) l ∧
        ∀ p, ValidPath maze s (ex, ey) p → l.length ≤ p.length := by
  intro fuel
  induction fuel with
  | zero => intro queue visited _ _ l h; cases h
  | succ fuel ih =>
    intro queue visited hinv hreach l h
    match queue with
    | [] =>
      exfalso
      obtain ⟨p, hp⟩ := hreach
      have hgv : (ex, ey) ∈ visited := hinv.2.2.2.2.2.1 _ p hp
        (by intro n hn; cases hn)
      rcases hinv.2.2.2.2.2.2 hgv with ⟨n, hn, _⟩
      cases hn
    | node :: queue =>
      by_cases hg : node.x = ex ∧ node.y = ey
      · simp only [bfsLoop] at h
        rw [if_pos hg] at h
        obtain ⟨⟨q, h1, h2, h3, h4, _⟩, _⟩ := hinv.1.1 node (List.mem_cons_self _ _)
        have hl : l = q := by
          injection h with h
          rw [← h, h1]
          rfl
        subst hl
        have hce : ((node.x, node.y) : Coord) = (ex, ey) := by rw [hg.1, hg.2]
        constructor
        · exact ⟨h2, by rw [h3, hce]⟩
        · intro p hp
          have hle := hinv.2.2.2.1 node (List.mem_cons_self _ _) p
            (by rw [hce]; exact hp)
          have hd : nodeDepth node = l.length := by
            rw [nodeDepth, h1]
            rfl
          rw [← hd]
          exact hle
      · simp only [bfsLoop] at h
        rw [if_neg hg] at h
        rcases bfsPush_spec maze node.x node.y node.path dirList queue visited with
          ⟨news, q', v', hp, hqe, hve, hlen, hnodup, hnews, h7c⟩ | ⟨hp, _⟩
        · rw [hp] at h
          exact ih q' v' (hinv.step_opt hg hqe hve hnodup hnews h7c) hreach l h
        · rw [hp] at h
          cases h

/-- The strengthened BFS invariant holds initially. -/
theorem bfsOptInv_init (maze : Maze) (s : Coord) (ex ey : Int) :
    BfsOptInv maze s ex ey [⟨s.1, s.2, [s]⟩] [s] := by
  refine ⟨bfsInv_init maze s, List.mem_singleton.mpr rfl, by simp, ?_, ?_, ?_, ?_⟩
  · intro n hn p hv
    rcases List.mem_singleton.mp hn with rfl
    simp [nodeDepth]
  · intro c hc
    rcases List.mem_singleton.mp hc with rfl
    exact Or.inl ⟨⟨c.1, c.2, [c]⟩, List.mem_singleton.mpr rfl, rfl⟩
  · intro c p hv hprem
    have := hprem ⟨s.1, s.2, [s]⟩ rfl
    simp [nodeDepth] at this
  · intro hgv
    have hge := List.mem_singleton.mp hgv
    exact ⟨⟨s.1, s.2, [s]⟩, List.mem_singleton.mpr rfl, by rw [hge]⟩

/-- C2: on a rectangular grid, with start inside the grid and the goal
reachable from it, `findPath` with strategy BFS returns a wall-respecting
path from start to goal of minimum length (every legal move costing 1). -/
theorem C2_bfs_shortest (maze : Maze) (sx sy ex ey : Int) (hr : Rect maze)
    (hs : inBounds (mazeWidth maze) (mazeHeight maze) sx sy = true)
    (hreach : Reachable maze (sx, sy) (ex, ey)) :
    ∃ l, findPath sx sy ex ey SearchMethod.BFS maze = .ok l ∧
      ValidPath maze (sx, sy) (ex, ey) l ∧
      ∀ p, ValidPath maze (sx, sy) (ex, ey) p → l.length ≤ p.length := by
  have hz : ¬ maze.length = 0 := by
    have := mazeHeight_pos_of_inBounds hs
    simp only [mazeHeight] at this
    omega
  have hu : findPath sx sy ex ey SearchMethod.BFS maze = bfs sx sy ex ey maze := by
    rw [findPath.eq_def, if_neg hz]
  have hinit := bfsInv_init maze (sx, sy)
  have hfuel : ([⟨sx, sy, [((sx, sy) : Coord)]⟩] : List SearchNode).length +
      (mazeWidth maze * mazeHeight maze + 2 - ([((sx, sy) : Coord)] : List Coord).length)
      < bfsFuel maze := by
    simp [bfsFuel]
    omega
  have h1 := bfsLoop_no_fuel maze (sx, sy) ex ey (bfsFuel maze) _ _ hinit hfuel
  have h2 := bfsLoop_no_typeError maze (sx, sy) ex ey hr hs (bfsFuel maze) _ _ hinit
  cases hres : bfsLoop maze ex ey (bfsFuel maze) [⟨sx, sy, [(sx, sy)]⟩] [(sx, sy)] with
  | ok l =>
    have hopt := bfsLoop_opt maze (sx, sy) ex ey (bfsFuel maze) _ _
      (bfsOptInv_init maze (sx, sy) ex ey) hreach l hres
    refine ⟨l, ?_, hopt⟩
    rw [hu]
    exact hres
  | typeError => exact absurd hres h2
  | outOfFuel => exact absurd hres h1

/-- Concrete instance of C2: a 2-by-1 open grid. -/
theorem C2_witness :
    ∃ l, findPath 0 0 1 0 SearchMethod.BFS
        [[⟨false, false, false, false⟩, ⟨false, false, false, false⟩]] = .ok l ∧
      ValidPath [[⟨false, false, false, false⟩, ⟨false, false, false, false⟩]]
        (0, 0) (1, 0) l ∧
      ∀ p, ValidPath [[⟨false, false, false, false⟩, ⟨false, false, false, false⟩]]
        (0, 0) (1, 0) p → l.length ≤ p.length :=
  C2_bfs_shortest [[⟨false, false, false, false⟩, ⟨false, false, false, false⟩]]
    0 0 1 0
    (by intro row hrow; rcases List.mem_singleton.mp hrow with rfl; rfl)
    (by decide)
    ⟨[(1, 0)], ⟨by decide, by decide⟩⟩

/-! ## A* optimality: helpers -/

/-- An association list without the key looks it up to `none`. -/
theorem lookup_none_no_key {β : Type} {l : List (Coord × β)} {k : Coord}
    (h : ∀ p ∈ l, p.1 ≠ k) : l.lookup k = none := by
  induction l with
  | nil => rfl
  | cons p rest ih =>
    obtain ⟨a, b⟩ := p
    have hne : k ≠ a := fun he => h (a, b) (List.mem_cons_self _ _) he.symm
    have hb : (k == a) = false := beq_eq_false_iff_ne.mpr hne
    rw [List.lookup, hb]
    exact ih (fun p hp => h p (List.mem_cons_of_mem _ hp))

theorem gLookup_cons_self (g : List (Coord × WithTop Nat)) (k : Coord)
    (v : WithTop Nat) : gLookup (((k, v)) :: g) k = v := by
  simp [gLookup, List.lookup]

theorem gLookup_cons_ne (g : List (Coord × WithTop Nat)) (k k2 : Coord)
    (v : WithTop Nat) (hne : k2 ≠ k) : gLookup (((k, v)) :: g) k2 = gLookup g k2 := by
  simp [gLookup, List.lookup, beq_eq_false_iff_ne.mpr hne]

theorem gLookup_top_no_key {g : List (Coord × WithTop Nat)} {k : Coord}
    (h : ∀ p ∈ g, p.1 ≠ k) : gLookup g k = ⊤ := by
  rw [gLookup, lookup_none_no_key h]
  rfl

/-- A successful `gScore` lookup comes from some binding. -/
theorem gLookup_ne_top_key {g : List (Coord × WithTop Nat)} {k : Coord}
    (h : gLookup g k ≠ ⊤) : ∃ p ∈ g, p.1 = k := by
  by_contra hcon
  push_neg at hcon
  exact h (gLookup_top_no_key hcon)

/-- `setPathAt` on a duplicate-free open set: each resulting node is either
an untouched node at a different coordinate, or the node at the given
coordinate carrying the new path. -/
theorem mem_setPathAt_nodup {l : List SearchNode} {k : Coord} {p : List Coord}
    {m : SearchNode} (hnd : (l.map SearchNode.coord).Nodup)
    (h : m ∈ setPathAt l k p) :
    (m ∈ l ∧ (m.x, m.y) ≠ k) ∨ ((m.x, m.y) = k ∧ m.path = p) := by
  induction l with
  | nil => cases h
  | cons n ns ih =>
    rw [List.map_cons, List.nodup_cons] at hnd
    by_cases hc : n.x = k.1 ∧ n.y = k.2
    · simp only [setPathAt, hc, and_self, if_true] at h
      rcases List.mem_cons.mp h with rfl | h
      · right
        refine ⟨?_, rfl⟩
        simp [Prod.ext_iff, hc.1, hc.2]
      · left
        refine ⟨List.mem_cons_of_mem _ h, ?_⟩
        intro he
        apply hnd.1
        have hkn : SearchNode.coord n = k := by
          simp [SearchNode.coord, Prod.ext_iff, hc.1, hc.2]
        rw [hkn, ← he]
        exact List.mem_map.mpr ⟨m, h, rfl⟩
    · simp only [setPathAt, hc, if_false] at h
      rcases List.mem_cons.mp h with rfl | h
      · left
        refine ⟨List.mem_cons_self _ _, ?_⟩
        intro he
        exact hc ⟨congrArg Prod.fst he, congrArg Prod.snd he⟩
      · rcases ih hnd.2 h with ⟨hm, hne⟩ | hm
        · exact Or.inl ⟨List.mem_cons_of_mem _ hm, hne⟩
        · exact Or.inr hm

/-- A legal chain splits across an append. -/
theorem chainOk_append {maze : Maze} (c : Coord) (p1 p2 : List Coord) :
    chainOk maze c (p1 ++ p2) = (chainOk maze c p1 && chainOk maze (lastC c p1) p2) := by
  induction p1 generalizing c with
  | nil => simp [chainOk, lastC]
  | cons a as ih =>
    simp only [List.cons_append, chainOk, List.append_eq, ih, lastC_cons, Bool.and_assoc]

theorem lastC_append (c : Coord) (p1 p2 : List Coord) :
    lastC c (p1 ++ p2) = lastC (lastC c p1) p2 := by
  induction p1 generalizing c with
  | nil => simp [lastC]
  | cons a as ih => simp only [List.cons_append, lastC_cons, ih]

/-- `n` is the length of a shortest wall-respecting path from `s` to `t`. -/
def IsDist (maze : Maze) (s t : Coord) (n : Nat) : Prop :=
  (∃ p, ValidPath maze s t p ∧ p.length = n) ∧
  ∀ p, ValidPath maze s t p → n ≤ p.length

/-- The `gScore`-level behaviour of one A* expansion: bindings of closed
cells never change, bindings only decrease, every resulting open node is an
untouched old node or a reweighted/new neighbour with binding
`g(current) + 1`, open coordinates persist, `gScore` keys stay open or
closed, and every passable in-bounds neighbour ends up closed or open with a
binding at most `g(current) + 1`. -/
theorem astarPush_opt_spec (maze : Maze) (x y : Int) (closedP : List Coord)
    (path : List Coord) :
    ∀ (dirs : List Dir) (open_ : List SearchNode) (g : List (Coord × WithTop Nat)),
      (open_.map SearchNode.coord).Nodup →
      (x, y) ∈ closedP →
      (∀ p ∈ g, p.1 ∈ open_.map SearchNode.coord ∨ p.1 ∈ closedP) →
      (∃ open' g',
        astarPush maze (mazeWidth maze) (mazeHeight maze) x y closedP path
          dirs open_ g = .ok (open', g') ∧
        (∀ k, k ∈ closedP → gLookup g' k = gLookup g k) ∧
        (∀ k, gLookup g' k ≤ gLookup g k) ∧
        (∀ n ∈ open', (n ∈ open_ ∧ gLookup g' (n.x, n.y) = gLookup g (n.x, n.y)) ∨
          (n.path = path ++ [(n.x, n.y)] ∧ stepOk maze (x, y) (n.x, n.y) = true ∧
            (n.x, n.y) ∉ closedP ∧ gLookup g' (n.x, n.y) = gLookup g (x, y) + 1)) ∧
        (∀ m ∈ open_, ∃ n ∈ open', (n.x, n.y) = (m.x, m.y)) ∧
        (∀ p ∈ g', p.1 ∈ open'.map SearchNode.coord ∨ p.1 ∈ closedP) ∧
        (∀ d ∈ dirs, inBounds (mazeWidth maze) (mazeHeight maze)
            (moveTo (x, y) d).1 (moveTo (x, y) d).2 = true →
          ∀ cell, cellAt maze x y = some cell → dirWall d cell = false →
            moveTo (x, y) d ∈ closedP ∨
              ((∃ n ∈ open', (n.x, n.y) = moveTo (x, y) d) ∧
                gLookup g' (moveTo (x, y) d) ≤ gLookup g (x, y) + 1)))
      ∨ (astarPush maze (mazeWidth maze) (mazeHeight maze) x y closedP path dirs open_ g
          = .typeError ∧ cellAt maze x y = none) := by
  intro dirs
  induction dirs with
  | nil =>
    intro open_ g hnd hxy hkeys
    left
    exact ⟨open_, g, rfl, fun k _ => rfl, fun k => le_refl _,
      fun n hn => Or.inl ⟨hn, rfl⟩, fun m hm => ⟨m, hm, rfl⟩, hkeys, by simp⟩
  | cons d rest ih =>
    intro open_ g hnd hxy hkeys
    by_cases hb : inBounds (mazeWidth maze) (mazeHeight maze)
        (x + (dirDelta d).1) (y + (dirDelta d).2)
    · cases hc : cellAt maze x y with
      | none =>
        right
        constructor
        · simp only [astarPush, hb, if_true, hc]
        · rfl
      | some cell =>
        by_cases hw : dirWall d cell
        · have heq : astarPush maze (mazeWidth maze) (mazeHeight maze) x y closedP path
              (d :: rest) open_ g =
              astarPush maze (mazeWidth maze) (mazeHeight maze) x y closedP path
                rest open_ g := by
            simp only [astarPush, hb, if_true, hc, hw]
          rw [heq]
          rcases ih open_ g hnd hxy hkeys with
            ⟨o', g', h1, h2, h3, h4, h5, h6, h7⟩ | h
          · left
            refine ⟨o', g', h1, h2, h3, h4, h5, h6, ?_⟩
            intro d2 hd2 hb2 cell2 hc2 hw2
            rcases List.mem_cons.mp hd2 with rfl | hd2
            · injection hc2 with hc2
              subst hc2
              rw [hw] at hw2
              cases hw2
            · exact h7 d2 hd2 hb2 cell2 (hc.trans hc2) hw2
          · exact absurd h.2 (by simp [hc])
        · by_cases hcl : closedP.contains (x + (dirDelta d).1, y + (dirDelta d).2)
          · have heq : astarPush maze (mazeWidth maze) (mazeHeight maze) x y closedP path
                (d :: rest) open_ g =
                astarPush maze (mazeWidth maze) (mazeHeight maze) x y closedP path
                  rest open_ g := by
              simp only [astarPush, hb, if_true, hc, hw, Bool.false_eq_true, if_false, hcl]
            rw [heq]
            rcases ih open_ g hnd hxy hkeys with
              ⟨o', g', h1, h2, h3, h4, h5, h6, h7⟩ | h
            · left
              refine ⟨o', g', h1, h2, h3, h4, h5, h6, ?_⟩
              intro d2 hd2 hb2 cell2 hc2 hw2
              rcases List.mem_cons.mp hd2 with rfl | hd2
              · exact Or.inl (contains_iff_mem.mp hcl)
              · exact h7 d2 hd2 hb2 cell2 (hc.trans hc2) hw2
            · exact absurd h.2 (by simp [hc])
          · have hclm : (x + (dirDelta d).1, y + (dirDelta d).2) ∉ closedP :=
              fun hm => hcl (contains_iff_mem.mpr hm)
            have hstep : stepOk maze (x, y)
                (x + (dirDelta d).1, y + (dirDelta d).2) = true :=
              stepOk_iff.mpr ⟨d, rfl, hb, cell, hc, by simpa using hw⟩
            have hnxy : ((x + (dirDelta d).1, y + (dirDelta d).2) : Coord) ≠ (x, y) :=
              fun he => hclm (he ▸ hxy)
            cases hfind : open_.find?
                (fun n => n.x = x + (dirDelta d).1 ∧ n.y = y + (dirDelta d).2) with
            | none =>
              have heq : astarPush maze (mazeWidth maze) (mazeHeight maze) x y closedP
                  path (d :: rest) open_ g =
                  astarPush maze (mazeWidth maze) (mazeHeight maze) x y closedP path rest
                    (open_ ++ [⟨x + (dirDelta d).1, y + (dirDelta d).2,
                      path ++ [(x + (dirDelta d).1, y + (dirDelta d).2)]⟩])
                    (((x + (dirDelta d).1, y + (dirDelta d).2),
                      gLookup g (x, y) + 1) :: g) := by
                simp only [astarPush, hb, if_true, hc, hw, Bool.false_eq_true, if_false,
                  hcl, hfind]
              rw [heq]
              have hfresh : ∀ n ∈ open_, ¬((n.x, n.y) =
                  (x + (dirDelta d).1, y + (dirDelta d).2)) := by
                intro n hn he
                have := List.find?_eq_none.mp hfind n hn
                simp only [decide_eq_true_eq] at this
                exact this ⟨congrArg Prod.fst he, congrArg Prod.snd he⟩
              have hnd2 : ((open_ ++ [(⟨x + (dirDelta d).1, y + (dirDelta d).2,
                  path ++ [(x + (dirDelta d).1, y + (dirDelta d).2)]⟩ : SearchNode)]).map
                    SearchNode.coord).Nodup := by
                rw [List.map_append]
                refine List.Nodup.append hnd (by simp) ?_
                intro a ha hb2
                rcases List.mem_map.mp ha with ⟨n, hn, rfl⟩
                simp only [List.map_cons, List.map_nil, List.mem_singleton] at hb2
                exact hfresh n hn hb2
              have hkeys2 : ∀ p ∈ ((((x + (dirDelta d).1, y + (dirDelta d).2),
                  gLookup g (x, y) + 1)) :: g),
                  p.1 ∈ (open_ ++ [(⟨x + (dirDelta d).1, y + (dirDelta d).2,
                    path ++ [(x + (dirDelta d).1, y + (dirDelta d).2)]⟩ :
                      SearchNode)]).map SearchNode.coord ∨ p.1 ∈ closedP := by
                intro p hp
                rcases List.mem_cons.mp hp with rfl | hp
                · left
                  rw [List.map_append]
                  exact List.mem_append_right _ (by simp [SearchNode.coord])
                · rcases hkeys p hp with hm | hm
                  · left
                    rw [List.map_append]
                    exact List.mem_append_left _ hm
                  · exact Or.inr hm
              have hgtop : gLookup g (x + (dirDelta d).1, y + (dirDelta d).2) = ⊤ := by
                refine gLookup_top_no_key ?_
                intro p hp he
                rcases hkeys p hp with hm | hm
                · rcases List.mem_map.mp hm with ⟨n, hn, hcoord⟩
                  exact hfresh n hn (show SearchNode.coord n =
                    (x + (dirDelta d).1, y + (dirDelta d).2) from hcoord.trans he)
                · exact hclm (he ▸ hm)
              rcases ih (open_ ++ [⟨x + (dirDelta d).1, y + (dirDelta d).2,
                    path ++ [(x + (dirDelta d).1, y + (dirDelta d).2)]⟩])
                  (((x + (dirDelta d).1, y + (dirDelta d).2), gLookup g (x, y) + 1) :: g)
                  hnd2 hxy hkeys2 with
                ⟨o', g', h1, h2, h3, h4, h5, h6, h7⟩ | h
              · left
                have hxne : gLookup (((x + (dirDelta d).1, y + (dirDelta d).2),
                    gLookup g (x, y) + 1) :: g) (x, y) = gLookup g (x, y) :=
                  gLookup_cons_ne _ _ _ _ (Ne.symm hnxy)
                refine ⟨o', g', h1, ?_, ?_, ?_, ?_, h6, ?_⟩
                · intro k hk
                  rw [h2 k hk]
                  exact gLookup_cons_ne _ _ _ _ (fun he => hclm (he ▸ hk))
                · intro k
                  refine le_trans (h3 k) ?_
                  by_cases hke : k = (x + (dirDelta d).1, y + (dirDelta d).2)
                  · subst hke
                    rw [gLookup_cons_self, hgtop]
                    exact le_top
                  · rw [gLookup_cons_ne _ _ _ _ hke]
                · intro n hn
                  rcases h4 n hn with ⟨hmem, hgn⟩ | ⟨hpath, hstep2, hncl, hgn⟩
                  · rcases List.mem_append.mp hmem with hmem | hmem
                    · refine Or.inl ⟨hmem, ?_⟩
                      rw [hgn, gLookup_cons_ne _ _ _ _ (fun he => hfresh n hmem he)]
                    · rcases List.mem_singleton.mp hmem with rfl
                      refine Or.inr ⟨rfl, hstep, hclm, ?_⟩
                      rw [hgn, gLookup_cons_self]
                  · refine Or.inr ⟨hpath, hstep2, hncl, ?_⟩
                    rw [hgn, hxne]
                · intro m hm
                  exact h5 m (List.mem_append_left _ hm)
                · intro d2 hd2 hb2 cell2 hc2 hw2
                  rcases List.mem_cons.mp hd2 with rfl | hd2
                  · right
                    constructor
                    · rcases h5 (⟨x + (dirDelta d2).1, y + (dirDelta d2).2,
                          path ++ [(x + (dirDelta d2).1, y + (dirDelta d2).2)]⟩ :
                          SearchNode)
                        (List.mem_append_right _ (List.mem_singleton.mpr rfl)) with
                        ⟨n, hn, hcoord⟩
                      exact ⟨n, hn, hcoord⟩
                    · refine le_trans (h3 _) ?_
                      have hmv : moveTo (x, y) d2 =
                          (x + (dirDelta d2).1, y + (dirDelta d2).2) := rfl
                      rw [hmv, gLookup_cons_self]
                  · have := h7 d2 hd2 hb2 cell2 (hc.trans hc2) hw2
                    rcases this with hm | ⟨hopen, hle⟩
                    · exact Or.inl hm
                    · refine Or.inr ⟨hopen, ?_⟩
                      rw [hxne] at hle
                      exact hle
              · exact absurd h.2 (by simp [hc])
            | some found =>
              have hfound1 := List.find?_some hfind
              have hfound2 := List.mem_of_find?_eq_some hfind
              simp only [decide_eq_true_eq] at hfound1
              have hfc : (found.x, found.y) =
                  ((x + (dirDelta d).1, y + (dirDelta d).2) : Coord) := by
                rw [hfound1.1, hfound1.2]
              by_cases hlt : gLookup g (x, y) + 1 <
                  gLookup g (x + (dirDelta d).1, y + (dirDelta d).2)
              · have heq : astarPush maze (mazeWidth maze) (mazeHeight maze) x y closedP
                    path (d :: rest) open_ g =
                    astarPush maze (mazeWidth maze) (mazeHeight maze) x y closedP path
                      rest
                      (setPathAt open_ (x + (dirDelta d).1, y + (dirDelta d).2)
                        (path ++ [(x + (dirDelta d).1, y + (dirDelta d).2)]))
                      (((x + (dirDelta d).1, y + (dirDelta d).2),
                        gLookup g (x, y) + 1) :: g) := by
                  simp only [astarPush, hb, if_true, hc, hw, Bool.false_eq_true, if_false,
                    hcl, hfind, hlt, if_true]
                rw [heq]
                have hnd2 : ((setPathAt open_ (x + (dirDelta d).1, y + (dirDelta d).2)
                    (path ++ [(x + (dirDelta d).1, y + (dirDelta d).2)])).map
                      SearchNode.coord).Nodup := by
                  rw [setPathAt_map_coord]
                  exact hnd
                have hkeys2 : ∀ p ∈ ((((x + (dirDelta d).1, y + (dirDelta d).2),
                    gLookup g (x, y) + 1)) :: g),
                    p.1 ∈ (setPathAt open_ (x + (dirDelta d).1, y + (dirDelta d).2)
                      (path ++ [(x + (dirDelta d).1, y + (dirDelta d).2)])).map
                        SearchNode.coord ∨ p.1 ∈ closedP := by
                  intro p hp
                  rw [setPathAt_map_coord]
                  rcases List.mem_cons.mp hp with rfl | hp
                  · left
                    refine List.mem_map.mpr ⟨found, hfound2, ?_⟩
                    exact hfc
                  · exact hkeys p hp
                rcases ih (setPathAt open_ (x + (dirDelta d).1, y + (dirDelta d).2)
                      (path ++ [(x + (dirDelta d).1, y + (dirDelta d).2)]))
                    (((x + (dirDelta d).1, y + (dirDelta d).2), gLookup g (x, y) + 1) :: g)
                    hnd2 hxy hkeys2 with
                  ⟨o', g', h1, h2, h3, h4, h5, h6, h7⟩ | h
                · left
                  have hxne : gLookup (((x + (dirDelta d).1, y + (dirDelta d).2),
                      gLookup g (x, y) + 1) :: g) (x, y) = gLookup g (x, y) :=
                    gLookup_cons_ne _ _ _ _ (Ne.symm hnxy)
                  refine ⟨o', g', h1, ?_, ?_, ?_, ?_, h6, ?_⟩
                  · intro k hk
                    rw [h2 k hk]
                    exact gLookup_cons_ne _ _ _ _ (fun he => hclm (he ▸ hk))
                  · intro k
                    refine le_trans (h3 k) ?_
                    by_cases hke : k = (x + (dirDelta d).1, y + (dirDelta d).2)
                    · subst hke
                      rw [gLookup_cons_self]
                      exact le_of_lt hlt
                    · rw [gLookup_cons_ne _ _ _ _ hke]
                  · intro n hn
                    rcases h4 n hn with ⟨hmem, hgn⟩ | ⟨hpath, hstep2, hncl, hgn⟩
                    · rcases mem_setPathAt_nodup hnd hmem with ⟨hmem2, hne2⟩ |
                        ⟨hcoord, hpath2⟩
                      · refine Or.inl ⟨hmem2, ?_⟩
                        rw [hgn, gLookup_cons_ne _ _ _ _ hne2]
                      · refine Or.inr ⟨by rw [hpath2, hcoord], ?_, ?_, ?_⟩
                        · rw [hcoord]
                          exact hstep
                        · rw [hcoord]
                          exact hclm
                        · rw [hgn, hcoord, gLookup_cons_self]
                    · refine Or.inr ⟨hpath, hstep2, hncl, ?_⟩
                      rw [hgn, hxne]
                  · intro m hm
                    have hmc : SearchNode.coord m ∈ (setPathAt open_
                        (x + (dirDelta d).1, y + (dirDelta d).2)
                        (path ++ [(x + (dirDelta d).1, y + (dirDelta d).2)])).map
                          SearchNode.coord := by
                      rw [setPathAt_map_coord]
                      exact List.mem_map.mpr ⟨m, hm, rfl⟩
                    rcases List.mem_map.mp hmc with ⟨m2, hm2, hc2⟩
                    rcases h5 m2 hm2 with ⟨n, hn, hcoord⟩
                    exact ⟨n, hn, by rw [hcoord]; exact hc2⟩
                  · intro d2 hd2 hb2 cell2 hc2 hw2
                    rcases List.mem_cons.mp hd2 with rfl | hd2
                    · right
                      constructor
                      · have hmem2 : found ∈ setPathAt open_
                            (x + (dirDelta d2).1, y + (dirDelta d2).2)
                            (path ++ [(x + (dirDelta d2).1, y + (dirDelta d2).2)]) ∨
                            True := Or.inr trivial
                        have hfc2 : SearchNode.coord found ∈ (setPathAt open_
                            (x + (dirDelta d2).1, y + (dirDelta d2).2)
                            (path ++ [(x + (dirDelta d2).1, y + (dirDelta d2).2)])).map
                              SearchNode.coord := by
                          rw [setPathAt_map_coord]
                          exact List.mem_map.mpr ⟨found, hfound2, rfl⟩
                        rcases List.mem_map.mp hfc2 with ⟨m2, hm2, hc3⟩
                        rcases h5 m2 hm2 with ⟨n, hn, hcoord⟩
                        refine ⟨n, hn, ?_⟩
                        exact hcoord.trans ((show ((m2.x, m2.y) : Coord) =
                          (found.x, found.y) from hc3).trans hfc)
                      · refine le_trans (h3 _) ?_
                        have hmv : moveTo (x, y) d2 =
                            (x + (dirDelta d2).1, y + (dirDelta d2).2) := rfl
                        rw [hmv, gLookup_cons_self]
                    · have := h7 d2 hd2 hb2 cell2 (hc.trans hc2) hw2
                      rcases this with hm | ⟨hopen, hle⟩
                      · exact Or.inl hm
                      · refine Or.inr ⟨hopen, ?_⟩
                        rw [hxne] at hle
                        exact hle
                · exact absurd h.2 (by simp [hc])
              · have heq : astarPush maze (mazeWidth maze) (mazeHeight maze) x y closedP
                    path (d :: rest) open_ g =
                    astarPush maze (mazeWidth maze) (mazeHeight maze) x y closedP path
                      rest open_ g := by
                  simp only [astarPush, hb, if_true, hc, hw, Bool.false_eq_true, if_false,
                    hcl, hfind, hlt, if_false]
                rw [heq]
                rcases ih open_ g hnd hxy hkeys with
                  ⟨o', g', h1, h2, h3, h4, h5, h6, h7⟩ | h
                · left
                  refine ⟨o', g', h1, h2, h3, h4, h5, h6, ?_⟩
                  intro d2 hd2 hb2 cell2 hc2 hw2
                  rcases List.mem_cons.mp hd2 with rfl | hd2
                  · right
                    constructor
                    · rcases h5 found hfound2 with ⟨n, hn, hcoord⟩
                      exact ⟨n, hn, by rw [hcoord]; exact hfc⟩
                    · exact le_trans (h3 _) (not_lt.mp hlt)
                  · exact h7 d2 hd2 hb2 cell2 (hc.trans hc2) hw2
                · exact absurd h.2 (by simp [hc])
    · have heq : astarPush maze (mazeWidth maze) (mazeHeight maze) x y closedP path
          (d :: rest) open_ g =
          astarPush maze (mazeWidth maze) (mazeHeight maze) x y closedP path
            rest open_ g := by
        simp only [astarPush, hb, Bool.false_eq_true, if_false]
      rw [heq]
      rcases ih open_ g hnd hxy hkeys with
        ⟨o', g', h1, h2, h3, h4, h5, h6, h7⟩ | h
      · left
        refine ⟨o', g', h1, h2, h3, h4, h5, h6, ?_⟩
        intro d2 hd2 hb2 cell2 hc2 hw2
        rcases List.mem_cons.mp hd2 with rfl | hd2
        · exact absurd hb2 (by simpa using hb)
        · exact h7 d2 hd2 hb2 cell2 hc2 hw2
      · exact Or.inr h

/-- The A* optimality invariant: `gScore` agrees with each open node's path
length, closed cells carry their exact distance, every edge out of a closed
cell leads to a closed cell or an open cell with an admissible binding,
`gScore` keys are open or closed, the start is closed (or the state is
initial), and the goal is never closed. -/
def AOptInv (maze : Maze) (s : Coord) (ex ey : Int) (open_ : List SearchNode)
    (closed : List Coord) (g : List (Coord × WithTop Nat)) : Prop :=
  (∀ n ∈ open_, gLookup g (n.x, n.y) = ((n.path.tail.length : Nat) : WithTop Nat)) ∧
  (∀ c ∈ closed, ∃ nc : Nat, gLookup g c = (nc : WithTop Nat) ∧ IsDist maze s c nc) ∧
  (∀ c ∈ closed, ∀ c2, stepOk maze c c2 = true →
    c2 ∈ closed ∨ ((∃ n ∈ open_, (n.x, n.y) = c2) ∧ gLookup g c2 ≤ gLookup g c + 1)) ∧
  (∀ p ∈ g, p.1 ∈ open_.map SearchNode.coord ∨ p.1 ∈ closed) ∧
  (s ∈ closed ∨ (closed = [] ∧ open_ = [⟨s.1, s.2, [s]⟩] ∧
    g = [((s.1, s.2), ((0 : Nat) : WithTop Nat))])) ∧
  (ex, ey) ∉ closed

/-- The A* frontier lemma: any wall-respecting path from the (closed) start
to an unclosed cell passes through an open node whose `gScore` binding is at
most the length of the path prefix reaching it. -/
theorem astar_frontier {maze : Maze} {s : Coord}
    {open_ : List SearchNode} {closed : List Coord} {g : List (Coord × WithTop Nat)}
    (hK2 : ∀ c ∈ closed, ∃ nc : Nat, gLookup g c = (nc : WithTop Nat) ∧
      IsDist maze s c nc)
    (hK3 : ∀ c ∈ closed, ∀ c2, stepOk maze c c2 = true →
      c2 ∈ closed ∨ ((∃ n ∈ open_, (n.x, n.y) = c2) ∧ gLookup g c2 ≤ gLookup g c + 1))
    (hsc : s ∈ closed) :
    ∀ (p : List Coord) (c : Coord), ValidPath maze s c p → c ∉ closed →
      ∃ n ∈ open_, ∃ p1 p2, p = p1 ++ p2 ∧ ValidPath maze s (n.x, n.y) p1 ∧
        gLookup g (n.x, n.y) ≤ (p1.length : WithTop Nat) := by
  intro p
  induction p using List.reverseRecOn with
  | nil =>
    intro c hv hnc
    have hcs : s = c := by simpa [lastC] using hv.2
    exact absurd (hcs ▸ hsc) hnc
  | append_singleton p' a ih =>
    intro c hv hnc
    obtain ⟨hch, hl⟩ := hv
    rw [lastC_append_single] at hl
    subst hl
    rw [chainOk_append_single, Bool.and_eq_true] at hch
    by_cases hc' : lastC s p' ∈ closed
    · rcases hK3 _ hc' _ hch.2 with hcc | ⟨⟨n, hn, hnc2⟩, hle⟩
      · exact absurd hcc hnc
      · refine ⟨n, hn, p' ++ [a], [], by simp, ?_, ?_⟩
        · rw [hnc2]
          refine ⟨?_, lastC_append_single _ _ _⟩
          rw [chainOk_append_single, hch.1, hch.2]
          rfl
        · rw [hnc2]
          obtain ⟨nc', hg', hdist⟩ := hK2 _ hc'
          have hmin := hdist.2 p' ⟨hch.1, rfl⟩
          rw [hg'] at hle
          refine le_trans hle ?_
          have hlen : (p' ++ [a]).length = p'.length + 1 := by simp
          rw [hlen]
          have h2 : ((nc' : WithTop Nat) + 1) =
              (((nc' + 1 : Nat)) : WithTop Nat) := by
            push_cast
            rfl
          rw [h2]
          exact_mod_cast Nat.succ_le_succ hmin
    · rcases ih (lastC s p') ⟨hch.1, rfl⟩ hc' with ⟨n, hn, p1, p2, hsplit2, hv1, hle⟩
      exact ⟨n, hn, p1, p2 ++ [a], by rw [hsplit2, List.append_assoc], hv1, hle⟩

/-- The popped node of the sorted open set carries a shortest path to its
coordinate: minimality of its `fScore` plus admissibility and consistency of
the Manhattan heuristic. -/
theorem astar_popped_min {maze : Maze} {s : Coord} {ex ey : Int}
    {open_ : List SearchNode} {closed : List Coord} {g : List (Coord × WithTop Nat)}
    {current : SearchNode} {rest : List SearchNode}
    (hbasic : AstarInv maze s open_ closed)
    (hopt : AOptInv maze s ex ey open_ closed g)
    (hsc : s ∈ closed)
    (hsort : sortBy (fLe g ex ey) open_ = current :: rest) :
    ∀ p, ValidPath maze s (current.x, current.y) p →
      current.path.tail.length ≤ p.length := by
  intro p hp
  obtain ⟨hK1, hK2, hK3, hK5, hK4, hK6⟩ := hopt
  have hcur_mem : current ∈ open_ := by
    have : current ∈ sortBy (fLe g ex ey) open_ := by
      rw [hsort]
      exact List.mem_cons_self _ _
    exact mem_sortBy.mp this
  have hcur_ncl : (current.x, current.y) ∉ closed := hbasic.2.1 current hcur_mem
  obtain ⟨n, hn, p1, p2, hsplit, hv1, hle⟩ :=
    astar_frontier hK2 hK3 hsc p (current.x, current.y) hp hcur_ncl
  have hmin : fScore g ex ey current ≤ fScore g ex ey n :=
    sortBy_head_min (fScore g ex ey) hsort n hn
  have hgn := hK1 n hn
  have hgc := hK1 current hcur_mem
  rw [hgn] at hle
  have hdn : n.path.tail.length ≤ p1.length := by exact_mod_cast hle
  obtain ⟨hch, hl⟩ := hp
  rw [hsplit, chainOk_append, Bool.and_eq_true] at hch
  rw [hsplit, lastC_append] at hl
  have hlast1 : lastC s p1 = (n.x, n.y) := hv1.2
  rw [hlast1] at hch hl
  have hheur0 := heuristic_chain hch.2 ex ey
  rw [hl] at hheur0
  have hheur : heuristic n.x n.y ex ey ≤
      p2.length + heuristic current.x current.y ex ey := by
    simpa using hheur0
  have hfc : fScore g ex ey current =
      (((current.path.tail.length + heuristic current.x current.y ex ey : Nat)) :
        WithTop Nat) := by
    rw [fScore, hgc]
    push_cast
    rfl
  have hfn : fScore g ex ey n =
      (((n.path.tail.length + heuristic n.x n.y ex ey : Nat)) : WithTop Nat) := by
    rw [fScore, hgn]
    push_cast
    rfl
  rw [hfc, hfn] at hmin
  have hmin2 : current.path.tail.length + heuristic current.x current.y ex ey ≤
      n.path.tail.length + heuristic n.x n.y ex ey := by exact_mod_cast hmin
  rw [hsplit]
  simp only [List.length_append]
  omega

/-- Expanding the minimal-`fScore` node preserves the A* optimality
invariant. -/
theorem AOptInv.step_aopt {maze : Maze} {s : Coord} {ex ey : Int}
    {open_ : List SearchNode} {closed : List Coord} {g : List (Coord × WithTop Nat)}
    {current : SearchNode} {rest : List SearchNode}
    {open' : List SearchNode} {g' : List (Coord × WithTop Nat)}
    (hbasic : AstarInv maze s open_ closed)
    (hopt : AOptInv maze s ex ey open_ closed g)
    (hsort : sortBy (fLe g ex ey) open_ = current :: rest)
    (hgneq : ¬(current.x = ex ∧ current.y = ey))
    (hp : astarPush maze (mazeWidth maze) (mazeHeight maze) current.x current.y
        ((current.x, current.y) :: closed) current.path dirList rest g
      = .ok (open', g')) :
    AOptInv maze s ex ey open' ((current.x, current.y) :: closed) g' := by
  have hperm : open_.Perm (current :: rest) := by
    rw [← hsort]
    exact (sortBy_perm _ _).symm
  have hbasic2 := hbasic.perm hperm
  have hndrest : (rest.map SearchNode.coord).Nodup := by
    have := hbasic2.2.2.1
    rw [List.map_cons, List.nodup_cons] at this
    exact this.2
  have hcur_mem : current ∈ open_ := hperm.symm.subset (List.mem_cons_self _ _)
  have hcur_ncl : (current.x, current.y) ∉ closed := hbasic.2.1 current hcur_mem
  have hcurok := hbasic.1 current hcur_mem
  obtain ⟨q, hq1, hq2, hq3, hq4, _⟩ := hcurok
  have hgc := hopt.1 current hcur_mem
  have hdcq : current.path.tail = q := by
    rw [hq1]
    rfl
  have hopen_co : ∀ a, a ∈ open_.map SearchNode.coord →
      a = (current.x, current.y) ∨ a ∈ rest.map SearchNode.coord := by
    intro a ha
    have h2 := (hperm.map SearchNode.coord).subset ha
    rw [List.map_cons] at h2
    exact List.mem_cons.mp h2
  have hdist_cur : IsDist maze s (current.x, current.y)
      current.path.tail.length := by
    constructor
    · refine ⟨q, ⟨hq2, hq3⟩, ?_⟩
      rw [hdcq]
    · rcases hopt.2.2.2.2.1 with hsc | ⟨hcl0, hop0, hg0⟩
      · exact astar_popped_min hbasic hopt hsc hsort
      · rw [hop0] at hsort
        have hsing : ([(⟨s.1, s.2, [s]⟩ : SearchNode)] : List SearchNode)
            = current :: rest := by
          rw [← hsort]
          rfl
        injection hsing with hcur hrest
        intro p hp2
        rw [← hcur]
        simp
  have hkeys2 : ∀ p ∈ g, p.1 ∈ rest.map SearchNode.coord ∨
      p.1 ∈ (current.x, current.y) :: closed := by
    intro p hp2
    rcases hopt.2.2.2.1 p hp2 with hm | hm
    · rcases hopen_co p.1 hm with he | hm2
      · exact Or.inr (by rw [he]; exact List.mem_cons_self _ _)
      · exact Or.inl hm2
    · exact Or.inr (List.mem_cons_of_mem _ hm)
  rcases astarPush_opt_spec maze current.x current.y
      ((current.x, current.y) :: closed) current.path dirList rest g
      hndrest (List.mem_cons_self _ _) hkeys2 with
    ⟨o2, g2, h1, h2, h3, h4, h5, h6, h7⟩ | ⟨h1, _⟩
  · rw [h1] at hp
    injection hp with hp
    injection hp with hpo hpg
    subst hpo
    subst hpg
    have hgc' : gLookup g2 (current.x, current.y) = gLookup g (current.x, current.y) :=
      h2 _ (List.mem_cons_self _ _)
    refine ⟨?_, ?_, ?_, h6, ?_, ?_⟩
    · -- gScore sync for the new open set
      intro n hn
      rcases h4 n hn with ⟨hmem, hgn⟩ | ⟨hpath, hstep2, hncl, hgn⟩
      · rw [hgn]
        exact hopt.1 n (hperm.symm.subset (List.mem_cons_of_mem _ hmem))
      · rw [hgn, hgc]
        have hlen : n.path.tail.length = current.path.tail.length + 1 := by
          have h1t : n.path.tail.length = n.path.length - 1 := by
            rw [List.length_tail]
          have h2t : n.path.length = current.path.length + 1 := by
            rw [hpath]
            simp
          have h3t : current.path.length = q.length + 1 := by
            rw [hq1]
            rfl
          rw [h1t, h2t, h3t, hdcq]
          simp
        rw [hlen]
        push_cast
        rfl
    · -- closed cells carry exact distances
      intro c hc
      rcases List.mem_cons.mp hc with rfl | hc
      · refine ⟨current.path.tail.length, ?_, hdist_cur⟩
        rw [hgc', hgc]
      · obtain ⟨nc, hgnc, hdist⟩ := hopt.2.1 c hc
        refine ⟨nc, ?_, hdist⟩
        rw [h2 c (List.mem_cons_of_mem _ hc), hgnc]
    · -- closure of the new closed set
      intro c hc c2 hs2
      rcases List.mem_cons.mp hc with rfl | hc
      · rcases stepOk_iff.mp hs2 with ⟨d, he2, hb2, cell, hc2, hw2⟩
        have hd : d ∈ dirList := by cases d <;> simp [dirList]
        subst he2
        rcases h7 d hd hb2 cell hc2 hw2 with hm | ⟨hex, hle⟩
        · exact Or.inl hm
        · refine Or.inr ⟨hex, ?_⟩
          rw [hgc']
          exact hle
      · rcases hopt.2.2.1 c hc c2 hs2 with hm | ⟨⟨n, hn, hnc⟩, hle⟩
        · exact Or.inl (List.mem_cons_of_mem _ hm)
        · have hnco : SearchNode.coord n ∈ open_.map SearchNode.coord :=
            List.mem_map.mpr ⟨n, hn, rfl⟩
          rcases hopen_co _ hnco with he | hm2
          · refine Or.inl ?_
            have : c2 = (current.x, current.y) := by
              rw [← hnc]
              exact he
            rw [this]
            exact List.mem_cons_self _ _
          · rcases List.mem_map.mp hm2 with ⟨m, hm, hmc⟩
            rcases h5 m hm with ⟨n2, hn2, hn2c⟩
            refine Or.inr ⟨⟨n2, hn2, ?_⟩, ?_⟩
            · rw [hn2c]
              exact (show ((m.x, m.y) : Coord) = SearchNode.coord n from hmc).trans hnc
            · refine le_trans (h3 c2) ?_
              rw [h2 c (List.mem_cons_of_mem _ hc)]
              exact hle
    · -- the start is closed
      by_cases hcs : ((current.x, current.y) : Coord) = s
      · exact Or.inl (by rw [hcs]; exact List.mem_cons_self _ _)
      · rcases hopt.2.2.2.2.1 with hsc | ⟨_, hop0, _⟩
        · exact Or.inl (List.mem_cons_of_mem _ hsc)
        · rw [hop0] at hcur_mem
          rcases List.mem_singleton.mp hcur_mem with he
          exact absurd (by rw [he]) hcs
    · -- the goal stays unclosed
      intro hmem
      rcases List.mem_cons.mp hmem with he | hmem
      · exact hgneq ⟨(congrArg Prod.fst he).symm, (congrArg Prod.snd he).symm⟩
      · exact hopt.2.2.2.2.2 hmem
  · rw [h1] at hp
    cases hp

/-- Any `ok` result of the A* loop under the optimality invariant is a
shortest path when the goal is reachable. -/
theorem astarLoop_opt (maze : Maze) (s : Coord) (ex ey : Int) :
    ∀ (fuel : Nat) (open_ : List SearchNode) (closed : List Coord)
      (g : List (Coord × WithTop Nat)),
      AstarInv maze s open_ closed →
      AOptInv maze s ex ey open_ closed g →
      Reachable maze s (ex, ey) →
      ∀ l, astarLoop maze ex ey fuel open_ closed g = .ok l →
        ValidPath maze s (ex, ey) l ∧
        ∀ p, ValidPath maze s (ex, ey) p → l.length ≤ p.length := by
  intro fuel
  induction fuel with
  | zero => intro _ _ _ _ _ _ l h; cases h
  | succ fuel ih =>
    intro open_ closed g hbasic hopt hreach l h
    cases hsort : sortBy (fLe g ex ey) open_ with
    | nil =>
      exfalso
      have hopen : open_ = [] := sortBy_eq_nil_iff.mp hsort
      have hsc : s ∈ closed := by
        rcases hopt.2.2.2.2.1 with h2 | ⟨_, hop0, _⟩
        · exact h2
        · rw [hopen] at hop0
          simp at hop0
      obtain ⟨p, hp⟩ := hreach
      obtain ⟨n, hn, _⟩ := astar_frontier hopt.2.1 hopt.2.2.1 hsc p (ex, ey) hp
        hopt.2.2.2.2.2
      rw [hopen] at hn
      cases hn
    | cons current rest =>
      have hperm : open_.Perm (current :: rest) := by
        rw [← hsort]
        exact (sortBy_perm _ _).symm
      have hinv2 := hbasic.perm hperm
      simp only [astarLoop, hsort] at h
      by_cases hg : current.x = ex ∧ current.y = ey
      · rw [if_pos hg] at h
        obtain ⟨q, h1, h2, h3, h4, _⟩ := hinv2.1 current (List.mem_cons_self _ _)
        have hl : l = q := by
          injection h with h
          rw [← h, h1]
          rfl
        subst hl
        have hce : ((current.x, current.y) : Coord) = (ex, ey) := by rw [hg.1, hg.2]
        constructor
        · exact ⟨h2, by rw [h3, hce]⟩
        · intro p hp
          rcases hK4eq : hopt.2.2.2.2.1 with hsc | ⟨_, hop0, _⟩
          · have hmin := astar_popped_min hbasic hopt hsc hsort p
              (by rw [hce]; exact hp)
            have hd : current.path.tail.length = l.length := by
              rw [h1]
              rfl
            rw [← hd]
            exact hmin
          · rw [hop0] at hsort
            have hsing : ([(⟨s.1, s.2, [s]⟩ : SearchNode)] : List SearchNode)
                = current :: rest := by
              rw [← hsort]
              rfl
            injection hsing with hcur _
            have hlnil : l = [] := by
              have h1b := h1
              rw [← hcur] at h1b
              injection h1b with _ h1t
              exact h1t.symm
            rw [hlnil]
            simp
      · rw [if_neg hg] at h
        have hndrest : (rest.map SearchNode.coord).Nodup := by
          have := hinv2.2.2.1
          rw [List.map_cons, List.nodup_cons] at this
          exact this.2
        rcases astarPush_spec maze current.x current.y
            ((current.x, current.y) :: closed) current.path dirList rest g hndrest with
          ⟨o', g', hp, hlen, hnd, hcls, hnode⟩ | ⟨hp, _⟩
        · rw [hp] at h
          exact ih o' ((current.x, current.y) :: closed) g'
            (hinv2.step_astar hnd hcls hnode)
            (hopt.step_aopt hbasic hsort hg hp) hreach l h
        · rw [hp] at h
          cases h

/-- The A* optimality invariant holds initially. -/
theorem aOptInv_init (maze : Maze) (s : Coord) (ex ey : Int) :
    AOptInv maze s ex ey [⟨s.1, s.2, [s]⟩] []
      [((s.1, s.2), ((0 : Nat) : WithTop Nat))] := by
  refine ⟨?_, by simp, by simp, ?_, Or.inr ⟨rfl, rfl, rfl⟩, by simp⟩
  · intro n hn
    rcases List.mem_singleton.mp hn with rfl
    simp [gLookup, List.lookup]
  · intro p hp
    rcases List.mem_singleton.mp hp with rfl
    left
    simp [SearchNode.coord]

/-- C1: on a rectangular grid with the start inside the grid, `findPath`
with strategy ASTAR returns a wall-respecting path of minimum move count to
the goal when the goal is reachable, and the empty sequence when it is
unreachable. -/
theorem C1_astar_optimal (maze : Maze) (sx sy ex ey : Int) (hr : Rect maze)
    (hs : inBounds (mazeWidth maze) (mazeHeight maze) sx sy = true) :
    (Reachable maze (sx, sy) (ex, ey) →
      ∃ l, findPath sx sy ex ey SearchMethod.ASTAR maze = .ok l ∧
        ValidPath maze (sx, sy) (ex, ey) l ∧
        ∀ p, ValidPath maze (sx, sy) (ex, ey) p → l.length ≤ p.length) ∧
    (¬ Reachable maze (sx, sy) (ex, ey) →
      findPath sx sy ex ey SearchMethod.ASTAR maze = .ok []) := by
  have hz : ¬ maze.length = 0 := by
    have := mazeHeight_pos_of_inBounds hs
    simp only [mazeHeight] at this
    omega
  have hu : findPath sx sy ex ey SearchMethod.ASTAR maze =
      astar sx sy ex ey maze := by
    rw [findPath.eq_def, if_neg hz]
  constructor
  · intro hreach
    have hinit := astarInv_init maze (sx, sy)
    have hfuel : ([⟨sx, sy, [((sx, sy) : Coord)]⟩] : List SearchNode).length +
        5 * (mazeWidth maze * mazeHeight maze + 2 - ([] : List Coord).length)
        < astarFuel maze := by
      simp [astarFuel]
      omega
    have h1 := astarLoop_no_fuel maze (sx, sy) ex ey (astarFuel maze) _ _
      [(((sx, sy) : Coord), (0 : Nat))] hinit hfuel
    have h2 := astarLoop_no_typeError maze (sx, sy) ex ey hr hs (astarFuel maze) _ _
      [(((sx, sy) : Coord), (0 : Nat))] hinit
    cases hres : astarLoop maze ex ey (astarFuel maze) [⟨sx, sy, [(sx, sy)]⟩] []
        [((sx, sy), (0 : Nat))] with
    | ok l =>
      have hopt := astarLoop_opt maze (sx, sy) ex ey (astarFuel maze) _ _ _ hinit
        (aOptInv_init maze (sx, sy) ex ey) hreach l hres
      refine ⟨l, ?_, hopt⟩
      rw [hu]
      exact hres
    | typeError => exact absurd hres h2
    | outOfFuel => exact absurd hres h1
  · intro hur
    obtain ⟨l, hl, hfacts⟩ := astar_results maze (sx, sy) ex ey hr hs
    have hl2 : astar sx sy ex ey maze = .ok l := hl
    rcases hfacts with rfl | ⟨hvp, _⟩
    · rw [hu, hl2]
    · exact absurd ⟨l, hvp⟩ hur

/-- Concrete instance of C1: a 2-by-1 open grid with a reachable goal. -/
theorem C1_witness :
    ∃ l, findPath 0 0 1 0 SearchMethod.ASTAR
        [[⟨false, false, false, false⟩, ⟨false, false, false, false⟩]] = .ok l ∧
      ValidPath [[⟨false, false, false, false⟩, ⟨false, false, false, false⟩]]
        (0, 0) (1, 0) l ∧
      ∀ p, ValidPath [[⟨false, false, false, false⟩, ⟨false, false, false, false⟩]]
        (0, 0) (1, 0) p → l.length ≤ p.length :=
  (C1_astar_optimal [[⟨false, false, false, false⟩, ⟨false, false, false, false⟩]]
    0 0 1 0
    (by intro row hrow; rcases List.mem_singleton.mp hrow with rfl; rfl)
    (by decide)).1
    ⟨[(1, 0)], ⟨by decide, by decide⟩⟩

/-! ## A* exploration optimality: helpers -/

theorem lookup_cons_self {β : Type} (l : List (Coord × β)) (k : Coord) (v : β) :
    (((k, v)) :: l).lookup k = some v := by
  simp [List.lookup]

theorem lookup_cons_ne {β : Type} (l : List (Coord × β)) (k k2 : Coord) (v : β)
    (hne : k2 ≠ k) : (((k, v)) :: l).lookup k2 = l.lookup k2 := by
  simp [List.lookup, beq_eq_false_iff_ne.mpr hne]

/-- `setGAt` on a duplicate-free open set: each resulting node is an
untouched node at a different coordinate, or the node at the given
coordinate carrying the new weight. -/
theorem mem_setGAt_nodup {l : List ExpNode} {k : Coord} {gv : Nat} {m : ExpNode}
    (hnd : (openCoords l).Nodup) (h : m ∈ setGAt l k gv) :
    (m ∈ l ∧ (m.x, m.y) ≠ k) ∨ ((m.x, m.y) = k ∧ m.g = gv) := by
  induction l with
  | nil => cases h
  | cons n ns ih =>
    rw [openCoords, List.map_cons, List.nodup_cons] at hnd
    by_cases hc : n.x = k.1 ∧ n.y = k.2
    · simp only [setGAt, hc, and_self, if_true] at h
      rcases List.mem_cons.mp h with rfl | h
      · right
        refine ⟨?_, rfl⟩
        simp [Prod.ext_iff, hc.1, hc.2]
      · left
        refine ⟨List.mem_cons_of_mem _ h, ?_⟩
        intro he
        apply hnd.1
        have hkn : ((n.x, n.y) : Coord) = k := by
          simp [Prod.ext_iff, hc.1, hc.2]
        rw [hkn, ← he]
        exact List.mem_map.mpr ⟨m, h, rfl⟩
    · simp only [setGAt, hc, if_false] at h
      rcases List.mem_cons.mp h with rfl | h
      · left
        refine ⟨List.mem_cons_self _ _, ?_⟩
        intro he
        exact hc ⟨congrArg Prod.fst he, congrArg Prod.snd he⟩
      · rcases ih hnd.2 h with ⟨hm, hne⟩ | hm
        · exact Or.inl ⟨List.mem_cons_of_mem _ hm, hne⟩
        · exact Or.inr hm

/-- The `gScore`/`cameFrom` behaviour of one `astarExplore` expansion:
closed bindings never change, every key is freshly bound to `g(current)+1`
together with a `cameFrom` entry to the current cell or left untouched,
bindings only decrease and never disappear, open nodes are untouched or
reweighted neighbours, coordinates persist, `cameFrom` only grows, keys stay
open or closed, and every passable in-bounds neighbour ends up closed or
open with a binding at most `g(current)+1`. -/
theorem expPush_opt_spec (maze : Maze) (x y : Int) (gCur : Nat) (closedP : List Coord) :
    ∀ (dirs : List Dir) (open_ : List ExpNode) (g : List (Coord × Nat))
      (cf : List (Coord × Coord)),
      (openCoords open_).Nodup →
      (x, y) ∈ closedP →
      (∀ n ∈ open_, g.lookup (n.x, n.y) = some n.g) →
      (∀ p ∈ g, p.1 ∈ openCoords open_ ∨ p.1 ∈ closedP) →
      (∃ open' g' cf',
        expPush maze (mazeWidth maze) (mazeHeight maze) x y gCur closedP dirs open_ g cf
          = .ok (open', g', cf') ∧
        (∀ k, k ∈ closedP → g'.lookup k = g.lookup k) ∧
        (∀ k, (cf'.lookup k = some ((x, y) : Coord) ∧ g'.lookup k = some (gCur + 1) ∧
            stepOk maze (x, y) k = true ∧ k ∉ closedP) ∨
          (cf'.lookup k = cf.lookup k ∧ g'.lookup k = g.lookup k)) ∧
        (∀ k v v', g.lookup k = some v → g'.lookup k = some v' → v' ≤ v) ∧
        (∀ k v, g.lookup k = some v → ∃ v', g'.lookup k = some v') ∧
        (∀ n ∈ open', (n ∈ open_ ∧ g'.lookup (n.x, n.y) = g.lookup (n.x, n.y)) ∨
          (n.g = gCur + 1 ∧ stepOk maze (x, y) (n.x, n.y) = true ∧
            (n.x, n.y) ∉ closedP ∧ g'.lookup (n.x, n.y) = some (gCur + 1))) ∧
        (∀ c ∈ openCoords open_, c ∈ openCoords open') ∧
        (∃ cfNew, cf' = cfNew ++ cf ∧
          (∀ k v, g'.lookup k = some v → g.lookup k = some v ∨
            (v = gCur + 1 ∧ cfNew ≠ []))) ∧
        (openCoords open').Nodup ∧
        (∀ p ∈ g', p.1 ∈ openCoords open' ∨ p.1 ∈ closedP) ∧
        (∀ d ∈ dirs, inBounds (mazeWidth maze) (mazeHeight maze)
            (moveTo (x, y) d).1 (moveTo (x, y) d).2 = true →
          ∀ cell, cellAt maze x y = some cell → dirWall d cell = false →
            moveTo (x, y) d ∈ closedP ∨
              (moveTo (x, y) d ∈ openCoords open' ∧
                ∃ v', g'.lookup (moveTo (x, y) d) = some v' ∧ v' ≤ gCur + 1)))
      ∨ (expPush maze (mazeWidth maze) (mazeHeight maze) x y gCur closedP dirs open_ g cf
          = .typeError ∧ cellAt maze x y = none) := by
  intro dirs
  induction dirs with
  | nil =>
    intro open_ g cf hnd hxy hsync hkeys
    left
    exact ⟨open_, g, cf, rfl, fun k _ => rfl, fun k => Or.inr ⟨rfl, rfl⟩,
      fun k v v' h1 h2 => le_of_eq (by rw [h1] at h2; injection h2 with h2; exact h2.symm),
      fun k v h1 => ⟨v, h1⟩, fun n hn => Or.inl ⟨hn, rfl⟩, fun c hc => hc,
      ⟨[], rfl, fun k v h1 => Or.inl h1⟩, hnd, hkeys, by simp⟩
  | cons d rest ih =>
    intro open_ g cf hnd hxy hsync hkeys
    by_cases hb : inBounds (mazeWidth maze) (mazeHeight maze)
        (x + (dirDelta d).1) (y + (dirDelta d).2)
    · cases hc : cellAt maze x y with
      | none =>
        right
        constructor
        · simp only [expPush, hb, if_true, hc]
        · rfl
      | some cell =>
        by_cases hw : dirWall d cell
        · have heq : expPush maze (mazeWidth maze) (mazeHeight maze) x y gCur closedP
              (d :: rest) open_ g cf =
              expPush maze (mazeWidth maze) (mazeHeight maze) x y gCur closedP
                rest open_ g cf := by
            simp only [expPush, hb, if_true, hc, hw]
          rw [heq]
          rcases ih open_ g cf hnd hxy hsync hkeys with
            ⟨o', g', cf', h1, h2, h3, h4, h5, h6, h7, h8, h9, h10, h11⟩ | h
          · left
            refine ⟨o', g', cf', h1, h2, h3, h4, h5, h6, h7, h8, h9, h10, ?_⟩
            intro d2 hd2 hb2 cell2 hc2 hw2
            rcases List.mem_cons.mp hd2 with rfl | hd2
            · injection hc2 with hc2
              subst hc2
              rw [hw] at hw2
              cases hw2
            · exact h11 d2 hd2 hb2 cell2 (hc.trans hc2) hw2
          · exact absurd h.2 (by simp [hc])
        · by_cases hcl : closedP.contains (x + (dirDelta d).1, y + (dirDelta d).2)
          · have heq : expPush maze (mazeWidth maze) (mazeHeight maze) x y gCur closedP
                (d :: rest) open_ g cf =
                expPush maze (mazeWidth maze) (mazeHeight maze) x y gCur closedP
                  rest open_ g cf := by
              simp only [expPush, hb, if_true, hc, hw, Bool.false_eq_true, if_false, hcl]
            rw [heq]
            rcases ih open_ g cf hnd hxy hsync hkeys with
              ⟨o', g', cf', h1, h2, h3, h4, h5, h6, h7, h8, h9, h10, h11⟩ | h
            · left
              refine ⟨o', g', cf', h1, h2, h3, h4, h5, h6, h7, h8, h9, h10, ?_⟩
              intro d2 hd2 hb2 cell2 hc2 hw2
              rcases List.mem_cons.mp hd2 with rfl | hd2
              · exact Or.inl (contains_iff_mem.mp hcl)
              · exact h11 d2 hd2 hb2 cell2 (hc.trans hc2) hw2
            · exact absurd h.2 (by simp [hc])
          · have hclm : (x + (dirDelta d).1, y + (dirDelta d).2) ∉ closedP :=
              fun hm => hcl (contains_iff_mem.mpr hm)
            have hstep : stepOk maze (x, y)
                (x + (dirDelta d).1, y + (dirDelta d).2) = true :=
              stepOk_iff.mpr ⟨d, rfl, hb, cell, hc, by simpa using hw⟩
            have hnxy : ((x + (dirDelta d).1, y + (dirDelta d).2) : Coord) ≠ (x, y) :=
              fun he => hclm (he ▸ hxy)
            by_cases hi : (match g.lookup (x + (dirDelta d).1, y + (dirDelta d).2) with
                | none => true
                | some m => decide (gCur + 1 < m)) = true
            · -- improvement: a binding and a cameFrom entry are recorded
              have hlt : ∀ m, g.lookup (x + (dirDelta d).1, y + (dirDelta d).2) =
                  some m → gCur + 1 < m := by
                intro m hm
                rw [hm] at hi
                simpa using hi
              cases hf : open_.find? (fun n => n.x = x + (dirDelta d).1 ∧
                  n.y = y + (dirDelta d).2) with
              | none =>
                have heq : expPush maze (mazeWidth maze) (mazeHeight maze) x y gCur
                    closedP (d :: rest) open_ g cf =
                    expPush maze (mazeWidth maze) (mazeHeight maze) x y gCur closedP
                      rest (open_ ++ [⟨x + (dirDelta d).1, y + (dirDelta d).2, gCur + 1⟩])
                      (((x + (dirDelta d).1, y + (dirDelta d).2), gCur + 1) :: g)
                      (((x + (dirDelta d).1, y + (dirDelta d).2), (x, y)) :: cf) := by
                  simp only [expPush, hb, if_true, hc, hw, Bool.false_eq_true, if_false,
                    hcl, hi, hf]
                rw [heq]
                have hfresh : ∀ n ∈ open_, ¬((n.x, n.y) =
                    (x + (dirDelta d).1, y + (dirDelta d).2)) := by
                  intro n hn he
                  have := List.find?_eq_none.mp hf n hn
                  simp only [decide_eq_true_eq] at this
                  exact this ⟨congrArg Prod.fst he, congrArg Prod.snd he⟩
                have hnewmem : ((x + (dirDelta d).1, y + (dirDelta d).2) : Coord) ∈
                    openCoords (open_ ++
                      [⟨x + (dirDelta d).1, y + (dirDelta d).2, gCur + 1⟩]) := by
                  rw [openCoords_append]
                  exact List.mem_append_right _ (by simp [openCoords])
                have hnd2 : (openCoords (open_ ++
                    [⟨x + (dirDelta d).1, y + (dirDelta d).2, gCur + 1⟩])).Nodup := by
                  rw [openCoords_append]
                  refine List.Nodup.append hnd (by simp [openCoords]) ?_
                  intro a ha hb2
                  simp only [openCoords, List.map_cons, List.map_nil,
                    List.mem_singleton] at hb2
                  rcases List.mem_map.mp ha with ⟨n, hn, rfl⟩
                  exact hfresh n hn hb2
                have hsync2 : ∀ n ∈ open_ ++
                    [(⟨x + (dirDelta d).1, y + (dirDelta d).2, gCur + 1⟩ : ExpNode)],
                    (((x + (dirDelta d).1, y + (dirDelta d).2), gCur + 1) :: g).lookup
                      (n.x, n.y) = some n.g := by
                  intro n hn
                  rcases List.mem_append.mp hn with hn | hn
                  · rw [lookup_cons_ne _ _ _ _ (hfresh n hn)]
                    exact hsync n hn
                  · rcases List.mem_singleton.mp hn with rfl
                    exact lookup_cons_self _ _ _
                have hkeys2 : ∀ p ∈ (((x + (dirDelta d).1, y + (dirDelta d).2),
                    gCur + 1) :: g), p.1 ∈ openCoords (open_ ++
                      [⟨x + (dirDelta d).1, y + (dirDelta d).2, gCur + 1⟩]) ∨
                    p.1 ∈ closedP := by
                  intro p hp
                  rcases List.mem_cons.mp hp with rfl | hp
                  · exact Or.inl hnewmem
                  · rcases hkeys p hp with hm | hm
                    · left
                      rw [openCoords_append]
                      exact List.mem_append_left _ hm
                    · exact Or.inr hm
                rcases ih (open_ ++ [⟨x + (dirDelta d).1, y + (dirDelta d).2, gCur + 1⟩])
                    (((x + (dirDelta d).1, y + (dirDelta d).2), gCur + 1) :: g)
                    (((x + (dirDelta d).1, y + (dirDelta d).2), (x, y)) :: cf)
                    hnd2 hxy hsync2 hkeys2 with
                  ⟨o', g', cf', h1, h2, h3, h4, h5, h6, h7, h8, h9, h10, h11⟩ | h
                · left
                  refine ⟨o', g', cf', h1, ?_, ?_, ?_, ?_, ?_, ?_, ?_, h9, h10, ?_⟩
                  · intro k hk
                    rw [h2 k hk]
                    exact lookup_cons_ne _ _ _ _ (fun he => hclm (he ▸ hk))
                  · intro k
                    rcases h3 k with hnew | ⟨hcfk, hgk⟩
                    · exact Or.inl hnew
                    · by_cases hke : k = (x + (dirDelta d).1, y + (dirDelta d).2)
                      · subst hke
                        rw [lookup_cons_self] at hcfk hgk
                        exact Or.inl ⟨hcfk, hgk, hstep, hclm⟩
                      · rw [lookup_cons_ne _ _ _ _ hke] at hcfk hgk
                        exact Or.inr ⟨hcfk, hgk⟩
                  · intro k v v' hv hv'
                    by_cases hke : k = (x + (dirDelta d).1, y + (dirDelta d).2)
                    · subst hke
                      have := hlt v hv
                      have h4' := h4 _ (gCur + 1) v' (lookup_cons_self _ _ _) hv'
                      omega
                    · exact h4 k v v' (by rw [lookup_cons_ne _ _ _ _ hke]; exact hv) hv'
                  · intro k v hv
                    by_cases hke : k = (x + (dirDelta d).1, y + (dirDelta d).2)
                    · subst hke
                      exact h5 _ (gCur + 1) (lookup_cons_self _ _ _)
                    · exact h5 k v (by rw [lookup_cons_ne _ _ _ _ hke]; exact hv)
                  · intro n hn
                    rcases h6 n hn with ⟨hmem, hgn⟩ | hupd
                    · rcases List.mem_append.mp hmem with hmem | hmem
                      · refine Or.inl ⟨hmem, ?_⟩
                        rw [hgn, lookup_cons_ne _ _ _ _ (hfresh n hmem)]
                      · rcases List.mem_singleton.mp hmem with rfl
                        refine Or.inr ⟨rfl, hstep, hclm, ?_⟩
                        rw [hgn, lookup_cons_self]
                    · exact Or.inr hupd
                  · intro c hcm
                    refine h7 c ?_
                    rw [openCoords_append]
                    exact List.mem_append_left _ hcm
                  · rcases h8 with ⟨cfNew, hcfe, hval⟩
                    refine ⟨cfNew ++ [((x + (dirDelta d).1, y + (dirDelta d).2),
                      ((x, y) : Coord))], by rw [hcfe]; simp, ?_⟩
                    intro k v hv
                    rcases hval k v hv with hv2 | ⟨hvv, _⟩
                    · by_cases hke : k = (x + (dirDelta d).1, y + (dirDelta d).2)
                      · subst hke
                        rw [lookup_cons_self] at hv2
                        injection hv2 with hv2
                        exact Or.inr ⟨hv2.symm, by simp⟩
                      · rw [lookup_cons_ne _ _ _ _ hke] at hv2
                        exact Or.inl hv2
                    · exact Or.inr ⟨hvv, by simp⟩
                  · intro d2 hd2 hb2 cell2 hc2 hw2
                    rcases List.mem_cons.mp hd2 with rfl | hd2
                    · right
                      constructor
                      · exact h7 _ hnewmem
                      · obtain ⟨v', hv'⟩ := h5 _ (gCur + 1) (lookup_cons_self _ _ _)
                        exact ⟨v', hv', h4 _ (gCur + 1) v'
                          (lookup_cons_self _ _ _) hv'⟩
                    · have := h11 d2 hd2 hb2 cell2 (hc.trans hc2) hw2
                      rcases this with hm | ⟨hop, v', hv', hle⟩
                      · exact Or.inl hm
                      · exact Or.inr ⟨hop, v', hv', hle⟩
                · exact absurd h.2 (by simp [hc])
              | some found =>
                have hfound1 := List.find?_some hf
                have hfound2 := List.mem_of_find?_eq_some hf
                simp only [decide_eq_true_eq] at hfound1
                have hfc : ((found.x, found.y) : Coord) =
                    (x + (dirDelta d).1, y + (dirDelta d).2) := by
                  rw [hfound1.1, hfound1.2]
                have heq : expPush maze (mazeWidth maze) (mazeHeight maze) x y gCur
                    closedP (d :: rest) open_ g cf =
                    expPush maze (mazeWidth maze) (mazeHeight maze) x y gCur closedP
                      rest (setGAt open_ (x + (dirDelta d).1, y + (dirDelta d).2)
                        (gCur + 1))
                      (((x + (dirDelta d).1, y + (dirDelta d).2), gCur + 1) :: g)
                      (((x + (dirDelta d).1, y + (dirDelta d).2), (x, y)) :: cf) := by
                  simp only [expPush, hb, if_true, hc, hw, Bool.false_eq_true, if_false,
                    hcl, hi, hf]
                rw [heq]
                have hmem0 : ((x + (dirDelta d).1, y + (dirDelta d).2) : Coord) ∈
                    openCoords open_ := by
                  rw [← hfc]
                  exact List.mem_map.mpr ⟨found, hfound2, rfl⟩
                have hnd2 : (openCoords (setGAt open_
                    (x + (dirDelta d).1, y + (dirDelta d).2) (gCur + 1))).Nodup := by
                  rw [openCoords_setGAt]
                  exact hnd
                have hsync2 : ∀ n ∈ setGAt open_
                    (x + (dirDelta d).1, y + (dirDelta d).2) (gCur + 1),
                    (((x + (dirDelta d).1, y + (dirDelta d).2), gCur + 1) :: g).lookup
                      (n.x, n.y) = some n.g := by
                  intro n hn
                  rcases mem_setGAt_nodup hnd hn with ⟨hmem, hne⟩ | ⟨hcoord, hgv⟩
                  · rw [lookup_cons_ne _ _ _ _ hne]
                    exact hsync n hmem
                  · rw [hcoord, hgv]
                    exact lookup_cons_self _ _ _
                have hkeys2 : ∀ p ∈ (((x + (dirDelta d).1, y + (dirDelta d).2),
                    gCur + 1) :: g), p.1 ∈ openCoords (setGAt open_
                      (x + (dirDelta d).1, y + (dirDelta d).2) (gCur + 1)) ∨
                    p.1 ∈ closedP := by
                  intro p hp
                  rw [openCoords_setGAt]
                  rcases List.mem_cons.mp hp with rfl | hp
                  · exact Or.inl hmem0
                  · exact hkeys p hp
                rcases ih (setGAt open_ (x + (dirDelta d).1, y + (dirDelta d).2)
                      (gCur + 1))
                    (((x + (dirDelta d).1, y + (dirDelta d).2), gCur + 1) :: g)
                    (((x + (dirDelta d).1, y + (dirDelta d).2), (x, y)) :: cf)
                    hnd2 hxy hsync2 hkeys2 with
                  ⟨o', g', cf', h1, h2, h3, h4, h5, h6, h7, h8, h9, h10, h11⟩ | h
                · left
                  refine ⟨o', g', cf', h1, ?_, ?_, ?_, ?_, ?_, ?_, ?_, h9, h10, ?_⟩
                  · intro k hk
                    rw [h2 k hk]
                    exact lookup_cons_ne _ _ _ _ (fun he => hclm (he ▸ hk))
                  · intro k
                    rcases h3 k with hnew | ⟨hcfk, hgk⟩
                    · exact Or.inl hnew
                    · by_cases hke : k = (x + (dirDelta d).1, y + (dirDelta d).2)
                      · subst hke
                        rw [lookup_cons_self] at hcfk hgk
                        exact Or.inl ⟨hcfk, hgk, hstep, hclm⟩
                      · rw [lookup_cons_ne _ _ _ _ hke] at hcfk hgk
                        exact Or.inr ⟨hcfk, hgk⟩
                  · intro k v v' hv hv'
                    by_cases hke : k = (x + (dirDelta d).1, y + (dirDelta d).2)
                    · subst hke
                      have := hlt v hv
                      have h4' := h4 _ (gCur + 1) v' (lookup_cons_self _ _ _) hv'
                      omega
                    · exact h4 k v v' (by rw [lookup_cons_ne _ _ _ _ hke]; exact hv) hv'
                  · intro k v hv
                    by_cases hke : k = (x + (dirDelta d).1, y + (dirDelta d).2)
                    · subst hke
                      exact h5 _ (gCur + 1) (lookup_cons_self _ _ _)
                    · exact h5 k v (by rw [lookup_cons_ne _ _ _ _ hke]; exact hv)
                  · intro n hn
                    rcases h6 n hn with ⟨hmem, hgn⟩ | hupd
                    · rcases mem_setGAt_nodup hnd hmem with ⟨hmem2, hne2⟩ |
                        ⟨hcoord, hgv⟩
                      · refine Or.inl ⟨hmem2, ?_⟩
                        rw [hgn, lookup_cons_ne _ _ _ _ hne2]
                      · refine Or.inr ⟨hgv, ?_, ?_, ?_⟩
                        · rw [hcoord]
                          exact hstep
                        · rw [hcoord]
                          exact hclm
                        · rw [hgn, hcoord, lookup_cons_self]
                    · exact Or.inr hupd
                  · intro c hcm
                    refine h7 c ?_
                    rw [openCoords_setGAt]
                    exact hcm
                  · rcases h8 with ⟨cfNew, hcfe, hval⟩
                    refine ⟨cfNew ++ [((x + (dirDelta d).1, y + (dirDelta d).2),
                      ((x, y) : Coord))], by rw [hcfe]; simp, ?_⟩
                    intro k v hv
                    rcases hval k v hv with hv2 | ⟨hvv, _⟩
                    · by_cases hke : k = (x + (dirDelta d).1, y + (dirDelta d).2)
                      · subst hke
                        rw [lookup_cons_self] at hv2
                        injection hv2 with hv2
                        exact Or.inr ⟨hv2.symm, by simp⟩
                      · rw [lookup_cons_ne _ _ _ _ hke] at hv2
                        exact Or.inl hv2
                    · exact Or.inr ⟨hvv, by simp⟩
                  · intro d2 hd2 hb2 cell2 hc2 hw2
                    rcases List.mem_cons.mp hd2 with rfl | hd2
                    · right
                      constructor
                      · refine h7 _ ?_
                        rw [openCoords_setGAt]
                        exact hmem0
                      · obtain ⟨v', hv'⟩ := h5 _ (gCur + 1) (lookup_cons_self _ _ _)
                        exact ⟨v', hv', h4 _ (gCur + 1) v'
                          (lookup_cons_self _ _ _) hv'⟩
                    · have := h11 d2 hd2 hb2 cell2 (hc.trans hc2) hw2
                      rcases this with hm | ⟨hop, v', hv', hle⟩
                      · exact Or.inl hm
                      · exact Or.inr ⟨hop, v', hv', hle⟩
                · exact absurd h.2 (by simp [hc])
            · -- no improvement: the existing binding is at most `g(current)+1`
              have heq : expPush maze (mazeWidth maze) (mazeHeight maze) x y gCur
                  closedP (d :: rest) open_ g cf =
                  expPush maze (mazeWidth maze) (mazeHeight maze) x y gCur closedP
                    rest open_ g cf := by
                simp only [expPush, hb, if_true, hc, hw, Bool.false_eq_true, if_false,
                  hcl, hi]
              rw [heq]
              obtain ⟨m0, hm0, hm0le⟩ : ∃ m0, g.lookup (x + (dirDelta d).1,
                  y + (dirDelta d).2) = some m0 ∧ m0 ≤ gCur + 1 := by
                cases hg0 : g.lookup (x + (dirDelta d).1, y + (dirDelta d).2) with
                | none => rw [hg0] at hi; simp at hi
                | some m =>
                  refine ⟨m, rfl, ?_⟩
                  rw [hg0] at hi
                  simp only [decide_eq_true_eq] at hi
                  omega
              have hmem0 : ((x + (dirDelta d).1, y + (dirDelta d).2) : Coord) ∈
                  openCoords open_ := by
                have hsome : ((g.lookup (x + (dirDelta d).1,
                    y + (dirDelta d).2)).isSome) = true := by
                  rw [hm0]
                  rfl
                rcases lookup_isSome_key hsome with ⟨p, hp, hpk⟩
                rcases hkeys p hp with hm | hm
                · rw [← hpk]
                  exact hm
                · exact absurd (hpk ▸ hm) hclm
              rcases ih open_ g cf hnd hxy hsync hkeys with
                ⟨o', g', cf', h1, h2, h3, h4, h5, h6, h7, h8, h9, h10, h11⟩ | h
              · left
                refine ⟨o', g', cf', h1, h2, h3, h4, h5, h6, h7, h8, h9, h10, ?_⟩
                intro d2 hd2 hb2 cell2 hc2 hw2
                rcases List.mem_cons.mp hd2 with rfl | hd2
                · right
                  constructor
                  · exact h7 _ hmem0
                  · obtain ⟨v', hv'⟩ := h5 _ m0 hm0
                    exact ⟨v', hv', le_trans (h4 _ m0 v' hm0 hv') hm0le⟩
                · exact h11 d2 hd2 hb2 cell2 (hc.trans hc2) hw2
              · exact absurd h.2 (by simp [hc])
    · have heq : expPush maze (mazeWidth maze) (mazeHeight maze) x y gCur closedP
          (d :: rest) open_ g cf =
          expPush maze (mazeWidth maze) (mazeHeight maze) x y gCur closedP
            rest open_ g cf := by
        simp only [expPush, hb, Bool.false_eq_true, if_false]
      rw [heq]
      rcases ih open_ g cf hnd hxy hsync hkeys with
        ⟨o', g', cf', h1, h2, h3, h4, h5, h6, h7, h8, h9, h10, h11⟩ | h
      · left
        refine ⟨o', g', cf', h1, h2, h3, h4, h5, h6, h7, h8, h9, h10, ?_⟩
        intro d2 hd2 hb2 cell2 hc2 hw2
        rcases List.mem_cons.mp hd2 with rfl | hd2
        · exact absurd hb2 (by simpa using hb)
        · exact h11 d2 hd2 hb2 cell2 hc2 hw2
      · exact Or.inr h

/-- The `astarExplore` optimality invariant: bindings agree with open node
weights, open weights are realizable path lengths, closed cells carry exact
distances, edges out of closed cells stay closed or reach admissibly
weighted open cells, open coordinates are duplicate-free and unclosed, keys
are open or closed, the start is closed (or the state is initial), the goal
is never closed, every binding of a non-start key has a consistent
`cameFrom` entry to a closed optimal predecessor, and bindings are bounded
by the `cameFrom` length. -/
def ExpOptInv (maze : Maze) (s : Coord) (ex ey : Int) (open_ : List ExpNode)
    (closed : List Coord) (g : List (Coord × Nat)) (cf : List (Coord × Coord)) : Prop :=
  (∀ n ∈ open_, g.lookup (n.x, n.y) = some n.g) ∧
  (∀ n ∈ open_, ∃ p, ValidPath maze s (n.x, n.y) p ∧ p.length = n.g) ∧
  (∀ c ∈ closed, ∃ nc, g.lookup c = some nc ∧ IsDist maze s c nc) ∧
  (∀ c ∈ closed, ∀ c2, stepOk maze c c2 = true →
    c2 ∈ closed ∨ (c2 ∈ openCoords open_ ∧
      ∀ nc, g.lookup c = some nc → ∃ v2, g.lookup c2 = some v2 ∧ v2 ≤ nc + 1)) ∧
  (openCoords open_).Nodup ∧
  (∀ c ∈ openCoords open_, c ∉ closed) ∧
  (∀ p ∈ g, p.1 ∈ openCoords open_ ∨ p.1 ∈ closed) ∧
  (s ∈ closed ∨ (closed = [] ∧ open_ = [⟨s.1, s.2, 0⟩] ∧
    g = [((s.1, s.2), 0)] ∧ cf = [])) ∧
  ((ex, ey) ∉ closed) ∧
  (∀ k v, g.lookup k = some v → k ≠ s →
    ∃ pred vp, cf.lookup k = some pred ∧ stepOk maze pred k = true ∧
      g.lookup pred = some vp ∧ v = vp + 1 ∧ pred ∈ closed ∧
      IsDist maze s pred vp) ∧
  (∀ k v, g.lookup k = some v → v ≤ cf.length)

/-- The frontier lemma for `astarExplore`. -/
theorem exp_frontier {maze : Maze} {s : Coord}
    {open_ : List ExpNode} {closed : List Coord} {g : List (Coord × Nat)}
    (hE2 : ∀ c ∈ closed, ∃ nc, g.lookup c = some nc ∧ IsDist maze s c nc)
    (hE3 : ∀ c ∈ closed, ∀ c2, stepOk maze c c2 = true →
      c2 ∈ closed ∨ (c2 ∈ openCoords open_ ∧
        ∀ nc, g.lookup c = some nc → ∃ v2, g.lookup c2 = some v2 ∧ v2 ≤ nc + 1))
    (hE1 : ∀ n ∈ open_, g.lookup (n.x, n.y) = some n.g)
    (hsc : s ∈ closed) :
    ∀ (p : List Coord) (c : Coord), ValidPath maze s c p → c ∉ closed →
      ∃ n ∈ open_, ∃ p1 p2, p = p1 ++ p2 ∧ ValidPath maze s (n.x, n.y) p1 ∧
        n.g ≤ p1.length := by
  intro p
  induction p using List.reverseRecOn with
  | nil =>
    intro c hv hnc
    have hcs : s = c := by simpa [lastC] using hv.2
    exact absurd (hcs ▸ hsc) hnc
  | append_singleton p' a ih =>
    intro c hv hnc
    obtain ⟨hch, hl⟩ := hv
    rw [lastC_append_single] at hl
    subst hl
    rw [chainOk_append_single, Bool.and_eq_true] at hch
    by_cases hc' : lastC s p' ∈ closed
    · rcases hE3 _ hc' _ hch.2 with hcc | ⟨hco, hbound⟩
      · exact absurd hcc hnc
      · obtain ⟨nc, hgc', hdist⟩ := hE2 _ hc'
        obtain ⟨v2, hg2, hle⟩ := hbound nc hgc'
        rcases mem_openCoords.mp hco with ⟨n, hn, hcoord⟩
        refine ⟨n, hn, p' ++ [a], [], by simp, ?_, ?_⟩
        · rw [hcoord]
          refine ⟨?_, lastC_append_single _ _ _⟩
          rw [chainOk_append_single, hch.1, hch.2]
          rfl
        · have hng : g.lookup (n.x, n.y) = some n.g := hE1 n hn
          rw [hcoord, hg2] at hng
          injection hng with hng
          have hmin := hdist.2 p' ⟨hch.1, rfl⟩
          simp only [List.length_append, List.length_cons, List.length_nil]
          omega
    · rcases ih (lastC s p') ⟨hch.1, rfl⟩ hc' with ⟨n, hn, p1, p2, hsplit2, hv1, hle⟩
      exact ⟨n, hn, p1, p2 ++ [a], by rw [hsplit2, List.append_assoc], hv1, hle⟩

/-- The popped node of the sorted `astarExplore` open set carries a shortest
path weight. -/
theorem exp_popped_min {maze : Maze} {s : Coord} {ex ey : Int}
    {open_ : List ExpNode} {closed : List Coord} {g : List (Coord × Nat)}
    {cf : List (Coord × Coord)} {current : ExpNode} {rest : List ExpNode}
    (hopt : ExpOptInv maze s ex ey open_ closed g cf)
    (hsc : s ∈ closed)
    (hsort : sortBy (expLe ex ey) open_ = current :: rest) :
    ∀ p, ValidPath maze s (current.x, current.y) p → current.g ≤ p.length := by
  intro p hp
  obtain ⟨hE1, hE9, hE2, hE3, hE4a, hE4b, hE10, hE5, hE6, hE7, hE8⟩ := hopt
  have hcur_mem : current ∈ open_ := by
    have : current ∈ sortBy (expLe ex ey) open_ := by
      rw [hsort]
      exact List.mem_cons_self _ _
    exact mem_sortBy.mp this
  have hcur_ncl : (current.x, current.y) ∉ closed :=
    hE4b _ (List.mem_map.mpr ⟨current, hcur_mem, rfl⟩)
  obtain ⟨n, hn, p1, p2, hsplit, hv1, hle⟩ :=
    exp_frontier hE2 hE3 hE1 hsc p (current.x, current.y) hp hcur_ncl
  have hmin : expF ex ey current ≤ expF ex ey n :=
    sortBy_head_min (expF ex ey) hsort n hn
  obtain ⟨hch, hl⟩ := hp
  rw [hsplit, chainOk_append, Bool.and_eq_true] at hch
  rw [hsplit, lastC_append] at hl
  have hlast1 : lastC s p1 = (n.x, n.y) := hv1.2
  rw [hlast1] at hch hl
  have hheur0 := heuristic_chain hch.2 ex ey
  rw [hl] at hheur0
  have hheur : heuristic n.x n.y ex ey ≤
      p2.length + heuristic current.x current.y ex ey := by
    simpa using hheur0
  rw [expF, expF] at hmin
  rw [hsplit]
  simp only [List.length_append]
  omega

/-- Expanding the minimal-`f` node preserves the `astarExplore` optimality
invariant. -/
theorem ExpOptInv.step_eopt {maze : Maze} {s : Coord} {ex ey : Int}
    {open_ : List ExpNode} {closed : List Coord} {g : List (Coord × Nat)}
    {cf : List (Coord × Coord)} {current : ExpNode} {rest : List ExpNode}
    {o2 : List ExpNode} {g2 : List (Coord × Nat)} {cf2 : List (Coord × Coord)}
    (hopt : ExpOptInv maze s ex ey open_ closed g cf)
    (hsort : sortBy (expLe ex ey) open_ = current :: rest)
    (hgneq : ¬(current.x = ex ∧ current.y = ey))
    (hp : expPush maze (mazeWidth maze) (mazeHeight maze) current.x current.y
        current.g ((current.x, current.y) :: closed) dirList rest g cf
      = .ok (o2, g2, cf2)) :
    ExpOptInv maze s ex ey o2 ((current.x, current.y) :: closed) g2 cf2 := by
  obtain ⟨hE1, hE9, hE2, hE3, hE4a, hE4b, hE10, hE5, hE6, hE7, hE8⟩ := hopt
  have hp1 : (((current.x, current.y) : Coord) :: openCoords rest).Perm
      (openCoords open_) := by
    have h := (sortBy_perm (expLe ex ey) open_).map (fun n => (n.x, n.y))
    rw [hsort] at h
    exact h
  have hcur_mem : current ∈ open_ := by
    have : current ∈ sortBy (expLe ex ey) open_ := by
      rw [hsort]
      exact List.mem_cons_self _ _
    exact mem_sortBy.mp this
  have hrest_sub : ∀ n ∈ rest, n ∈ open_ := by
    intro n hn
    have : n ∈ sortBy (expLe ex ey) open_ := by
      rw [hsort]
      exact List.mem_cons_of_mem _ hn
    exact mem_sortBy.mp this
  have hnd2 : (((current.x, current.y) : Coord) :: openCoords rest).Nodup :=
    (hp1.nodup_iff).mpr hE4a
  have hndrest : (openCoords rest).Nodup := (List.nodup_cons.mp hnd2).2
  have hcur_nrest : ((current.x, current.y) : Coord) ∉ openCoords rest :=
    (List.nodup_cons.mp hnd2).1
  have hcur_ncl : (current.x, current.y) ∉ closed :=
    hE4b _ (List.mem_map.mpr ⟨current, hcur_mem, rfl⟩)
  have hsync_cur : g.lookup (current.x, current.y) = some current.g :=
    hE1 current hcur_mem
  have hopen_co : ∀ a ∈ openCoords open_,
      a = ((current.x, current.y) : Coord) ∨ a ∈ openCoords rest := by
    intro a ha
    exact List.mem_cons.mp (hp1.symm.subset ha)
  have hdist_cur : IsDist maze s (current.x, current.y) current.g := by
    constructor
    · exact hE9 current hcur_mem
    · rcases hE5 with hsc | ⟨hcl0, hop0, hg0, hcf0⟩
      · exact exp_popped_min ⟨hE1, hE9, hE2, hE3, hE4a, hE4b, hE10,
          Or.inl hsc, hE6, hE7, hE8⟩ hsc hsort
      · rw [hop0] at hsort
        have hsing : ([(⟨s.1, s.2, 0⟩ : ExpNode)] : List ExpNode)
            = current :: rest := by
          rw [← hsort]
          rfl
        injection hsing with hcur hrest
        intro p hp2
        rw [← hcur]
        simp
  have hsync_rest : ∀ n ∈ rest, g.lookup (n.x, n.y) = some n.g :=
    fun n hn => hE1 n (hrest_sub n hn)
  have hkeys2 : ∀ p ∈ g, p.1 ∈ openCoords rest ∨
      p.1 ∈ (current.x, current.y) :: closed := by
    intro p hp2
    rcases hE10 p hp2 with hm | hm
    · rcases hopen_co p.1 hm with he | hm2
      · exact Or.inr (by rw [he]; exact List.mem_cons_self _ _)
      · exact Or.inl hm2
    · exact Or.inr (List.mem_cons_of_mem _ hm)
  rcases expPush_opt_spec maze current.x current.y current.g
      ((current.x, current.y) :: closed) dirList rest g cf
      hndrest (List.mem_cons_self _ _) hsync_rest hkeys2 with
    ⟨o2b, g2b, cf2b, h1, h2, h3, h4, h5, h6, h7, h8, h9, h10, h11⟩ | ⟨h1, _⟩
  · rw [h1] at hp
    injection hp with hp
    injection hp with hpo hp
    injection hp with hpg hpc
    subst hpo
    subst hpg
    subst hpc
    have hgc2 : g2b.lookup (current.x, current.y) = some current.g := by
      rw [h2 _ (List.mem_cons_self _ _), hsync_cur]
    have hsync2 : ∀ n ∈ o2b, g2b.lookup (n.x, n.y) = some n.g := by
      intro n hn
      rcases h6 n hn with ⟨hmem, hgn⟩ | ⟨hng, _, _, hgn⟩
      · rw [hgn]
        exact hsync_rest n hmem
      · rw [hgn, hng]
    refine ⟨hsync2, ?_, ?_, ?_, h9, ?_, h10, ?_, ?_, ?_, ?_⟩
    · -- open weights realizable
      intro n hn
      rcases h6 n hn with ⟨hmem, _⟩ | ⟨hng, hstep2, _, _⟩
      · exact hE9 n (hrest_sub n hmem)
      · obtain ⟨q, hq, hqlen⟩ := hE9 current hcur_mem
        refine ⟨q ++ [(n.x, n.y)], ?_, ?_⟩
        · obtain ⟨hqc, hql⟩ := hq
          refine ⟨?_, lastC_append_single _ _ _⟩
          rw [chainOk_append_single, hqc, hql, hstep2]
          rfl
        · rw [hng]
          simp only [List.length_append, List.length_cons, List.length_nil]
          omega
    · -- closed distances
      intro c hc
      rcases List.mem_cons.mp hc with rfl | hc
      · exact ⟨current.g, hgc2, hdist_cur⟩
      · obtain ⟨nc, hgnc, hdist⟩ := hE2 c hc
        refine ⟨nc, ?_, hdist⟩
        rw [h2 c (List.mem_cons_of_mem _ hc), hgnc]
    · -- closure
      intro c hc c2 hs2
      rcases List.mem_cons.mp hc with rfl | hc
      · rcases stepOk_iff.mp hs2 with ⟨d, he2, hb2, cell, hc2, hw2⟩
        have hd : d ∈ dirList := by cases d <;> simp [dirList]
        subst he2
        rcases h11 d hd hb2 cell hc2 hw2 with hm | ⟨hop, v', hv', hle⟩
        · exact Or.inl hm
        · refine Or.inr ⟨hop, ?_⟩
          intro nc hnc
          rw [hgc2] at hnc
          injection hnc with hnc
          exact ⟨v', hv', by omega⟩
      · rcases hE3 c hc c2 hs2 with hm | ⟨hco, hbound⟩
        · exact Or.inl (List.mem_cons_of_mem _ hm)
        · rcases hopen_co c2 hco with he | hm2
          · exact Or.inl (by rw [he]; exact List.mem_cons_self _ _)
          · refine Or.inr ⟨h7 c2 hm2, ?_⟩
            intro nc hnc
            rw [h2 c (List.mem_cons_of_mem _ hc)] at hnc
            obtain ⟨v2, hg2v, hle2⟩ := hbound nc hnc
            obtain ⟨v2', hv2'⟩ := h5 c2 v2 hg2v
            exact ⟨v2', hv2', le_trans (h4 c2 v2 v2' hg2v hv2') hle2⟩
    · -- open coordinates stay unclosed
      intro c hcm hmem
      rcases mem_openCoords.mp hcm with ⟨n, hn, rfl⟩
      rcases h6 n hn with ⟨hmem2, _⟩ | ⟨_, _, hncl, _⟩
      · rcases List.mem_cons.mp hmem with he | hmem3
        · refine hcur_nrest ?_
          rw [← he]
          exact mem_openCoords.mpr ⟨n, hmem2, rfl⟩
        · exact hE4b _ (mem_openCoords.mpr ⟨n, hrest_sub n hmem2, rfl⟩) hmem3
      · exact hncl hmem
    · -- the start is closed
      by_cases hcs : ((current.x, current.y) : Coord) = s
      · exact Or.inl (by rw [hcs]; exact List.mem_cons_self _ _)
      · rcases hE5 with hsc | ⟨_, hop0, _, _⟩
        · exact Or.inl (List.mem_cons_of_mem _ hsc)
        · rw [hop0] at hcur_mem
          rcases List.mem_singleton.mp hcur_mem with he
          exact absurd (by rw [he]) hcs
    · -- the goal stays unclosed
      intro hmem
      rcases List.mem_cons.mp hmem with he | hmem
      · exact hgneq ⟨(congrArg Prod.fst he).symm, (congrArg Prod.snd he).symm⟩
      · exact hE6 hmem
    · -- cameFrom consistency
      intro k v hkv hks
      rcases h3 k with ⟨hcfk, hgk, hstep2, hkcl⟩ | ⟨hcfk, hgk⟩
      · rw [hgk] at hkv
        injection hkv with hkv
        exact ⟨(current.x, current.y), current.g, hcfk, hstep2, hgc2, hkv.symm,
          List.mem_cons_self _ _, hdist_cur⟩
      · rw [hgk] at hkv
        obtain ⟨pred, vp, hcf0, hst0, hg0, hv0, hpcl, hpd⟩ := hE7 k v hkv hks
        refine ⟨pred, vp, by rw [hcfk]; exact hcf0, hst0, ?_, hv0,
          List.mem_cons_of_mem _ hpcl, hpd⟩
        rw [h2 pred (List.mem_cons_of_mem _ hpcl), hg0]
    · -- bindings bounded by the cameFrom length
      intro k v hkv
      obtain ⟨cfNew, hcfe, hval⟩ := h8
      have hcur_len : current.g ≤ cf.length := hE8 _ _ hsync_cur
      rcases hval k v hkv with hold | ⟨hv1, hne⟩
      · have := hE8 k v hold
        rw [hcfe]
        simp only [List.length_append]
        omega
      · rw [hcfe, hv1]
        have : 1 ≤ cfNew.length := by
          cases cfNew with
          | nil => exact absurd rfl hne
          | cons a t => simp
        simp only [List.length_append]
        omega
  · rw [h1] at hp
    cases hp

/-- Any `ok` result of the `astarExplore` loop under the optimality
invariant, with the goal reachable, binds the goal to its exact distance and
leaves a reconstructible `cameFrom` map. -/
theorem expLoop_opt (maze : Maze) (s : Coord) (ex ey : Int) :
    ∀ (fuel : Nat) (open_ : List ExpNode) (closed explored : List Coord)
      (g : List (Coord × Nat)) (cf : List (Coord × Coord)),
      ExpOptInv maze s ex ey open_ closed g cf →
      Reachable maze s (ex, ey) →
      ∀ l g2 cf2,
        expLoop maze s.1 s.2 ex ey fuel open_ closed explored g cf
          = .ok (l, g2, cf2) →
        ∃ vg, g2.lookup (ex, ey) = some vg ∧ IsDist maze s (ex, ey) vg ∧
          (∀ k v, g2.lookup k = some v → v ≤ cf2.length) ∧
          (∀ k v, g2.lookup k = some v → k ≠ s →
            ∃ pred vp, cf2.lookup k = some pred ∧ stepOk maze pred k = true ∧
              g2.lookup pred = some vp ∧ v = vp + 1 ∧ IsDist maze s pred vp) := by
  intro fuel
  induction fuel with
  | zero => intro _ _ _ _ _ _ _ l g2 cf2 h; cases h
  | succ fuel ih =>
    intro open_ closed explored g cf hopt hreach l g2 cf2 h
    have hoptc := hopt
    obtain ⟨hE1, hE9, hE2, hE3, hE4a, hE4b, hE10, hE5, hE6, hE7, hE8⟩ := hoptc
    cases hsort : sortBy (expLe ex ey) open_ with
    | nil =>
      exfalso
      have hopen : open_ = [] := sortBy_eq_nil_iff.mp hsort
      have hsc : s ∈ closed := by
        rcases hE5 with h2 | ⟨_, hop0, _, _⟩
        · exact h2
        · rw [hopen] at hop0
          simp at hop0
      obtain ⟨p, hp⟩ := hreach
      obtain ⟨n, hn, _⟩ := exp_frontier hE2 hE3 hE1 hsc p (ex, ey) hp hE6
      rw [hopen] at hn
      cases hn
    | cons current rest =>
      have hp1 : (((current.x, current.y) : Coord) :: openCoords rest).Perm
          (openCoords open_) := by
        have h2 := (sortBy_perm (expLe ex ey) open_).map (fun n => (n.x, n.y))
        rw [hsort] at h2
        exact h2
      have hcur_mem : current ∈ open_ := by
        have : current ∈ sortBy (expLe ex ey) open_ := by
          rw [hsort]
          exact List.mem_cons_self _ _
        exact mem_sortBy.mp this
      have hcur_co : ((current.x, current.y) : Coord) ∈ openCoords open_ :=
        hp1.subset (List.mem_cons_self _ _)
      rw [expLoop_cons_eq maze s.1 s.2 ex ey fuel open_ closed explored g cf
        current rest hsort] at h
      by_cases hc : closed.contains (current.x, current.y)
      · exact absurd (contains_iff_mem.mp hc) (hE4b _ hcur_co)
      · rw [if_neg hc] at h
        by_cases hgoal : current.x = ex ∧ current.y = ey
        · rw [if_pos hgoal] at h
          injection h with h
          have hgg : g = g2 := congrArg Prod.fst (congrArg Prod.snd h)
          have hcc : cf = cf2 := congrArg Prod.snd (congrArg Prod.snd h)
          subst hgg
          subst hcc
          have hce : ((current.x, current.y) : Coord) = (ex, ey) := by
            rw [hgoal.1, hgoal.2]
          have hdist_cur : IsDist maze s (current.x, current.y) current.g := by
            constructor
            · exact hE9 current hcur_mem
            · rcases hE5 with hsc | ⟨hcl0, hop0, hg0, hcf0⟩
              · exact exp_popped_min hopt hsc hsort
              · rw [hop0] at hsort
                have hsing : ([(⟨s.1, s.2, 0⟩ : ExpNode)] : List ExpNode)
                    = current :: rest := by
                  rw [← hsort]
                  rfl
                injection hsing with hcur _
                intro p hp2
                rw [← hcur]
                simp
          refine ⟨current.g, ?_, by rw [← hce]; exact hdist_cur, hE8, ?_⟩
          · rw [← hce]
            exact hE1 current hcur_mem
          · intro k v hkv hks
            obtain ⟨pred, vp, h1, h2, h3, h4, _, h6⟩ := hE7 k v hkv hks
            exact ⟨pred, vp, h1, h2, h3, h4, h6⟩
        · rw [if_neg hgoal] at h
          cases hp : expPush maze (mazeWidth maze) (mazeHeight maze) current.x
              current.y current.g ((current.x, current.y) :: closed) dirList
              rest g cf with
          | ok t =>
            obtain ⟨o2, g3, cf3⟩ := t
            rw [hp] at h
            exact ih o2 ((current.x, current.y) :: closed) _ g3 cf3
              (hopt.step_eopt hsort hgoal hp) hreach l g2 cf2 h
          | typeError => rw [hp] at h; cases h
          | outOfFuel => rw [hp] at h; cases h

/-- Correctness of the backward walk over a consistent `cameFrom` map: from
a cell at distance `v` it returns, within `v` hops, the accumulated cells
whose reversal is a wall-respecting path from the start. -/
theorem walkBack_spec (maze : Maze) (s : Coord) (g : List (Coord × Nat))
    (cf : List (Coord × Coord))
    (hE7 : ∀ k v, g.lookup k = some v → k ≠ s →
      ∃ pred vp, cf.lookup k = some pred ∧ stepOk maze pred k = true ∧
        g.lookup pred = some vp ∧ v = vp + 1 ∧ IsDist maze s pred vp) :
    ∀ (v fuel : Nat) (cur : Coord) (acc : List Coord),
      g.lookup cur = some v → IsDist maze s cur v → v < fuel →
      ∃ w, walkBack cf s fuel cur acc = some (acc ++ w) ∧ w.length = v ∧
        ValidPath maze s cur w.reverse := by
  intro v
  induction v with
  | zero =>
    intro fuel cur acc hg hdist hlt
    cases fuel with
    | zero => omega
    | succ f =>
      have hcs : cur = s := by
        obtain ⟨⟨p, hp, hplen⟩, _⟩ := hdist
        have hpnil : p = [] := List.length_eq_zero.mp hplen
        rw [hpnil] at hp
        have h2 := hp.2
        simpa [lastC] using h2.symm
      subst hcs
      refine ⟨[], ?_, rfl, ⟨rfl, rfl⟩⟩
      simp [walkBack]
  | succ v' ih =>
    intro fuel cur acc hg hdist hlt
    cases fuel with
    | zero => omega
    | succ f =>
      have hcs : ¬ cur = s := by
        intro he
        subst he
        have h0 := hdist.2 [] ⟨rfl, rfl⟩
        simp only [List.length_nil] at h0
        omega
      obtain ⟨pred, vp, hcf, hst, hgp, hv, hpd⟩ := hE7 cur (v' + 1) hg hcs
      have hvp : vp = v' := by omega
      subst hvp
      obtain ⟨w', hw', hwlen, hwvalid⟩ := ih f pred (acc ++ [cur]) hgp hpd (by omega)
      refine ⟨cur :: w', ?_, by simp [hwlen], ?_⟩
      · have e1 : walkBack cf s (f + 1) cur acc =
            walkBack cf s f pred (acc ++ [cur]) := by
          simp only [walkBack]
          rw [if_neg hcs, hcf]
        rw [e1, hw']
        congr 1
        simp
      · have hrev : (cur :: w').reverse = w'.reverse ++ [cur] := by simp
        rw [hrev]
        obtain ⟨hwc, hwl⟩ := hwvalid
        refine ⟨?_, lastC_append_single _ _ _⟩
        rw [chainOk_append_single, hwc, hwl, hst]
        rfl

/-- The `astarExplore` optimality invariant holds initially. -/
theorem expOptInv_init (maze : Maze) (s : Coord) (ex ey : Int) :
    ExpOptInv maze s ex ey [⟨s.1, s.2, 0⟩] [] [((s.1, s.2), 0)] [] := by
  refine ⟨?_, ?_, by simp, by simp, by simp [openCoords], by simp, ?_,
    Or.inr ⟨rfl, rfl, rfl, rfl⟩, by simp, ?_, ?_⟩
  · intro n hn
    rcases List.mem_singleton.mp hn with rfl
    simp [List.lookup]
  · intro n hn
    rcases List.mem_singleton.mp hn with rfl
    exact ⟨[], ⟨rfl, rfl⟩, rfl⟩
  · intro p hp
    rcases List.mem_singleton.mp hp with rfl
    left
    simp [openCoords]
  · intro k v hkv hks
    have hne : k ≠ ((s.1, s.2) : Coord) := hks
    rw [lookup_cons_ne _ _ _ _ hne] at hkv
    simp [List.lookup] at hkv
  · intro k v hkv
    by_cases hke : k = ((s.1, s.2) : Coord)
    · subst hke
      rw [lookup_cons_self] at hkv
      injection hkv with hkv
      simp only [List.length_nil]
      omega
    · rw [lookup_cons_ne _ _ _ _ hke] at hkv
      simp [List.lookup] at hkv

/-- `astarExplore` on a rectangular grid with an in-bounds start and a
reachable goal reconstructs a shortest path to the goal. -/
theorem astarExplore_shortest (maze : Maze) (s : Coord) (ex ey : Int)
    (hr : Rect maze)
    (hs : inBounds (mazeWidth maze) (mazeHeight maze) s.1 s.2 = true)
    (hreach : Reachable maze s (ex, ey)) :
    ∃ r, astarExplore s.1 s.2 ex ey maze = .ok r ∧
      ValidPath maze s (ex, ey) r.path ∧
      IsDist maze s (ex, ey) r.path.length := by
  have hinit := expInv_init maze s ex ey
  have hfuel : ([⟨s.1, s.2, 0⟩] : List ExpNode).length +
      5 * (mazeWidth maze * mazeHeight maze + 2 - ([] : List Coord).length)
      < astarFuel maze := by
    simp [astarFuel]
    omega
  have h1 := expLoop_no_fuel maze s ex ey (astarFuel maze) _ _ _ _ [] hinit hfuel
  have h2 := expLoop_no_typeError maze s ex ey hr hs (astarFuel maze) _ _ _ _ [] hinit
  cases hres : expLoop maze s.1 s.2 ex ey (astarFuel maze)
      [⟨s.1, s.2, 0⟩] [] [] [((s.1, s.2), 0)] [] with
  | ok t =>
    obtain ⟨l, g2, cf2⟩ := t
    obtain ⟨vg, hvg, hdist, hE8f, hE7f⟩ := expLoop_opt maze s ex ey (astarFuel maze)
      _ _ _ _ [] (expOptInv_init maze s ex ey) hreach l g2 cf2 hres
    have hwb := walkBack_spec maze s g2 cf2 hE7f vg (cf2.length + 1) (ex, ey) []
      hvg hdist (by have := hE8f _ _ hvg; omega)
    obtain ⟨w, hw, hwlen, hwvalid⟩ := hwb
    refine ⟨⟨l, w.reverse⟩, ?_, hwvalid, ?_⟩
    · have hsome : ((g2.lookup (ex, ey)).isSome) = true := by
        rw [hvg]
        rfl
      have hwb2 : walkBack cf2 (s.1, s.2) (cf2.length + 1) (ex, ey) [] =
          some w := by
        have hse : ((s.1, s.2) : Coord) = s := rfl
        rw [hse, hw]
        rfl
      rw [astarExplore.eq_def, hres]
      simp [hsome, hwb2]
    · have : w.reverse.length = vg := by
        rw [List.length_reverse, hwlen]
      rw [this]
      exact hdist
  | typeError => exact absurd hres h2
  | outOfFuel => exact absurd hres h1

/-- `astar` on a rectangular grid with an in-bounds start and a reachable
goal returns a shortest path. -/
theorem astar_shortest (maze : Maze) (s : Coord) (ex ey : Int) (hr : Rect maze)
    (hs : inBounds (mazeWidth maze) (mazeHeight maze) s.1 s.2 = true)
    (hreach : Reachable maze s (ex, ey)) :
    ∃ l, astar s.1 s.2 ex ey maze = .ok l ∧ ValidPath maze s (ex, ey) l ∧
      ∀ p, ValidPath maze s (ex, ey) p → l.length ≤ p.length := by
  have hinit := astarInv_init maze s
  have hfuel : ([⟨s.1, s.2, [s]⟩] : List SearchNode).length +
      5 * (mazeWidth maze * mazeHeight maze + 2 - ([] : List Coord).length)
      < astarFuel maze := by
    simp [astarFuel]
    omega
  have h1 := astarLoop_no_fuel maze s ex ey (astarFuel maze) _ _
    [((s.1, s.2), (0 : Nat))] hinit hfuel
  have h2 := astarLoop_no_typeError maze s ex ey hr hs (astarFuel maze) _ _
    [((s.1, s.2), (0 : Nat))] hinit
  cases hres : astarLoop maze ex ey (astarFuel maze) [⟨s.1, s.2, [s]⟩] []
      [((s.1, s.2), (0 : Nat))] with
  | ok l =>
    exact ⟨l, hres, astarLoop_opt maze s ex ey (astarFuel maze) _ _ _ hinit
      (aOptInv_init maze s ex ey) hreach l hres⟩
  | typeError => exact absurd hres h2
  | outOfFuel => exact absurd hres h1

/-- C3: on a rectangular grid with an in-bounds start, the A* path-mode
result and the path reconstructed from `astarExplore`'s predecessor map have
equal length: both empty when the goal is unreachable, both shortest paths
when it is reachable. -/
theorem C3_astar_explore_path_equiv (maze : Maze) (sx sy ex ey : Int)
    (hr : Rect maze)
    (hs : inBounds (mazeWidth maze) (mazeHeight maze) sx sy = true) :
    (¬ Reachable maze (sx, sy) (ex, ey) →
      astar sx sy ex ey maze = .ok [] ∧
      ∃ r, astarExplore sx sy ex ey maze = .ok r ∧ r.path = []) ∧
    (Reachable maze (sx, sy) (ex, ey) →
      ∃ l r, astar sx sy ex ey maze = .ok l ∧
        astarExplore sx sy ex ey maze = .ok r ∧
        r.path.length = l.length ∧
        ValidPath maze (sx, sy) (ex, ey) l ∧
        ValidPath maze (sx, sy) (ex, ey) r.path ∧
        ∀ p, ValidPath maze (sx, sy) (ex, ey) p → l.length ≤ p.length) := by
  constructor
  · intro hur
    constructor
    · obtain ⟨l, hl, hfacts⟩ := astar_results maze (sx, sy) ex ey hr hs
      have hl2 : astar sx sy ex ey maze = .ok l := hl
      rcases hfacts with rfl | ⟨hvp, _⟩
      · exact hl2
      · exact absurd ⟨l, hvp⟩ hur
    · obtain ⟨l, hl, _⟩ := astarExplore_results_unreachable maze (sx, sy) ex ey
        hr hs hur
      exact ⟨⟨l, []⟩, hl, rfl⟩
  · intro hreach
    obtain ⟨l, hl, hlv, hlmin⟩ := astar_shortest maze (sx, sy) ex ey hr hs hreach
    obtain ⟨r, hrr, hrv, hrdist⟩ := astarExplore_shortest maze (sx, sy) ex ey
      hr hs hreach
    have hl2 : astar sx sy ex ey maze = .ok l := hl
    have hr2 : astarExplore sx sy ex ey maze = .ok r := hrr
    refine ⟨l, r, hl2, hr2, ?_, hlv, hrv, hlmin⟩
    have h1 : r.path.length ≤ l.length := hrdist.2 l hlv
    have h2 : l.length ≤ r.path.length := hlmin r.path hrv
    omega

/-- Concrete instance of C3: a 2-by-1 open grid with a reachable goal. -/
theorem C3_witness :
    ∃ l r, astar 0 0 1 0
        [[⟨false, false, false, false⟩, ⟨false, false, false, false⟩]] = .ok l ∧
      astarExplore 0 0 1 0
        [[⟨false, false, false, false⟩, ⟨false, false, false, false⟩]] = .ok r ∧
      r.path.length = l.length ∧
      ValidPath [[⟨false, false, false, false⟩, ⟨false, false, false, false⟩]]
        (0, 0) (1, 0) l ∧
      ValidPath [[⟨false, false, false, false⟩, ⟨false, false, false, false⟩]]
        (0, 0) (1, 0) r.path ∧
      ∀ p, ValidPath [[⟨false, false, false, false⟩, ⟨false, false, false, false⟩]]
        (0, 0) (1, 0) p → l.length ≤ p.length :=
  (C3_astar_explore_path_equiv
    [[⟨false, false, false, false⟩, ⟨false, false, false, false⟩]] 0 0 1 0
    (by intro row hrow; rcases List.mem_singleton.mp hrow with rfl; rfl)
    (by decide)).2
    ⟨[(1, 0)], ⟨by decide, by decide⟩⟩

end Pathfinder
